import Mathlib

/-!
# A shallow embedding of `bf.c`

The interpreter has two phases.  `load` reads the program file byte by byte
and stores the opcode of every command character into a growing buffer that
is closed by `OP_EXIT`; `eval` runs the opcode buffer on a doubly linked chain
of `int` cells with a stack of loop entry indices.

Modelling conventions.

* `size_t` values (`real_size`, `prog_size`, `op`, stack entries) are natural
  numbers; a buffer of `2^64` opcodes is not representable, so no `size_t`
  arithmetic of the program overflows.  `malloc` and `realloc` succeed.
* A cell is a C `int`, and so is the depth counter `level` of the bracket
  search: arithmetic on them is taken modulo `2^32` in two's complement
  (`wrapInt`).
* The doubly linked chain of `storage` cells with the `store` pointer is a
  zipper: the cells on the `prev` side (nearest first), the cell pointed to,
  the cells on the `next` side (nearest first).  A `NULL` link is the empty
  list.
* The bracket stack is the list of its values, top first; `NULL` is `[]`.
  Dereferencing `NULL` and reading past the opcode buffer are faults.
* The byte streams behind `fgetc`/`getchar` and `printf` are lists.
-/

namespace BF

/-! ## Constants -/

@[simp] abbrev WORD_SIZE : Nat := 0x80
@[simp] abbrev BUFFER_FACTOR : Nat := 0x2
@[simp] abbrev BUFFER_START_SIZE : Nat := 0xF
@[simp] abbrev INPUT_EOF : Int := 0x0
/-- The value `EOF` of `<stdio.h>`. -/
@[simp] abbrev EOF : Int := -1
/-- The value `(size_t) -1`, that is `2^64 - 1`, which `eval` compares the
peeked index with. -/
@[simp] abbrev SIZE_MAX : Nat := 18446744073709551615

@[simp] abbrev OP_EXIT : Nat := 0x0
@[simp] abbrev OP_INCR_PTR : Nat := 0x1
@[simp] abbrev OP_DECR_PTR : Nat := 0x2
@[simp] abbrev OP_INCR_DATA : Nat := 0x3
@[simp] abbrev OP_DECR_DATA : Nat := 0x4
@[simp] abbrev OP_OUTPUT : Nat := 0x5
@[simp] abbrev OP_INPUT : Nat := 0x6
@[simp] abbrev OP_LOOP_START : Nat := 0x7
@[simp] abbrev OP_LOOP_END : Nat := 0x8

/-- The table `OPERATION[WORD_SIZE]`: the designated initialisers give eight
entries, every other entry of the 128 is zero.  `beyond c` is whatever the
read `OPERATION[c]` finds for an index `c` past the end of the table. -/
def OPERATION (beyond : Nat → Nat) (c : Nat) : Nat :=
  if c = 62 then OP_INCR_PTR          -- '>'
  else if c = 60 then OP_DECR_PTR     -- '<'
  else if c = 43 then OP_INCR_DATA    -- '+'
  else if c = 45 then OP_DECR_DATA    -- '-'
  else if c = 46 then OP_OUTPUT       -- '.'
  else if c = 44 then OP_INPUT        -- ','
  else if c = 91 then OP_LOOP_START   -- '['
  else if c = 93 then OP_LOOP_END     -- ']'
  else if c < WORD_SIZE then 0
  else beyond c

/-! ## `load`: the opcode buffer -/

/-- The local variables of the reading loop of `load`: `program` holds the
cells written so far, `prog_size` is the allocated capacity. -/
structure LoadState where
  real_size : Nat
  prog_size : Nat
  program : List Nat
  deriving DecidableEq, Repr

/-- The store `program[i] = code` into a buffer of capacity `cap` whose cells
below `i` are `buf`; `none` when the index is outside the allocation. -/
def poke (buf : List Nat) (cap i code : Nat) : Option (List Nat) :=
  if i < cap then some (buf.take i ++ [code]) else none

/-- The loop `while ((c = fgetc(program_file)) != EOF)` of `load`, over the
bytes of the program file. -/
def loadLoop (beyond : Nat → Nat) : List Nat → LoadState → Option LoadState
  | [], st => some st
  | c :: rest, st =>
    let st1 : LoadState :=
      if st.real_size ≥ st.prog_size - 1 then
        { st with prog_size := st.prog_size * BUFFER_FACTOR }
      else st
    let code := OPERATION beyond c
    if code ≠ OP_EXIT ∧ c < WORD_SIZE then
      match poke st1.program st1.prog_size st1.real_size code with
      | none => none
      | some p =>
        loadLoop beyond rest { st1 with program := p, real_size := st1.real_size + 1 }
    else loadLoop beyond rest st1

/-- The function `load` on the bytes of the program file: the buffer up to
and including the closing `OP_EXIT`, or `none` if some store falls outside
the allocated buffer. -/
def load (beyond : Nat → Nat) (src : List Nat) : Option (List Nat) :=
  match loadLoop beyond src ⟨0, BUFFER_START_SIZE, []⟩ with
  | none => none
  | some st => poke st.program st.prog_size st.real_size OP_EXIT

/-! ## The tape and the bracket stack -/

/-- The chain of `storage` cells seen from the cell `store` points to. -/
structure storage where
  prev : List Int
  value : Int
  next : List Int
  deriving DecidableEq, Repr

/-- The call `new_storage(value, NULL, NULL)`. -/
def new_storage (value : Int) : storage := ⟨[], value, []⟩

/-- The function `previous`: a missing left neighbour is created with value 0. -/
def previous (item : storage) : storage :=
  match item.prev with
  | [] => ⟨[], 0, item.value :: item.next⟩
  | p :: ps => ⟨ps, p, item.value :: item.next⟩

/-- The function `next`: a missing right neighbour is created with value 0. -/
def next (item : storage) : storage :=
  match item.next with
  | [] => ⟨item.value :: item.prev, 0, []⟩
  | n :: ns => ⟨item.value :: item.prev, n, ns⟩

/-- Arithmetic of a C `int`: the representative in `[-2^31, 2^31)`. -/
def wrapInt (v : Int) : Int := (v + 2147483648) % 4294967296 - 2147483648

/-- The function `push`. -/
def push (base : List Nat) (value : Nat) : List Nat := value :: base

/-- The function `peek`: `base->value`, undefined on `NULL`. -/
def peek (base : List Nat) : Option Nat := base.head?

/-- The function `pop`: `base->next`, undefined on `NULL`. -/
def pop (base : List Nat) : Option (List Nat) :=
  match base with
  | [] => none
  | _ :: rest => some rest

/-! ## `eval` -/

/-- The verbose messages of `eval`, with their argument. -/
inductive Trace where
  | V_OP_INCR_PTR
  | V_OP_DECR_PTR
  | V_OP_INCR_DATA (value : Int)
  | V_OP_DECR_DATA (value : Int)
  | V_OP_INPUT (value : Int)
  | V_OP_OUTPUT (value : Int)
  | V_OP_LOOP_JMP (op : Nat)
  | V_OP_LOOP_START
  | V_OP_LOOP_END
  deriving DecidableEq, Repr

/-- What `eval` writes to standard output: the byte of `printf("%c", v)`, or
a verbose message. -/
inductive Event where
  | putc (byte : Nat)
  | log (t : Trace)
  deriving DecidableEq, Repr

/-- The byte that `%c` writes for an `int` argument: its value as an
`unsigned char`. -/
def toByte (v : Int) : Nat := (v % 256).toNat

/-- The call `if (verbose_mode) printf(...)`. -/
def logIf (verbose : Bool) (t : Trace) : List Event :=
  if verbose then [Event.log t] else []

/-- One `fgetc`/`getchar`: the next byte as an `int`, or `EOF`. -/
def fgetc (input : List Nat) : Int × List Nat :=
  match input with
  | [] => (EOF, [])
  | b :: rest => ((b : Int), rest)

/-- The variables of `eval` and the two standard streams. -/
structure Machine where
  store : storage
  bracket : List Nat
  op : Nat
  input : List Nat
  output : List Event
  deriving DecidableEq, Repr

/-- How a run can stop without reaching `OP_EXIT`. -/
inductive Fault where
  /-- The branch `puts(ERR_BAD_BRACKETS); exit(EXIT_FAILURE);`. -/
  | badBrackets
  /-- The read `base->value` or `base->next` through a `NULL` stack. -/
  | nullDeref
  /-- The read `program[op]` past the cells that `load` wrote. -/
  | outOfBounds
  deriving DecidableEq, Repr

inductive Outcome where
  | running (m : Machine)
  | halted (m : Machine)
  | failed (f : Fault) (m : Machine)
  deriving DecidableEq, Repr

/-- Result of the bracket search: the value of `op` when the search stops. -/
inductive Scan where
  | found (op : Nat)
  | noMatch (op : Nat)
  | outside (op : Nat)
  deriving DecidableEq, Repr

/-- The loop `while (level > 0)` of the `OP_LOOP_START` case, entered with
`level > 0`.  `rest` are the cells of `program` after index `op`; each round
does `op++`, reads `program[op]`, and after `level++` or `level--` on the
`int level` the loop test is made again. -/
def scan : List Nat → Nat → Int → Scan
  | [], op, _ => Scan.outside (op + 1)
  | c :: rest, op, level =>
    if c = OP_LOOP_START then
      if wrapInt (level + 1) > 0 then scan rest (op + 1) (wrapInt (level + 1))
      else Scan.found (op + 1)
    else if c = OP_LOOP_END then
      if wrapInt (level - 1) > 0 then scan rest (op + 1) (wrapInt (level - 1))
      else Scan.found (op + 1)
    else if c = OP_EXIT then Scan.noMatch (op + 1)
    else scan rest (op + 1) level

/-- The `switch (program[op])` with the `op++` that follows it, for the
opcode `c = program[op]`. -/
def body (verbose : Bool) (program : List Nat) (c : Nat) (m : Machine) : Outcome :=
  if c = OP_INCR_PTR then
    Outcome.running { m with
      store := next m.store
      output := m.output ++ logIf verbose Trace.V_OP_INCR_PTR
      op := m.op + 1 }
  else if c = OP_DECR_PTR then
    Outcome.running { m with
      store := previous m.store
      output := m.output ++ logIf verbose Trace.V_OP_DECR_PTR
      op := m.op + 1 }
  else if c = OP_INCR_DATA then
    let v := wrapInt (m.store.value + 1)
    Outcome.running { m with
      store := { m.store with value := v }
      output := m.output ++ logIf verbose (Trace.V_OP_INCR_DATA v)
      op := m.op + 1 }
  else if c = OP_DECR_DATA then
    let v := wrapInt (m.store.value - 1)
    Outcome.running { m with
      store := { m.store with value := v }
      output := m.output ++ logIf verbose (Trace.V_OP_DECR_DATA v)
      op := m.op + 1 }
  else if c = OP_OUTPUT then
    Outcome.running { m with
      output := m.output ++ [Event.putc (toByte m.store.value)]
        ++ logIf verbose (Trace.V_OP_INPUT m.store.value)
      op := m.op + 1 }
  else if c = OP_INPUT then
    let r := fgetc m.input
    let v := if r.1 = EOF then INPUT_EOF else r.1
    Outcome.running { m with
      store := { m.store with value := v }
      input := r.2
      output := m.output ++ logIf verbose (Trace.V_OP_OUTPUT v)
      op := m.op + 1 }
  else if c = OP_LOOP_START then
    if m.store.value = 0 then
      match scan (program.drop (m.op + 1)) m.op 1 with
      | Scan.found op =>
        Outcome.running { m with
          output := m.output ++ logIf verbose (Trace.V_OP_LOOP_JMP op)
          op := op + 1 }
      | Scan.noMatch op => Outcome.failed Fault.badBrackets { m with op := op }
      | Scan.outside op => Outcome.failed Fault.outOfBounds { m with op := op }
    else
      Outcome.running { m with
        bracket := push m.bracket m.op
        output := m.output ++ logIf verbose Trace.V_OP_LOOP_START
        op := m.op + 1 }
  else if c = OP_LOOP_END then
    if m.store.value ≠ 0 then
      match peek m.bracket with
      | none => Outcome.failed Fault.nullDeref m
      | some index =>
        if index = SIZE_MAX then Outcome.failed Fault.badBrackets m
        else
          Outcome.running { m with
            output := m.output ++ logIf verbose (Trace.V_OP_LOOP_JMP index)
            op := index + 1 }
    else
      match pop m.bracket with
      | none => Outcome.failed Fault.nullDeref m
      | some rest =>
        Outcome.running { m with
          bracket := rest
          output := m.output ++ logIf verbose Trace.V_OP_LOOP_END
          op := m.op + 1 }
  else Outcome.running { m with op := m.op + 1 }

/-- One test of `program[op] != OP_EXIT` followed, when it holds, by one round
of the loop of `eval`. -/
def step (verbose : Bool) (program : List Nat) (m : Machine) : Outcome :=
  match program[m.op]? with
  | none => Outcome.failed Fault.outOfBounds m
  | some c => if c = OP_EXIT then Outcome.halted m else body verbose program c m

/-- The loop of `eval`, for at most `fuel` rounds: `running m` when the
machine is at `m`, not at `OP_EXIT`, and the rounds are used up. -/
def evalLoop (verbose : Bool) (program : List Nat) : Nat → Machine → Outcome
  | 0, m =>
    match program[m.op]? with
    | none => Outcome.failed Fault.outOfBounds m
    | some c => if c = OP_EXIT then Outcome.halted m else Outcome.running m
  | fuel + 1, m =>
    match step verbose program m with
    | Outcome.running m1 => evalLoop verbose program fuel m1
    | o => o

/-- The state `eval` starts in: one fresh cell, `bracket = NULL`, `op = 0`. -/
def initial (input : List Nat) : Machine :=
  { store := new_storage 0, bracket := [], op := 0, input := input, output := [] }

/-- The function `eval`, for at most `fuel` rounds of its loop. -/
def eval (verbose : Bool) (program : List Nat) (input : List Nat) (fuel : Nat) : Outcome :=
  evalLoop verbose program fuel (initial input)

/-- The indices `op` at which a round of the loop of `eval` is run, in order,
during the first `fuel` rounds. -/
def executed (verbose : Bool) (program : List Nat) : Nat → Machine → List Nat
  | 0, _ => []
  | fuel + 1, m =>
    match step verbose program m with
    | Outcome.running m1 => m.op :: executed verbose program fuel m1
    | Outcome.failed _ _ =>
      match program[m.op]? with
      | none => []
      | some _ => [m.op]
    | Outcome.halted _ => []

/-! ## The compiler as the specification words it -/

/-- The opcode of a command character, `none` for every other byte. -/
def opcodeOf (c : Nat) : Option Nat :=
  if c = 62 then some OP_INCR_PTR
  else if c = 60 then some OP_DECR_PTR
  else if c = 43 then some OP_INCR_DATA
  else if c = 45 then some OP_DECR_DATA
  else if c = 46 then some OP_OUTPUT
  else if c = 44 then some OP_INPUT
  else if c = 91 then some OP_LOOP_START
  else if c = 93 then some OP_LOOP_END
  else none

/-- The opcode stream the specification describes: the opcodes of the command
characters in source order, then one `OP_EXIT`. -/
def compileSpec (src : List Nat) : List Nat := src.filterMap opcodeOf ++ [OP_EXIT]

/-- The bytes of a string literal. -/
def bytes (s : String) : List Nat := s.toList.map Char.toNat

/-- The eight command characters `> < + - . , [ ]`. -/
def isCommand (c : Nat) : Bool :=
  c = 62 || c = 60 || c = 43 || c = 45 || c = 46 || c = 44 || c = 91 || c = 93

/-! ## Proof-side notions -/

/-- The machine after exactly `k` rounds of the loop of `eval`, when none of
them stops the run. -/
def runs (verbose : Bool) (program : List Nat) : Nat → Machine → Option Machine
  | 0, m => some m
  | k + 1, m =>
    match step verbose program m with
    | Outcome.running m1 => runs verbose program k m1
    | _ => none

/-- The bytes that the `OP_OUTPUT` rounds wrote, without the verbose messages. -/
def emitted (out : List Event) : List Nat :=
  out.filterMap fun e =>
    match e with
    | Event.putc b => some b
    | Event.log _ => none

/-- The `OP_LOOP_START` at index `i` of `program` has no matching
`OP_LOOP_END`: counting depth from 1 after it, the first `OP_EXIT` comes
before the depth is back at 0 (and the depth stays an `int`, at most
`INT_MAX`). -/
def Unmatched (program : List Nat) (i : Nat) : Prop :=
  ∃ seg post, program.drop (i + 1) = seg ++ OP_EXIT :: post ∧ OP_EXIT ∉ seg ∧
    ∀ k, k ≤ seg.length →
      (seg.take k).count OP_LOOP_END < 1 + (seg.take k).count OP_LOOP_START ∧
      1 + (seg.take k).count OP_LOOP_START ≤ (seg.take k).count OP_LOOP_END + 2147483647

/-- Bracket balance of a source text from depth `d` on: no `]` without an
open `[`, and no `[` left open at the end. -/
def depthCheck : List Nat → Nat → Bool
  | [], d => d == 0
  | c :: rest, d =>
    if c = 91 then depthCheck rest (d + 1)
    else if c = 93 then 0 < d && depthCheck rest (d - 1)
    else depthCheck rest d

/-- The brackets of a source text are balanced. -/
def balanced (src : List Nat) : Bool := depthCheck src 0

/-- The loops open at index `p` of `program`: the indices of the
`OP_LOOP_START` before `p` whose `OP_LOOP_END` is not before `p`, innermost
first; `none` when an `OP_LOOP_END` before `p` has no `OP_LOOP_START`. -/
def openAt (program : List Nat) : Nat → Option (List Nat)
  | 0 => some []
  | p + 1 =>
    match openAt program p, program[p]? with
    | some st, some c =>
      if c = OP_LOOP_START then some (p :: st)
      else if c = OP_LOOP_END then pop st
      else some st
    | _, _ => none

/-- The invariant of a run of a balanced program: `op` is inside the buffer
and the bracket stack holds the loops open at `op`. -/
def Inv (program : List Nat) (m : Machine) : Prop :=
  m.op + 1 ≤ program.length ∧ openAt program m.op = some m.bracket

/-- The net movement of the cursor over the rounds run at the indices
`trace`: plus one for each `OP_INCR_PTR`, minus one for each `OP_DECR_PTR`. -/
def displacement (program : List Nat) (trace : List Nat) : Int :=
  match trace with
  | [] => 0
  | i :: rest =>
    (if program[i]? = some OP_INCR_PTR then 1
      else if program[i]? = some OP_DECR_PTR then -1 else 0) + displacement program rest

/-- How `load` can leave the memory it owns. -/
inductive LoadFault where
  /-- The read `OPERATION[c]` with `c` outside the 128 entries of the table. -/
  | tableIndex (c : Nat)
  /-- The store `program[i] = code` with `i` outside the `cap` allocated cells. -/
  | bufferIndex (i cap : Nat)
  deriving DecidableEq, Repr

/-- The read `OPERATION[c]` as far as C defines it: the entry for an index
inside the table, nothing for an index past its end. -/
def tableAt (c : Nat) : Option Nat :=
  if c < WORD_SIZE then some (OPERATION (fun _ => 0) c) else none

/-- The reading loop of `load` with every array access checked against the
array it goes to: the statements are those of `loadLoop`, in their order. -/
def loadLoopStrict : List Nat → LoadState → Except LoadFault LoadState
  | [], st => Except.ok st
  | c :: rest, st =>
    let st1 : LoadState :=
      if st.real_size ≥ st.prog_size - 1 then
        { st with prog_size := st.prog_size * BUFFER_FACTOR }
      else st
    match tableAt c with
    | none => Except.error (LoadFault.tableIndex c)
    | some code =>
      if code ≠ OP_EXIT ∧ c < WORD_SIZE then
        match poke st1.program st1.prog_size st1.real_size code with
        | none => Except.error (LoadFault.bufferIndex st1.real_size st1.prog_size)
        | some p =>
          loadLoopStrict rest { st1 with program := p, real_size := st1.real_size + 1 }
      else loadLoopStrict rest st1

/-- The function `load` with every array access checked. -/
def loadStrict (src : List Nat) : Except LoadFault (List Nat) :=
  match loadLoopStrict src ⟨0, BUFFER_START_SIZE, []⟩ with
  | Except.error e => Except.error e
  | Except.ok st =>
    match poke st.program st.prog_size st.real_size OP_EXIT with
    | none => Except.error (LoadFault.bufferIndex st.real_size st.prog_size)
    | some p => Except.ok p

/-- The stores `program[real_size] = ...` that `load` makes, in order, each as
the pair of the index `real_size` and the capacity `prog_size` at the time of
the store; the last one is the store of `OP_EXIT`. -/
def storeLog (beyond : Nat → Nat) : List Nat → Nat → Nat → List (Nat × Nat)
  | [], real_size, prog_size => [(real_size, prog_size)]
  | c :: rest, real_size, prog_size =>
    let prog_size1 :=
      if real_size ≥ prog_size - 1 then prog_size * BUFFER_FACTOR else prog_size
    let code := OPERATION beyond c
    if code ≠ OP_EXIT ∧ c < WORD_SIZE then
      (real_size, prog_size1) :: storeLog beyond rest (real_size + 1) prog_size1
    else storeLog beyond rest real_size prog_size1

/-- The invariant of every run of a compiled program: `op` is inside the
buffer, and the bracket stack holds indices of `OP_LOOP_START` opcodes below
`op`, the larger ones on top. -/
def Safe (program : List Nat) (m : Machine) : Prop :=
  m.op + 1 ≤ program.length ∧
  m.bracket.Pairwise (fun a b => b < a) ∧
  ∀ j, j ∈ m.bracket → j < m.op ∧ program[j]? = some OP_LOOP_START

/-- The part of the machine a program can compute with: the tape with its
cursor, the bracket stack and `op`. -/
def core (m : Machine) : storage × List Nat × Nat := (m.store, m.bracket, m.op)

/-- Two outcomes are of the same kind (with the same fault) and agree on the
tape, the cursor, the bracket stack and `op`. -/
def SameRun (o1 o2 : Outcome) : Prop :=
  match o1, o2 with
  | Outcome.running a, Outcome.running b => core a = core b
  | Outcome.halted a, Outcome.halted b => core a = core b
  | Outcome.failed f a, Outcome.failed g b => f = g ∧ core a = core b
  | _, _ => False

/-- The nesting depth in front of index `q`: the number of `OP_LOOP_START`
minus the number of `OP_LOOP_END` among the opcodes before `q`. -/
def depthAt (program : List Nat) : Nat → Int
  | 0 => 0
  | q + 1 =>
    depthAt program q +
      (if program[q]? = some OP_LOOP_START then 1
        else if program[q]? = some OP_LOOP_END then -1 else 0)

/-- The `OP_LOOP_END` at index `e` statically matches the `OP_LOOP_START` at
index `j`: behind `e` the depth is for the first time back at what it was in
front of `j`. -/
def MatchingEnd (program : List Nat) (j e : Nat) : Prop :=
  j < e ∧ program[j]? = some OP_LOOP_START ∧ program[e]? = some OP_LOOP_END ∧
  depthAt program (e + 1) = depthAt program j ∧
  ∀ q, j < q → q ≤ e → depthAt program j < depthAt program q

/-- The `OP_LOOP_START` at index `j` is open at index `P`: it is before `P`
and not closed before `P`. -/
def Encloses (program : List Nat) (j P : Nat) : Prop :=
  j < P ∧ program[j]? = some OP_LOOP_START ∧
  ∀ q, j < q → q ≤ P → depthAt program j < depthAt program q

/-- The tape as a total map from offsets to values, seen from the cursor: the
value of the cell `k` places to the right of the current cell (to the left
for negative `k`), 0 where the chain has no cell. -/
def cellAt (t : storage) : Int → Int
  | Int.ofNat 0 => t.value
  | Int.ofNat (n + 1) => t.next.getD n 0
  | Int.negSucc n => t.prev.getD n 0

/-- The chain has a cell `k` places to the right of the current cell: the
cells of the chain are the `prev` side, the current cell and the `next`
side. -/
def materialized (t : storage) (k : Int) : Prop :=
  -(t.prev.length : Int) ≤ k ∧ k ≤ (t.next.length : Int)

/-! ## The process: arguments, files and `main` -/

@[simp] abbrev VERBOSE_ARG : String := "-v"
@[simp] abbrev INPUT_ARG : String := "-i"
@[simp] abbrev OUTPUT_ARG : String := "-o"

/-- The global variables `input_fn`, `output_fn`, `program_fn` and
`verbose_mode`, with the two flags local to `parse_args`. -/
structure Args where
  is_input : Bool
  is_output : Bool
  input_fn : String
  output_fn : String
  program_fn : String
  verbose_mode : Bool
  deriving DecidableEq, Repr

/-- One round of the loop of `parse_args`, for the argument `arg = argv[i]`. -/
def parse_arg (st : Args) (arg : String) : Args :=
  if arg = INPUT_ARG then { st with is_input := true }
  else if arg = OUTPUT_ARG then { st with is_output := true }
  else if arg = VERBOSE_ARG then { st with verbose_mode := true }
  else if st.is_input then { st with input_fn := arg, is_input := false }
  else if st.is_output then { st with output_fn := arg, is_output := false }
  else { st with program_fn := arg }

/-- The function `parse_args`: the loop runs over `argv[1]`, `argv[2]`, ...
from the initial values of the globals. -/
def parse_args (argv : List String) : Args :=
  (argv.drop 1).foldl parse_arg ⟨false, false, "", "", "", false⟩

/-- The files the process sees: the bytes of each file under its name, and
the names on which `fopen(name, "w")` fails. -/
structure Disk where
  files : List (String × List Nat)
  locked : List String
  deriving DecidableEq, Repr

/-- The bytes behind `fopen(name, "r")`, `none` for `NULL`. -/
def fopen_r (d : Disk) (name : String) : Option (List Nat) := d.files.lookup name

/-- The call `fopen(name, "w")`: the file is created or cut to length 0;
`none` for `NULL`. -/
def fopen_w (d : Disk) (name : String) : Option Disk :=
  if name ∈ d.locked then none
  else some { d with files := (name, []) :: d.files.filter (fun f => f.1 ≠ name) }

/-- What `load` writes to standard output in verbose mode. -/
inductive LoadTrace where
  | V_INPUT_FN (name : String)
  | V_OUTPUT_FN (name : String)
  | V_PROGRAM_FN (name : String)
  | V_MEMORY_RESIZE (prog_size : Nat)
  /-- The call `printf("%c", c)` for a command character. -/
  | echo (c : Nat)
  /-- The call `puts("")`. -/
  | newline
  | V_MEMORY_SIZE (prog_size : Nat)
  deriving DecidableEq, Repr

/-- The call `if (verbose_mode) printf(...)` of `load`. -/
def noteIf (verbose : Bool) (t : LoadTrace) : List LoadTrace :=
  if verbose then [t] else []

/-- What the reading loop of `load` and the lines after it print, from the
state `real_size`, `prog_size`, over the bytes of the program file. -/
def loadTrace (beyond : Nat → Nat) (verbose : Bool) : List Nat → Nat → Nat → List LoadTrace
  | [], _, prog_size =>
    noteIf verbose LoadTrace.newline ++ noteIf verbose (LoadTrace.V_MEMORY_SIZE prog_size)
  | c :: rest, real_size, prog_size =>
    let grow : Bool := real_size ≥ prog_size - 1
    let prog_size1 := if grow then prog_size * BUFFER_FACTOR else prog_size
    let code := OPERATION beyond c
    (if grow then noteIf verbose (LoadTrace.V_MEMORY_RESIZE prog_size1) else []) ++
      if code ≠ OP_EXIT ∧ c < WORD_SIZE then
        noteIf verbose (LoadTrace.echo c) ++
          loadTrace beyond verbose rest (real_size + 1) prog_size1
      else loadTrace beyond verbose rest real_size prog_size1

/-- How `load` can end the process. -/
inductive LoadExit where
  | ERR_INPUT_FN
  | ERR_OUTPUT_FN
  | ERR_PROGRAM_FN
  /-- A store outside the allocated opcode buffer. -/
  | overrun
  deriving DecidableEq, Repr

/-- The process when `load` returns: the two file pointers (`none` is `NULL`,
`some name` a stream open on that file), the opcode buffer, what was printed
and the files. -/
structure Loaded where
  input_file : Option String
  output_file : Option String
  program : List Nat
  printed : List LoadTrace
  disk : Disk
  deriving DecidableEq, Repr

/-- The function `load` with its files: the input file is opened for reading
when `input_fn` is not `""`, then the output file for writing when
`output_fn` is not `""`, then the program file, whose bytes go through the
reading loop.  A failure comes with what was printed and with the files as
they are at the `exit`. -/
def load_files (beyond : Nat → Nat) (a : Args) (d : Disk) :
    Except (LoadExit × List LoadTrace × Disk) Loaded :=
  let p1 := if a.input_fn ≠ "" then noteIf a.verbose_mode (LoadTrace.V_INPUT_FN a.input_fn)
    else []
  if a.input_fn ≠ "" ∧ (fopen_r d a.input_fn).isNone then
    Except.error (LoadExit.ERR_INPUT_FN, p1, d)
  else
    let input_file := if a.input_fn ≠ "" then some a.input_fn else none
    let p2 := p1 ++ (if a.output_fn ≠ "" then
      noteIf a.verbose_mode (LoadTrace.V_OUTPUT_FN a.output_fn) else [])
    let opened : Option Disk := if a.output_fn ≠ "" then fopen_w d a.output_fn else some d
    match opened with
    | none => Except.error (LoadExit.ERR_OUTPUT_FN, p2, d)
    | some d1 =>
      let output_file := if a.output_fn ≠ "" then some a.output_fn else none
      let p3 := p2 ++ noteIf a.verbose_mode (LoadTrace.V_PROGRAM_FN a.program_fn)
      match fopen_r d1 a.program_fn with
      | none => Except.error (LoadExit.ERR_PROGRAM_FN, p3, d1)
      | some src =>
        let p4 := p3 ++ loadTrace beyond a.verbose_mode src 0 BUFFER_START_SIZE
        match load beyond src with
        | none => Except.error (LoadExit.overrun, p4, d1)
        | some program => Except.ok ⟨input_file, output_file, program, p4, d1⟩

/-- The process after `main`: what `load` printed, the run of `eval` (its
machine holds what `eval` wrote to standard output after that), and the
files. -/
structure Process where
  printed : List LoadTrace
  run : Outcome
  disk : Disk
  deriving DecidableEq, Repr

/-- The function `main` on the arguments `argv`, the files `disk` and the
bytes `stdin` of standard input, for at most `fuel` rounds of `eval`.
`OP_INPUT` reads `input_file` when it is not `NULL` and standard input
otherwise; `printf` writes to standard output; `close` closes `input_file`
and `output_file`, and no statement between `load` and `close` writes to a
file. -/
def main (beyond : Nat → Nat) (argv : List String) (disk : Disk) (stdin : List Nat)
    (fuel : Nat) : Except (LoadExit × List LoadTrace × Disk) Process :=
  let a := parse_args argv
  match load_files beyond a disk with
  | Except.error e => Except.error e
  | Except.ok l =>
    let input : List Nat :=
      match l.input_file with
      | some name => (fopen_r l.disk name).getD []
      | none => stdin
    Except.ok ⟨l.printed, eval a.verbose_mode l.program input fuel, l.disk⟩

/-- The machine an outcome stands at. -/
def Outcome.machine : Outcome → Machine
  | Outcome.running m => m
  | Outcome.halted m => m
  | Outcome.failed _ m => m

/-- The number of `OP_OUTPUT` rounds among the rounds run at the indices
`trace`. -/
def outputs (program : List Nat) (trace : List Nat) : Nat :=
  (trace.filter (fun i => program[i]? = some OP_OUTPUT)).length

/-! # Theorems -/

/-! ## The compiler -/

theorem opcodeOf_eq_none_iff (c : Nat) : opcodeOf c = none ↔ isCommand c = false := by
  unfold opcodeOf isCommand
  split_ifs <;> simp_all

theorem opcodeOf_range {c o : Nat} (h : opcodeOf c = some o) : 1 ≤ o ∧ o ≤ 8 := by
  unfold opcodeOf at h
  split_ifs at h <;> simp at h <;> omega

theorem OPERATION_stored (beyond : Nat → Nat) (c : Nat)
    (h : OPERATION beyond c ≠ OP_EXIT ∧ c < WORD_SIZE) :
    opcodeOf c = some (OPERATION beyond c) := by
  obtain ⟨h1, h2⟩ := h
  unfold OPERATION at h1 ⊢
  unfold opcodeOf
  split_ifs at h1 ⊢ <;> simp_all

theorem OPERATION_skipped (beyond : Nat → Nat) (c : Nat)
    (h : ¬ (OPERATION beyond c ≠ OP_EXIT ∧ c < WORD_SIZE)) :
    opcodeOf c = none := by
  unfold OPERATION at h
  unfold opcodeOf
  split_ifs at h ⊢ <;> simp_all

/-- The reading loop keeps `real_size` below the capacity and appends the
opcodes of the command characters it reads. -/
theorem loadLoop_spec (beyond : Nat → Nat) (src : List Nat) :
    ∀ st : LoadState, st.real_size = st.program.length → st.real_size + 1 ≤ st.prog_size →
      ∃ st1 : LoadState, loadLoop beyond src st = some st1 ∧
        st1.program = st.program ++ src.filterMap opcodeOf ∧
        st1.real_size = st1.program.length ∧ st1.real_size + 1 ≤ st1.prog_size := by
  induction src with
  | nil => intro st h1 h2; exact ⟨st, rfl, by simp, h1, h2⟩
  | cons c rest ih =>
    intro st h1 h2
    simp only [loadLoop]
    by_cases hc : OPERATION beyond c ≠ OP_EXIT ∧ c < WORD_SIZE
    · have ho := OPERATION_stored beyond c hc
      rw [if_pos hc]
      by_cases hg : st.real_size ≥ st.prog_size - 1
      · rw [if_pos hg]
        have hlt : st.real_size < st.prog_size * BUFFER_FACTOR := by
          simp only [BUFFER_FACTOR]; omega
        simp only [poke, hlt, if_true]
        obtain ⟨st1, e1, e2, e3, e4⟩ := ih
          { real_size := st.real_size + 1, prog_size := st.prog_size * BUFFER_FACTOR,
            program := st.program.take st.real_size ++ [OPERATION beyond c] }
          (by simp [h1]) (by simp only [BUFFER_FACTOR]; omega)
        refine ⟨st1, e1, ?_, e3, e4⟩
        rw [e2, List.filterMap_cons, ho, h1]; simp
      · rw [if_neg hg]
        have hlt : st.real_size < st.prog_size := by omega
        simp only [poke, hlt, if_true]
        obtain ⟨st1, e1, e2, e3, e4⟩ := ih
          { real_size := st.real_size + 1, prog_size := st.prog_size,
            program := st.program.take st.real_size ++ [OPERATION beyond c] }
          (by simp [h1]) (by simp only []; omega)
        refine ⟨st1, e1, ?_, e3, e4⟩
        rw [e2, List.filterMap_cons, ho, h1]; simp
    · have ho := OPERATION_skipped beyond c hc
      rw [if_neg hc]
      by_cases hg : st.real_size ≥ st.prog_size - 1
      · rw [if_pos hg]
        obtain ⟨st1, e1, e2, e3, e4⟩ := ih
          { st with prog_size := st.prog_size * BUFFER_FACTOR } h1
          (by simp only [BUFFER_FACTOR]; omega)
        refine ⟨st1, e1, ?_, e3, e4⟩
        rw [e2, List.filterMap_cons, ho]
      · rw [if_neg hg]
        obtain ⟨st1, e1, e2, e3, e4⟩ := ih st h1 h2
        refine ⟨st1, e1, ?_, e3, e4⟩
        rw [e2, List.filterMap_cons, ho]

/-- On every source `load` returns the opcode stream of `compileSpec`. -/
theorem load_eq_compileSpec (beyond : Nat → Nat) (src : List Nat) :
    load beyond src = some (compileSpec src) := by
  obtain ⟨st1, e1, e2, e3, e4⟩ := loadLoop_spec beyond src ⟨0, BUFFER_START_SIZE, []⟩ rfl
    (by simp)
  unfold load
  rw [e1]
  have hlt : st1.real_size < st1.prog_size := by omega
  simp only [poke]
  rw [if_pos hlt, e3, List.take_length, e2]
  simp [compileSpec]

theorem filterMap_opcodeOf_length (src : List Nat) :
    (src.filterMap opcodeOf).length = (src.filter isCommand).length := by
  induction src with
  | nil => rfl
  | cons c rest ih =>
    cases h : opcodeOf c with
    | none =>
      have hc := (opcodeOf_eq_none_iff c).1 h
      simp [List.filterMap_cons, h, List.filter_cons, hc, ih]
    | some o =>
      have hc : isCommand c = true := by
        cases hb : isCommand c with
        | true => rfl
        | false => rw [(opcodeOf_eq_none_iff c).2 hb] at h; cases h
      simp [List.filterMap_cons, h, List.filter_cons, hc, ih]

theorem compileSpec_length (src : List Nat) :
    (compileSpec src).length = (src.filter isCommand).length + 1 := by
  simp [compileSpec, filterMap_opcodeOf_length]

/-- In the compiled stream `OP_EXIT` sits at the last index and nowhere else. -/
theorem compileSpec_exit_iff (src : List Nat) (i : Nat) :
    (compileSpec src)[i]? = some OP_EXIT ↔ i + 1 = (compileSpec src).length := by
  unfold compileSpec
  by_cases hi : i < (src.filterMap opcodeOf).length
  · rw [List.getElem?_append_left hi]
    constructor
    · intro h
      have hmem : OP_EXIT ∈ src.filterMap opcodeOf := List.getElem?_mem h
      obtain ⟨c, _, hc⟩ := List.mem_filterMap.1 hmem
      have := opcodeOf_range hc
      simp at this
    · intro h
      simp at h
      omega
  · rw [List.getElem?_append_right (by omega)]
    constructor
    · intro h
      have hlt : i - (src.filterMap opcodeOf).length < [OP_EXIT].length := by
        by_contra hge
        rw [List.getElem?_eq_none (by omega)] at h
        cases h
      simp at hlt ⊢
      omega
    · intro h
      simp at h
      have : i - (src.filterMap opcodeOf).length = 0 := by omega
      rw [this]
      rfl

theorem compileSpec_skip (a b : List Nat) (c : Nat) (h : isCommand c = false) :
    compileSpec (a ++ c :: b) = compileSpec (a ++ b) := by
  have hc := (opcodeOf_eq_none_iff c).2 h
  simp [compileSpec, List.filterMap_append, List.filterMap_cons, hc]

/-- Claim C1.  For every source `src` (and whatever lies behind the table for
bytes of 128 and more), `load` returns the opcodes of the command characters
of `src` in source order followed by one `OP_EXIT`; `OP_EXIT` is at the last
index only; the length is the number of command characters plus one; NUL and
every byte from 128 on are no command character; `"abc+xyz"` compiles like
`"+"`; and a byte that is no command character can be inserted or deleted
anywhere without changing the result. -/
theorem load_compiles_exactly_the_commands (beyond : Nat → Nat) (src : List Nat) :
    load beyond src = some (src.filterMap opcodeOf ++ [OP_EXIT]) ∧
    (∀ prog, load beyond src = some prog →
      prog.length = (src.filter isCommand).length + 1 ∧
      ∀ i, prog[i]? = some OP_EXIT ↔ i + 1 = prog.length) ∧
    (∀ c, c = 0 ∨ 128 ≤ c → isCommand c = false) ∧
    load beyond (bytes "abc+xyz") = load beyond (bytes "+") ∧
    (∀ (a b : List Nat) (c : Nat), isCommand c = false →
      load beyond (a ++ c :: b) = load beyond (a ++ b)) := by
  refine ⟨load_eq_compileSpec beyond src, ?_, ?_, ?_, ?_⟩
  · intro prog hp
    rw [load_eq_compileSpec] at hp
    cases hp
    exact ⟨compileSpec_length src, compileSpec_exit_iff src⟩
  · intro c hc
    unfold isCommand
    rcases hc with rfl | hc
    · rfl
    · have h1 : c ≠ 62 := by omega
      have h2 : c ≠ 60 := by omega
      have h3 : c ≠ 43 := by omega
      have h4 : c ≠ 45 := by omega
      have h5 : c ≠ 46 := by omega
      have h6 : c ≠ 44 := by omega
      have h7 : c ≠ 91 := by omega
      have h8 : c ≠ 93 := by omega
      simp [h1, h2, h3, h4, h5, h6, h7, h8]
  · rw [load_eq_compileSpec, load_eq_compileSpec]
    decide
  · intro a b c hc
    rw [load_eq_compileSpec, load_eq_compileSpec, compileSpec_skip a b c hc]

/-! ## Runs -/

theorem drop_of_getElem? {l : List Nat} {n a : Nat} (h : l[n]? = some a) :
    l.drop n = a :: l.drop (n + 1) := by
  obtain ⟨hn, rfl⟩ := List.getElem?_eq_some.1 h
  exact List.drop_eq_getElem_cons hn

theorem evalLoop_succ {verbose : Bool} {program : List Nat} {m m1 : Machine}
    (h : step verbose program m = Outcome.running m1) (fuel : Nat) :
    evalLoop verbose program (fuel + 1) m = evalLoop verbose program fuel m1 := by
  simp [evalLoop, h]

theorem executed_succ {verbose : Bool} {program : List Nat} {m m1 : Machine}
    (h : step verbose program m = Outcome.running m1) (fuel : Nat) :
    executed verbose program (fuel + 1) m = m.op :: executed verbose program fuel m1 := by
  simp [executed, h]

theorem runs_succ {verbose : Bool} {program : List Nat} {m m1 : Machine}
    (h : step verbose program m = Outcome.running m1) (k : Nat) :
    runs verbose program (k + 1) m = runs verbose program k m1 := by
  simp [runs, h]

theorem runs_add (verbose : Bool) (program : List Nat) (a b : Nat) :
    ∀ m m1, runs verbose program a m = some m1 →
      runs verbose program (a + b) m = runs verbose program b m1 := by
  induction a with
  | zero => intro m m1 h; simp [runs] at h; subst h; simp
  | succ a ih =>
    intro m m1 h
    rw [show a + 1 + b = (a + b) + 1 by omega]
    cases hs : step verbose program m with
    | running m2 =>
      rw [runs_succ hs] at h ⊢
      exact ih m2 m1 h
    | halted m2 => simp [runs, hs] at h
    | failed f m2 => simp [runs, hs] at h

theorem evalLoop_of_runs (verbose : Bool) (program : List Nat) (k fuel : Nat) :
    ∀ m m1, runs verbose program k m = some m1 →
      evalLoop verbose program (k + fuel) m = evalLoop verbose program fuel m1 := by
  induction k with
  | zero => intro m m1 h; simp [runs] at h; subst h; simp
  | succ k ih =>
    intro m m1 h
    rw [show k + 1 + fuel = (k + fuel) + 1 by omega]
    cases hs : step verbose program m with
    | running m2 =>
      rw [runs_succ hs] at h
      rw [evalLoop_succ hs]
      exact ih m2 m1 h
    | halted m2 => simp [runs, hs] at h
    | failed f m2 => simp [runs, hs] at h

theorem executed_of_runs (verbose : Bool) (program : List Nat) (k fuel : Nat) :
    ∀ m m1, runs verbose program k m = some m1 →
      executed verbose program (k + fuel) m =
        executed verbose program k m ++ executed verbose program fuel m1 := by
  induction k with
  | zero => intro m m1 h; simp [runs] at h; subst h; simp [executed]
  | succ k ih =>
    intro m m1 h
    rw [show k + 1 + fuel = (k + fuel) + 1 by omega]
    cases hs : step verbose program m with
    | running m2 =>
      rw [runs_succ hs] at h
      rw [executed_succ hs, executed_succ hs, ih m2 m1 h]
      rfl
    | halted m2 => simp [runs, hs] at h
    | failed f m2 => simp [runs, hs] at h

/-- A halted run stays the same with more fuel. -/
theorem evalLoop_halted_mono (verbose : Bool) (program : List Nat) (fuel extra : Nat) :
    ∀ m mf, evalLoop verbose program fuel m = Outcome.halted mf →
      evalLoop verbose program (fuel + extra) m = Outcome.halted mf := by
  induction fuel with
  | zero =>
    intro m mf h
    have hs : step verbose program m = Outcome.halted mf := by
      simp only [evalLoop] at h
      simp only [step]
      cases hp : program[m.op]? with
      | none => simp [hp] at h
      | some c =>
        simp only [hp] at h ⊢
        by_cases hc : c = OP_EXIT
        · simpa [hc] using h
        · simp [hc] at h
    cases extra with
    | zero => simpa [evalLoop] using h
    | succ e => simp [evalLoop, hs]
  | succ fuel ih =>
    intro m mf h
    rw [show fuel + 1 + extra = (fuel + extra) + 1 by omega]
    cases hs : step verbose program m with
    | running m2 =>
      rw [evalLoop_succ hs] at h ⊢
      exact ih m2 mf h
    | halted m2 => simp [evalLoop, hs] at h ⊢; exact h
    | failed f m2 => simp [evalLoop, hs] at h

theorem step_incr_data {v : Bool} {p : List Nat} {m : Machine}
    (h : p[m.op]? = some OP_INCR_DATA) :
    step v p m = Outcome.running { m with
      store := { m.store with value := wrapInt (m.store.value + 1) }
      output := m.output ++ logIf v (Trace.V_OP_INCR_DATA (wrapInt (m.store.value + 1)))
      op := m.op + 1 } := by
  simp [step, body, h]

theorem step_decr_data {v : Bool} {p : List Nat} {m : Machine}
    (h : p[m.op]? = some OP_DECR_DATA) :
    step v p m = Outcome.running { m with
      store := { m.store with value := wrapInt (m.store.value - 1) }
      output := m.output ++ logIf v (Trace.V_OP_DECR_DATA (wrapInt (m.store.value - 1)))
      op := m.op + 1 } := by
  simp [step, body, h]

theorem step_output {v : Bool} {p : List Nat} {m : Machine}
    (h : p[m.op]? = some OP_OUTPUT) :
    step v p m = Outcome.running { m with
      output := m.output ++ [Event.putc (toByte m.store.value)]
        ++ logIf v (Trace.V_OP_INPUT m.store.value)
      op := m.op + 1 } := by
  simp [step, body, h]

theorem step_loop_start_enter {v : Bool} {p : List Nat} {m : Machine}
    (h : p[m.op]? = some OP_LOOP_START) (hv : m.store.value ≠ 0) :
    step v p m = Outcome.running { m with
      bracket := push m.bracket m.op
      output := m.output ++ logIf v Trace.V_OP_LOOP_START
      op := m.op + 1 } := by
  simp [step, body, h, hv]

theorem step_loop_start_skip {v : Bool} {p : List Nat} {m : Machine} {j : Nat}
    (h : p[m.op]? = some OP_LOOP_START) (hv : m.store.value = 0)
    (hs : scan (p.drop (m.op + 1)) m.op 1 = Scan.found j) :
    step v p m = Outcome.running { m with
      output := m.output ++ logIf v (Trace.V_OP_LOOP_JMP j)
      op := j + 1 } := by
  simp [step, body, h, hv, hs]

theorem step_loop_end_back {v : Bool} {p : List Nat} {m : Machine}
    {x : Nat} {r : List Nat}
    (h : p[m.op]? = some OP_LOOP_END) (hv : m.store.value ≠ 0)
    (hb : m.bracket = x :: r) (hi : x ≠ SIZE_MAX) :
    step v p m = Outcome.running { m with
      output := m.output ++ logIf v (Trace.V_OP_LOOP_JMP x)
      op := x + 1 } := by
  simp only [SIZE_MAX] at hi
  simp [step, body, h, hv, hb, peek, hi]

theorem step_loop_end_leave {v : Bool} {p : List Nat} {m : Machine}
    {x : Nat} {r : List Nat}
    (h : p[m.op]? = some OP_LOOP_END) (hv : m.store.value = 0)
    (hb : m.bracket = x :: r) :
    step v p m = Outcome.running { m with
      bracket := r
      output := m.output ++ logIf v Trace.V_OP_LOOP_END
      op := m.op + 1 } := by
  simp [step, body, h, hv, hb, pop]

@[simp] theorem logIf_false (t : Trace) : logIf false t = [] := rfl

@[simp] theorem emitted_append (a b : List Event) : emitted (a ++ b) = emitted a ++ emitted b := by
  simp [emitted, List.filterMap_append]

@[simp] theorem emitted_logIf (verbose : Bool) (t : Trace) : emitted (logIf verbose t) = [] := by
  cases verbose <;> rfl

@[simp] theorem emitted_putc (b : Nat) : emitted [Event.putc b] = [b] := rfl

theorem wrapInt_of_range {v : Int} (h1 : -2147483648 ≤ v) (h2 : v < 2147483648) :
    wrapInt v = v := by
  unfold wrapInt; omega

theorem wrapInt_range (v : Int) : -2147483648 ≤ wrapInt v ∧ wrapInt v < 2147483648 := by
  unfold wrapInt; omega

theorem wrapInt_succ (v : Int) (k : Nat) :
    wrapInt (wrapInt (v + 1) + k) = wrapInt (v + (k + 1 : Nat)) := by
  unfold wrapInt; push_cast; omega

theorem toByte_wrapInt (v : Int) : toByte (wrapInt v) = toByte v := by
  unfold toByte wrapInt; omega

theorem toByte_natCast (n : Nat) : toByte (n : Int) = n % 256 := by
  unfold toByte; omega

/-- A stretch of `k` opcodes `OP_INCR_DATA` takes `k` rounds and adds `k` to
the current cell, in `int` arithmetic. -/
theorem runs_incr (verbose : Bool) (program : List Nat) (k : Nat) :
    ∀ m : Machine, (∀ j, j < k → program[m.op + j]? = some OP_INCR_DATA) →
      -2147483648 ≤ m.store.value → m.store.value < 2147483648 →
      ∃ m1, runs verbose program k m = some m1 ∧
        m1.op = m.op + k ∧
        m1.store = { m.store with value := wrapInt (m.store.value + k) } ∧
        m1.bracket = m.bracket ∧ m1.input = m.input ∧
        emitted m1.output = emitted m.output ∧
        (verbose = false → m1.output = m.output) ∧
        executed verbose program k m = List.range' m.op k := by
  induction k with
  | zero =>
    intro m _ h1 h2
    refine ⟨m, rfl, rfl, ?_, rfl, rfl, rfl, fun _ => rfl, rfl⟩
    simp [wrapInt_of_range h1 h2]
  | succ k ih =>
    intro m hp h1 h2
    have h0 : program[m.op]? = some OP_INCR_DATA := by simpa using hp 0 (by omega)
    have hs := step_incr_data (v := verbose) h0
    obtain ⟨m1, e1, e2, e3, e4, e5, e6, e7, e8⟩ := ih
      { m with
        store := { m.store with value := wrapInt (m.store.value + 1) }
        output := m.output ++ logIf verbose (Trace.V_OP_INCR_DATA (wrapInt (m.store.value + 1)))
        op := m.op + 1 }
      (by
        intro j hj
        have := hp (j + 1) (by omega)
        rw [show m.op + (j + 1) = m.op + 1 + j by omega] at this
        exact this)
      (wrapInt_range _).1 (wrapInt_range _).2
    refine ⟨m1, ?_, ?_, ?_, e4, e5, ?_, ?_, ?_⟩
    · rw [runs_succ hs]; exact e1
    · rw [e2]; simp only []; omega
    · rw [e3]; simp only [wrapInt_succ]
    · rw [e6]; simp
    · intro hv; subst hv; rw [e7 rfl]; simp
    · rw [executed_succ hs, e8]; simp [List.range'_succ]


/-- Inside the loop `[-]` whose `[` is at index `i`: from the body with `k + 1`
in the cell, `2 * (k + 1)` rounds leave the loop with the cell at 0 and the
entry popped; the body is run `k + 1` times. -/
theorem runs_clear_body (verbose : Bool) (program : List Nat) (i : Nat) (st : List Nat)
    (h4 : program[i + 1]? = some OP_DECR_DATA) (h8 : program[i + 2]? = some OP_LOOP_END)
    (hi : i ≠ SIZE_MAX) (k : Nat) :
    ∀ (l r : List Int) (input : List Nat) (output : List Event),
      (k : Int) + 1 < 2147483648 →
      ∃ output1,
        runs verbose program (2 * (k + 1)) ⟨⟨l, (k : Int) + 1, r⟩, i :: st, i + 1, input, output⟩
          = some ⟨⟨l, 0, r⟩, st, i + 3, input, output1⟩ ∧
        emitted output1 = emitted output ∧ (verbose = false → output1 = output) ∧
        (executed verbose program (2 * (k + 1))
          ⟨⟨l, (k : Int) + 1, r⟩, i :: st, i + 1, input, output⟩).count (i + 1) = k + 1 := by
  induction k with
  | zero =>
    intro l r input output _
    have s1 := step_decr_data (v := verbose) (p := program)
      (m := ⟨⟨l, ((0 : Nat) : Int) + 1, r⟩, i :: st, i + 1, input, output⟩) h4
    have hw : wrapInt (((0 : Nat) : Int) + 1 - 1) = 0 := by decide
    simp only [hw] at s1
    have s2 := step_loop_end_leave (v := verbose) (p := program)
      (m := ⟨⟨l, 0, r⟩, i :: st, i + 1 + 1, input,
        output ++ logIf verbose (Trace.V_OP_DECR_DATA 0)⟩) (x := i) (r := st)
      h8 rfl rfl
    refine ⟨output ++ logIf verbose (Trace.V_OP_DECR_DATA 0) ++ logIf verbose Trace.V_OP_LOOP_END,
      ?_, ?_, ?_, ?_⟩
    · rw [show 2 * (0 + 1) = 1 + 1 by rfl, runs_succ s1, runs_succ s2]
      rfl
    · simp
    · intro hv; subst hv; simp
    · rw [show 2 * (0 + 1) = 1 + 1 by rfl, executed_succ s1, executed_succ s2]
      simp [executed]
  | succ k ih =>
    intro l r input output hk
    have s1 := step_decr_data (v := verbose) (p := program)
      (m := ⟨⟨l, ((k + 1 : Nat) : Int) + 1, r⟩, i :: st, i + 1, input, output⟩) h4
    have hw : wrapInt (((k + 1 : Nat) : Int) + 1 - 1) = (k : Int) + 1 := by
      unfold wrapInt; push_cast at hk ⊢; omega
    simp only [hw] at s1
    have s2 := step_loop_end_back (v := verbose) (p := program)
      (m := ⟨⟨l, (k : Int) + 1, r⟩, i :: st, i + 1 + 1, input,
        output ++ logIf verbose (Trace.V_OP_DECR_DATA ((k : Int) + 1))⟩) (x := i) (r := st)
      h8 (by simp only []; omega) rfl hi
    obtain ⟨output1, e1, e2, e3, e4⟩ := ih l r input
      (output ++ logIf verbose (Trace.V_OP_DECR_DATA ((k : Int) + 1))
        ++ logIf verbose (Trace.V_OP_LOOP_JMP i)) (by push_cast at hk; omega)
    refine ⟨output1, ?_, ?_, ?_, ?_⟩
    · rw [show 2 * (k + 1 + 1) = 2 * (k + 1) + 1 + 1 by omega, runs_succ s1, runs_succ s2]
      exact e1
    · rw [e2]; simp
    · intro hv; subst hv; rw [e3 rfl]; simp
    · rw [show 2 * (k + 1 + 1) = 2 * (k + 1) + 1 + 1 by omega, executed_succ s1,
        executed_succ s2]
      simp only [] at e4 ⊢
      rw [List.count_cons, List.count_cons, e4]
      simp


/-- The loop `[-]` with its `[` at index `i`, entered with `N` in the cell:
after `2 * N + 1` rounds the run is behind the `]`, the cell is 0, the stack
is as before, and the body at `i + 1` was run `N` times. -/
theorem runs_clear_loop (verbose : Bool) (program : List Nat) (i N : Nat) (st : List Nat)
    (l r : List Int) (input : List Nat) (output : List Event)
    (h7 : program[i]? = some OP_LOOP_START)
    (h4 : program[i + 1]? = some OP_DECR_DATA) (h8 : program[i + 2]? = some OP_LOOP_END)
    (hi : i ≠ SIZE_MAX) (hN : N < 2147483648) :
    ∃ output1,
      runs verbose program (2 * N + 1) ⟨⟨l, (N : Int), r⟩, st, i, input, output⟩
        = some ⟨⟨l, 0, r⟩, st, i + 3, input, output1⟩ ∧
      emitted output1 = emitted output ∧ (verbose = false → output1 = output) ∧
      (executed verbose program (2 * N + 1)
        ⟨⟨l, (N : Int), r⟩, st, i, input, output⟩).count (i + 1) = N := by
  cases N with
  | zero =>
    have hd : program.drop (i + 1) = OP_DECR_DATA :: OP_LOOP_END :: program.drop (i + 3) := by
      rw [drop_of_getElem? h4, drop_of_getElem? h8]
    have hs : scan (program.drop (i + 1)) i 1 = Scan.found (i + 2) := by
      rw [hd]; simp [scan, wrapInt]
    have s1 := step_loop_start_skip (v := verbose) (p := program)
      (m := ⟨⟨l, ((0 : Nat) : Int), r⟩, st, i, input, output⟩) (j := i + 2) h7 rfl hs
    refine ⟨output ++ logIf verbose (Trace.V_OP_LOOP_JMP (i + 2)), ?_, ?_, ?_, ?_⟩
    · rw [show 2 * 0 + 1 = 0 + 1 by rfl, runs_succ s1]; rfl
    · simp
    · intro hv; subst hv; simp
    · rw [show 2 * 0 + 1 = 0 + 1 by rfl, executed_succ s1]
      simp [executed]
  | succ k =>
    have s1 := step_loop_start_enter (v := verbose) (p := program)
      (m := ⟨⟨l, ((k + 1 : Nat) : Int), r⟩, st, i, input, output⟩) h7
      (by simp only []; push_cast; omega)
    obtain ⟨output1, e1, e2, e3, e4⟩ := runs_clear_body verbose program i st h4 h8 hi k l r input
      (output ++ logIf verbose Trace.V_OP_LOOP_START) (by omega)
    refine ⟨output1, ?_, ?_, ?_, ?_⟩
    · rw [runs_succ s1]
      simp only [push, Nat.cast_add, Nat.cast_one]
      exact e1
    · rw [e2]; simp
    · intro hv; subst hv; rw [e3 rfl]; simp
    · rw [executed_succ s1]
      simp only [push, Nat.cast_add, Nat.cast_one]
      rw [List.count_cons, e4]
      simp

theorem filterMap_replicate_plus (n : Nat) :
    (List.replicate n 43).filterMap opcodeOf = List.replicate n OP_INCR_DATA := by
  induction n with
  | zero => rfl
  | succ n ih => simp [List.replicate_succ, List.filterMap_cons, opcodeOf, ih]

theorem getElem?_replicate_append (n j : Nat) (tl : List Nat) (h : j < n) :
    (List.replicate n OP_INCR_DATA ++ tl)[j]? = some OP_INCR_DATA := by
  rw [List.getElem?_append_left (by simpa using h)]
  simp [List.getElem?_replicate, h]

theorem getElem?_append_replicate (n j : Nat) (tl : List Nat) :
    (List.replicate n OP_INCR_DATA ++ tl)[n + j]? = tl[j]? := by
  rw [List.getElem?_append_right (by simp)]
  simp


theorem evalLoop_zero_exit {v : Bool} {p : List Nat} {m : Machine}
    (h : p[m.op]? = some OP_EXIT) :
    evalLoop v p 0 m = Outcome.halted m := by
  simp [evalLoop, h]

/-- The run of `N` times `+` followed by `[-]` from the fresh state. -/
theorem run_plus_clear (beyond : Nat → Nat) (verbose : Bool) (input : List Nat) (N : Nat)
    (hN : N < 2147483648) :
    ∃ output1,
      load beyond (List.replicate N 43 ++ bytes "[-]")
        = some (List.replicate N OP_INCR_DATA ++ [OP_LOOP_START, OP_DECR_DATA, OP_LOOP_END, OP_EXIT]) ∧
      runs verbose (List.replicate N OP_INCR_DATA ++ [OP_LOOP_START, OP_DECR_DATA, OP_LOOP_END, OP_EXIT])
        (N + (2 * N + 1)) (initial input)
        = some ⟨⟨[], 0, []⟩, [], N + 3, input, output1⟩ ∧
      (executed verbose
        (List.replicate N OP_INCR_DATA ++ [OP_LOOP_START, OP_DECR_DATA, OP_LOOP_END, OP_EXIT])
        (N + (2 * N + 1)) (initial input)).count (N + 1) = N := by
  have hload : load beyond (List.replicate N 43 ++ bytes "[-]")
      = some (List.replicate N OP_INCR_DATA ++ [OP_LOOP_START, OP_DECR_DATA, OP_LOOP_END, OP_EXIT]) := by
    rw [load_eq_compileSpec, compileSpec, List.filterMap_append, filterMap_replicate_plus]
    have : (bytes "[-]").filterMap opcodeOf = [OP_LOOP_START, OP_DECR_DATA, OP_LOOP_END] := by
      decide
    rw [this]; simp
  generalize hp : List.replicate N OP_INCR_DATA
    ++ [OP_LOOP_START, OP_DECR_DATA, OP_LOOP_END, OP_EXIT] = prog at hload ⊢
  have g (j : Nat) : prog[N + j]? = [OP_LOOP_START, OP_DECR_DATA, OP_LOOP_END, OP_EXIT][j]? := by
    rw [← hp]; exact getElem?_append_replicate N j _
  obtain ⟨m1, e1, e2, e3, e4, e5, _, _, e8⟩ := runs_incr verbose prog N (initial input)
    (by
      intro j hj
      rw [← hp]
      simpa [initial] using getElem?_replicate_append N j _ hj)
    (by simp [initial, new_storage]) (by simp [initial, new_storage])
  obtain ⟨s1, b1, o1, i1, out1⟩ := m1
  simp only [initial, new_storage, Nat.zero_add, Int.zero_add] at e2 e3 e4 e5
  have hw : wrapInt (N : Int) = N := wrapInt_of_range (by omega) (by omega)
  rw [hw] at e3
  rw [e2, e3, e4, e5] at e1
  obtain ⟨output1, f1, _, _, f4⟩ := runs_clear_loop verbose prog N N [] [] [] input out1
    (by simpa using g 0) (by simpa using g 1) (by simpa using g 2)
    (by simp only [SIZE_MAX]; omega) hN
  refine ⟨output1, hload, ?_, ?_⟩
  · rw [runs_add verbose prog N (2 * N + 1) _ _ e1]
    exact f1
  · rw [executed_of_runs verbose prog N (2 * N + 1) _ _ e1, e8, List.count_append, f4]
    have : List.count (N + 1) (List.range' (initial input).op N) = 0 := by
      rw [List.count_eq_zero]
      intro hm
      have := List.mem_range'_1.1 hm
      simp [initial] at this
    rw [this]; simp

/-- Claim C2.  The empty source compiles to the stream `[OP_EXIT]` of length
one, and `eval` on it is at `OP_EXIT` before any round of its loop: with no
round allowed, and with any number allowed, the run is halted in the starting
state, whose input is untouched, whose output is empty and whose tape is the
single fresh zero cell; no round is run. -/
theorem empty_source_halts_at_once (beyond : Nat → Nat) (verbose : Bool) (input : List Nat)
    (fuel : Nat) :
    load beyond [] = some [OP_EXIT] ∧
    [OP_EXIT].length = 1 ∧
    eval verbose [OP_EXIT] input 0 = Outcome.halted (initial input) ∧
    eval verbose [OP_EXIT] input fuel = Outcome.halted (initial input) ∧
    executed verbose [OP_EXIT] fuel (initial input) = [] ∧
    (initial input).input = input ∧
    (initial input).output = [] ∧
    (initial input).store = ⟨[], 0, []⟩ ∧
    (initial input).bracket = [] := by
  refine ⟨rfl, rfl, rfl, ?_, ?_, rfl, rfl, rfl, rfl⟩
  · cases fuel <;> rfl
  · cases fuel <;> rfl

theorem executed_at_exit {verbose : Bool} {program : List Nat} {m : Machine}
    (h : program[m.op]? = some OP_EXIT) (fuel : Nat) :
    executed verbose program fuel m = [] := by
  cases fuel with
  | zero => rfl
  | succ f => simp [executed, step, h]

/-- Claim C3.  Let `N` be a value a cell can hold (`N <= INT_MAX`).  Wherever
a loop `[-]` stands in a program, started on a cell holding `N` it is left
after `2 * N + 1` rounds with that cell at 0, the cursor and the rest of the
tape as they were, the bracket stack as it was, and the body `-` run exactly
`N` times.  And the program of `N` times `+` followed by `[-]` halts from the
fresh state, with any amount of fuel from `3 * N + 1` on, on the single cell
0 with the bracket stack empty, having run the body exactly `N` times. -/
theorem clear_loop_runs_exactly_N_times (N : Nat) (hN : N < 2147483648) :
    (∀ (verbose : Bool) (program : List Nat) (i : Nat) (st : List Nat) (l r : List Int)
        (input : List Nat) (output : List Event),
      program[i]? = some OP_LOOP_START → program[i + 1]? = some OP_DECR_DATA →
      program[i + 2]? = some OP_LOOP_END → i ≠ SIZE_MAX →
      ∃ output1,
        runs verbose program (2 * N + 1) ⟨⟨l, (N : Int), r⟩, st, i, input, output⟩
          = some ⟨⟨l, 0, r⟩, st, i + 3, input, output1⟩ ∧
        (executed verbose program (2 * N + 1)
          ⟨⟨l, (N : Int), r⟩, st, i, input, output⟩).count (i + 1) = N) ∧
    (∀ (beyond : Nat → Nat) (verbose : Bool) (input : List Nat),
      ∃ prog mf,
        load beyond (List.replicate N 43 ++ bytes "[-]") = some prog ∧
        (∀ extra, eval verbose prog input (3 * N + 1 + extra) = Outcome.halted mf) ∧
        mf.store = ⟨[], 0, []⟩ ∧ mf.bracket = [] ∧ mf.input = input ∧
        (∀ extra,
          (executed verbose prog (3 * N + 1 + extra) (initial input)).count (N + 1) = N)) := by
  constructor
  · intro verbose program i st l r input output h7 h4 h8 hi
    obtain ⟨output1, e1, _, _, e4⟩ :=
      runs_clear_loop verbose program i N st l r input output h7 h4 h8 hi hN
    exact ⟨output1, e1, e4⟩
  · intro beyond verbose input
    obtain ⟨output1, e1, e2, e3⟩ := run_plus_clear beyond verbose input N hN
    have hx : (List.replicate N OP_INCR_DATA
        ++ [OP_LOOP_START, OP_DECR_DATA, OP_LOOP_END, OP_EXIT])[N + 3]? = some OP_EXIT := by
      rw [getElem?_append_replicate]; rfl
    refine ⟨_, ⟨⟨[], 0, []⟩, [], N + 3, input, output1⟩, e1, ?_, rfl, rfl, rfl, ?_⟩
    · intro extra
      rw [show 3 * N + 1 + extra = N + (2 * N + 1) + extra by omega, eval,
        evalLoop_of_runs verbose _ _ extra _ _ e2]
      have := evalLoop_halted_mono verbose _ 0 extra _ _
        (evalLoop_zero_exit (v := verbose)
          (m := ⟨⟨[], 0, []⟩, [], N + 3, input, output1⟩) hx)
      simpa using this
    · intro extra
      rw [show 3 * N + 1 + extra = N + (2 * N + 1) + extra by omega,
        executed_of_runs verbose _ _ extra _ _ e2,
        executed_at_exit (m := ⟨⟨[], 0, []⟩, [], N + 3, input, output1⟩) hx, List.append_nil]
      exact e3

/-- Claim C3 at `N = 3`: the program `+++[-]`. -/
theorem clear_loop_runs_exactly_N_times_witness :
    (3 : Nat) < 2147483648 ∧
    ∃ prog mf,
      load (fun _ => 0) (List.replicate 3 43 ++ bytes "[-]") = some prog ∧
      (∀ extra, eval false prog [] (3 * 3 + 1 + extra) = Outcome.halted mf) ∧
      mf.store = ⟨[], 0, []⟩ ∧ mf.bracket = [] ∧ mf.input = [] ∧
      (∀ extra,
        (executed false prog (3 * 3 + 1 + extra) (initial [])).count (3 + 1) = 3) :=
  ⟨by decide, (clear_loop_runs_exactly_N_times 3 (by decide)).2 (fun _ => 0) false []⟩

set_option maxRecDepth 10000 in
set_option maxHeartbeats 4000000 in
/-- The 41 rounds of `++[>++[>++<-]<-]`, whatever the input and the verbosity. -/
theorem run_nested (verbose : Bool) (input : List Nat) :
    ∃ mf, eval verbose [3, 3, 7, 1, 3, 3, 7, 1, 3, 3, 2, 4, 8, 2, 4, 8, 0] input 41
        = Outcome.halted mf ∧
      mf.store = ⟨[], 0, [0, 8]⟩ ∧ mf.bracket = [] ∧ mf.input = input ∧
      emitted mf.output = [] ∧
      displacement [3, 3, 7, 1, 3, 3, 7, 1, 3, 3, 2, 4, 8, 2, 4, 8, 0]
        (executed verbose [3, 3, 7, 1, 3, 3, 7, 1, 3, 3, 2, 4, 8, 2, 4, 8, 0] 41
          (initial input)) = 0 := by
  simp [eval, evalLoop, executed, displacement, step, body, scan, next, previous, wrapInt,
    push, pop, peek, initial, new_storage]

/-- Claim C4.  The source `++[>++[>++<-]<-]` compiles, and its run from the
fresh state halts (after 41 rounds, and with any more fuel) with the cursor
on a cell that has no cell to its left and holds 0, the next cell to the
right holding 0 and the one after holding 8, and with the bracket stack
empty; the cursor moved right as often as left, so it is on the start cell. -/
theorem nested_loops_leave_eight (beyond : Nat → Nat) (verbose : Bool) (input : List Nat) :
    ∃ prog mf,
      load beyond (bytes "++[>++[>++<-]<-]") = some prog ∧
      (∀ extra, eval verbose prog input (41 + extra) = Outcome.halted mf) ∧
      mf.store = ⟨[], 0, [0, 8]⟩ ∧ mf.bracket = [] ∧
      displacement prog (executed verbose prog 41 (initial input)) = 0 := by
  obtain ⟨mf, e1, e2, e3, _, _, e6⟩ := run_nested verbose input
  refine ⟨[3, 3, 7, 1, 3, 3, 7, 1, 3, 3, 2, 4, 8, 2, 4, 8, 0], mf, ?_, ?_, e2, e3, e6⟩
  · rw [load_eq_compileSpec]; decide
  · intro extra
    exact evalLoop_halted_mono verbose _ 41 extra _ _ e1

/-- The run of `n` times `+` followed by `.` from the fresh state. -/
theorem run_plus_output (beyond : Nat → Nat) (verbose : Bool) (input : List Nat) (n : Nat) :
    ∃ mf,
      load beyond (List.replicate n 43 ++ bytes ".")
        = some (List.replicate n OP_INCR_DATA ++ [OP_OUTPUT, OP_EXIT]) ∧
      (∀ extra, eval verbose (List.replicate n OP_INCR_DATA ++ [OP_OUTPUT, OP_EXIT]) input
        (n + 1 + extra) = Outcome.halted mf) ∧
      emitted mf.output = [n % 256] ∧
      (verbose = false → mf.output = [Event.putc (n % 256)]) ∧
      mf.input = input := by
  have hload : load beyond (List.replicate n 43 ++ bytes ".")
      = some (List.replicate n OP_INCR_DATA ++ [OP_OUTPUT, OP_EXIT]) := by
    rw [load_eq_compileSpec, compileSpec, List.filterMap_append, filterMap_replicate_plus]
    have : (bytes ".").filterMap opcodeOf = [OP_OUTPUT] := by decide
    rw [this]; simp
  generalize hp : List.replicate n OP_INCR_DATA ++ [OP_OUTPUT, OP_EXIT] = prog at hload ⊢
  have g (j : Nat) : prog[n + j]? = [OP_OUTPUT, OP_EXIT][j]? := by
    rw [← hp]; exact getElem?_append_replicate n j _
  obtain ⟨m1, e1, e2, e3, e4, e5, e6, e7, _⟩ := runs_incr verbose prog n (initial input)
    (by
      intro j hj
      rw [← hp]
      simpa [initial] using getElem?_replicate_append n j _ hj)
    (by simp [initial, new_storage]) (by simp [initial, new_storage])
  have e6 : emitted m1.output = [] := e6
  simp only [initial, new_storage, Nat.zero_add, Int.zero_add] at e2 e3 e4 e5 e7
  have s1 := step_output (v := verbose) (p := prog) (m := m1)
    (by rw [e2]; simpa using g 0)
  have hx : prog[m1.op + 1]? = some OP_EXIT := by rw [e2]; simpa using g 1
  have hb : toByte m1.store.value = n % 256 := by
    rw [e3]; simp only []
    rw [toByte_wrapInt, toByte_natCast]
  refine ⟨{ m1 with
      output := m1.output ++ [Event.putc (toByte m1.store.value)]
        ++ logIf verbose (Trace.V_OP_INPUT m1.store.value)
      op := m1.op + 1 }, hload, ?_, ?_, ?_, ?_⟩
  · intro extra
    rw [eval, show n + 1 + extra = n + (1 + extra) by omega,
      evalLoop_of_runs verbose _ _ (1 + extra) _ _ e1, Nat.add_comm 1 extra, evalLoop_succ s1]
    have := evalLoop_halted_mono verbose prog 0 extra _ _
      (evalLoop_zero_exit (v := verbose) (p := prog)
        (m := { m1 with
          output := m1.output ++ [Event.putc (toByte m1.store.value)]
            ++ logIf verbose (Trace.V_OP_INPUT m1.store.value)
          op := m1.op + 1 }) hx)
    simpa using this
  · simp only [emitted_append, emitted_putc, emitted_logIf, hb, List.append_nil, e6,
      List.nil_append]
  · intro hv
    subst hv
    simp only [logIf_false, List.append_nil, hb, e7 rfl, List.nil_append]
  · exact e5

/-- Claim C5.  For every `n`, the program of `n` times `+` followed by `.`
halts from the fresh state after `n + 1` rounds; its one `OP_OUTPUT` round
writes the byte `n % 256`, and with verbosity off that byte is all of the
output.  In particular 256 times `+` followed by `.` writes the same output,
the byte 0, as `.` alone. -/
theorem plus_then_output_emits_n_mod_256 (beyond : Nat → Nat) (input : List Nat) :
    (∀ (verbose : Bool) (n : Nat), ∃ prog mf,
      load beyond (List.replicate n 43 ++ bytes ".") = some prog ∧
      (∀ extra, eval verbose prog input (n + 1 + extra) = Outcome.halted mf) ∧
      emitted mf.output = [n % 256] ∧
      (verbose = false → mf.output = [Event.putc (n % 256)])) ∧
    (∃ prog256 prog0 mf256 mf0,
      load beyond (List.replicate 256 43 ++ bytes ".") = some prog256 ∧
      load beyond (bytes ".") = some prog0 ∧
      eval false prog256 input 257 = Outcome.halted mf256 ∧
      eval false prog0 input 1 = Outcome.halted mf0 ∧
      mf256.output = [Event.putc 0] ∧ mf0.output = [Event.putc 0]) := by
  constructor
  · intro verbose n
    obtain ⟨mf, e1, e2, e3, e4, _⟩ := run_plus_output beyond verbose input n
    exact ⟨_, mf, e1, e2, e3, e4⟩
  · obtain ⟨mf256, a1, a2, _, a4, _⟩ := run_plus_output beyond false input 256
    obtain ⟨mf0, b1, b2, _, b4, _⟩ := run_plus_output beyond false input 0
    exact ⟨_, _, mf256, mf0, a1, b1, a2 0, b2 0, a4 rfl, b4 rfl⟩

/-- After `n` times `+` on the fresh cell, with `0 < n <= INT_MAX`, a following
`[` enters its loop: the cell holds `n`, and the index `n` of the `[` is pushed. -/
theorem runs_plus_then_loop_start (verbose : Bool) (input : List Nat) (n : Nat)
    (rest : List Nat) (h0 : 0 < n) (hn : n < 2147483648) :
    ∃ output1,
      runs verbose (List.replicate n OP_INCR_DATA ++ OP_LOOP_START :: rest) (n + 1)
        (initial input) = some ⟨⟨[], (n : Int), []⟩, [n], n + 1, input, output1⟩ ∧
      (verbose = false → output1 = []) := by
  generalize hp : List.replicate n OP_INCR_DATA ++ OP_LOOP_START :: rest = prog
  have g (j : Nat) : prog[n + j]? = (OP_LOOP_START :: rest)[j]? := by
    rw [← hp]; exact getElem?_append_replicate n j _
  obtain ⟨m1, e1, e2, e3, e4, e5, _, e7, _⟩ := runs_incr verbose prog n (initial input)
    (by
      intro j hj
      rw [← hp]
      simpa [initial] using getElem?_replicate_append n j _ hj)
    (by simp [initial, new_storage]) (by simp [initial, new_storage])
  obtain ⟨s1, b1, o1, i1, out1⟩ := m1
  simp only [initial, new_storage, Nat.zero_add, Int.zero_add] at e2 e3 e4 e5 e7
  have hw : wrapInt (n : Int) = n := wrapInt_of_range (by omega) (by omega)
  rw [hw] at e3
  rw [e2, e3, e4, e5] at e1
  have s1 := step_loop_start_enter (v := verbose) (p := prog)
    (m := ⟨⟨[], (n : Int), []⟩, [], n, input, out1⟩) (by simpa using g 0)
    (by simp only []; omega)
  refine ⟨out1 ++ logIf verbose Trace.V_OP_LOOP_START, ?_, ?_⟩
  · rw [runs_add verbose prog n 1 _ _ e1, runs_succ s1]; rfl
  · intro hv; subst hv; simp [e7 rfl]

theorem evalLoop_zero_running {verbose : Bool} {program : List Nat} {m : Machine} {c : Nat}
    (h : program[m.op]? = some c) (hc : c ≠ OP_EXIT) :
    evalLoop verbose program 0 m = Outcome.running m := by
  simp [evalLoop, h, hc]

/-- Counterexample to claim C6.  Decrementing the fresh cell gives -1, not
255; incrementing a cell holding 255 gives 256, not 0; and after 256 times
`+` the loop `[-]` is entered, not skipped: after 257 rounds the index of its
`[` is on the bracket stack and the cell holds 256. -/
theorem cell_is_not_a_byte :
    step false [OP_DECR_DATA, OP_EXIT] (initial [])
      = Outcome.running ⟨⟨[], -1, []⟩, [], 1, [], []⟩ ∧
    (-1 : Int) ≠ (0 - 1) % 256 ∧
    step false [OP_INCR_DATA, OP_EXIT] ⟨⟨[], 255, []⟩, [], 0, [], []⟩
      = Outcome.running ⟨⟨[], 256, []⟩, [], 1, [], []⟩ ∧
    (256 : Int) ≠ (255 + 1) % 256 ∧
    load (fun _ => 0) (List.replicate 256 43 ++ bytes "[-]")
      = some (List.replicate 256 OP_INCR_DATA
          ++ [OP_LOOP_START, OP_DECR_DATA, OP_LOOP_END, OP_EXIT]) ∧
    eval false
      (List.replicate 256 OP_INCR_DATA ++ [OP_LOOP_START, OP_DECR_DATA, OP_LOOP_END, OP_EXIT])
      [] 257 = Outcome.running ⟨⟨[], 256, []⟩, [256], 257, [], []⟩ := by
  refine ⟨by decide, by decide, by decide, by decide, ?_, ?_⟩
  · exact (run_plus_clear (fun _ => 0) false [] 256 (by decide)).choose_spec.1
  · obtain ⟨output1, e1, e2⟩ := runs_plus_then_loop_start false [] 256
      [OP_DECR_DATA, OP_LOOP_END, OP_EXIT] (by decide) (by decide)
    rw [e2 rfl] at e1
    have := evalLoop_of_runs false _ 257 0 _ _ e1
    rw [eval, show 257 = 257 + 0 by rfl, this]
    exact evalLoop_zero_running (c := OP_DECR_DATA)
      (by
        show (List.replicate 256 OP_INCR_DATA
          ++ [OP_LOOP_START, OP_DECR_DATA, OP_LOOP_END, OP_EXIT])[256 + 1]? = some OP_DECR_DATA
        rw [getElem?_append_replicate]; rfl)
      (by decide)

theorem toByte_lt (v : Int) : toByte v < 256 := by
  unfold toByte; omega

theorem toByte_succ (v : Int) : toByte (wrapInt (v + 1)) = (toByte v + 1) % 256 := by
  unfold toByte wrapInt; omega

theorem toByte_pred (v : Int) : toByte (wrapInt (v - 1)) = (toByte v + 255) % 256 := by
  unfold toByte wrapInt; omega

/-- Claim C6, amended.  A cell is a C `int`, not a byte.  `OP_INCR_DATA`
changes the current cell from `v` to `v + 1` and `OP_DECR_DATA` to `v - 1`
(in `int` arithmetic, exactly so inside the `int` range), touching nothing
else of the tape; only the byte that `OP_OUTPUT` writes for a cell is taken
modulo 256, so that byte lies in 0..255 and goes from `b` to `(b + 1) % 256`
on an increment and to `(b + 255) % 256` on a decrement.  Decrementing a 0
cell gives -1, written as the byte 255.  After 256 increments of the fresh
cell the cell holds 256, written as the byte 0, but a following
`OP_LOOP_START` finds it nonzero and enters the loop. -/
theorem cells_are_ints_and_bytes_only_on_output :
    (∀ (verbose : Bool) (program : List Nat) (m : Machine),
      program[m.op]? = some OP_INCR_DATA →
      ∃ m1, step verbose program m = Outcome.running m1 ∧
        m1.store = { m.store with value := wrapInt (m.store.value + 1) } ∧
        (-2147483648 ≤ m.store.value → m.store.value < 2147483647 →
          m1.store.value = m.store.value + 1) ∧
        toByte m1.store.value = (toByte m.store.value + 1) % 256) ∧
    (∀ (verbose : Bool) (program : List Nat) (m : Machine),
      program[m.op]? = some OP_DECR_DATA →
      ∃ m1, step verbose program m = Outcome.running m1 ∧
        m1.store = { m.store with value := wrapInt (m.store.value - 1) } ∧
        (-2147483648 < m.store.value → m.store.value < 2147483648 →
          m1.store.value = m.store.value - 1) ∧
        toByte m1.store.value = (toByte m.store.value + 255) % 256) ∧
    (∀ v : Int, toByte v < 256) ∧
    (wrapInt (0 - 1) = -1 ∧ toByte (-1) = 255) ∧
    (∀ (verbose : Bool) (input : List Nat) (rest : List Nat),
      ∃ output1,
        runs verbose (List.replicate 256 OP_INCR_DATA ++ OP_LOOP_START :: rest) 257
          (initial input) = some ⟨⟨[], 256, []⟩, [256], 257, input, output1⟩ ∧
        toByte 256 = 0) := by
  refine ⟨?_, ?_, toByte_lt, ⟨by decide, by decide⟩, ?_⟩
  · intro verbose program m h
    refine ⟨_, step_incr_data h, rfl, ?_, toByte_succ _⟩
    intro h1 h2
    exact wrapInt_of_range (by omega) (by omega)
  · intro verbose program m h
    refine ⟨_, step_decr_data h, rfl, ?_, toByte_pred _⟩
    intro h1 h2
    exact wrapInt_of_range (by omega) (by omega)
  · intro verbose input rest
    obtain ⟨output1, e1, _⟩ := runs_plus_then_loop_start verbose input 256 rest
      (by decide) (by decide)
    exact ⟨output1, e1, by decide⟩

/-- The bracket search fails at the first `OP_EXIT` when the depth has not
come back to 0 before it. -/
theorem scan_noMatch (seg : List Nat) (post : List Nat) :
    ∀ (op level : Nat), OP_EXIT ∉ seg →
      (∀ k, k ≤ seg.length →
        (seg.take k).count OP_LOOP_END < level + (seg.take k).count OP_LOOP_START ∧
        level + (seg.take k).count OP_LOOP_START
          ≤ (seg.take k).count OP_LOOP_END + 2147483647) →
      scan (seg ++ OP_EXIT :: post) op (level : Int) = Scan.noMatch (op + seg.length + 1) := by
  induction seg with
  | nil => intro op level _ _; simp [scan]
  | cons c seg ih =>
    intro op level h0 hk
    have h0' : OP_EXIT ∉ seg := fun h => h0 (List.mem_cons_of_mem _ h)
    have hc0 : c ≠ OP_EXIT := fun h => h0 (by rw [h]; exact List.mem_cons_self _ _)
    have hlen : op + (c :: seg).length + 1 = op + 1 + seg.length + 1 := by
      simp only [List.length_cons]; omega
    rw [List.cons_append, scan, hlen]
    by_cases h7 : c = OP_LOOP_START
    · rw [if_pos h7]
      have h1 := hk 1 (by simp only [List.length_cons]; omega)
      rw [List.take_succ_cons, h7] at h1
      simp at h1
      have hw : wrapInt ((level : Int) + 1) = ((level + 1 : Nat) : Int) := by
        unfold wrapInt; push_cast; omega
      rw [hw, if_pos (by omega)]
      apply ih (op + 1) (level + 1) h0'
      intro k hk'
      have := hk (k + 1) (by simp only [List.length_cons]; omega)
      rw [List.take_succ_cons, h7] at this
      simp only [OP_LOOP_START, OP_LOOP_END] at this ⊢
      rw [List.count_cons_of_ne (by decide), List.count_cons_self] at this
      omega
    · rw [if_neg h7]
      by_cases h8 : c = OP_LOOP_END
      · rw [if_pos h8]
        have h1 := hk 1 (by simp only [List.length_cons]; omega)
        rw [List.take_succ_cons, h8] at h1
        simp at h1
        have hw : wrapInt ((level : Int) - 1) = ((level - 1 : Nat) : Int) := by
          unfold wrapInt; omega
        rw [hw, if_pos (by omega)]
        apply ih (op + 1) (level - 1) h0'
        intro k hk'
        have := hk (k + 1) (by simp only [List.length_cons]; omega)
        rw [List.take_succ_cons, h8] at this
        simp only [OP_LOOP_START, OP_LOOP_END] at this ⊢
        rw [List.count_cons_self, List.count_cons_of_ne (by decide)] at this
        omega
      · rw [if_neg h8, if_neg hc0]
        apply ih (op + 1) level h0'
        intro k hk'
        have := hk (k + 1) (by simp only [List.length_cons]; omega)
        rw [List.take_succ_cons] at this
        rw [List.count_cons_of_ne (Ne.symm h8), List.count_cons_of_ne (Ne.symm h7)] at this
        exact this

/-- The failing round in terms of the cells between the bracket and the first
`OP_EXIT`. -/
theorem step_unmatched_at {v : Bool} {p : List Nat} {m : Machine} {seg post : List Nat}
    (h7 : p[m.op]? = some OP_LOOP_START) (hv : m.store.value = 0)
    (hd : p.drop (m.op + 1) = seg ++ OP_EXIT :: post) (h0 : OP_EXIT ∉ seg)
    (hk : ∀ k, k ≤ seg.length →
      (seg.take k).count OP_LOOP_END < 1 + (seg.take k).count OP_LOOP_START ∧
      1 + (seg.take k).count OP_LOOP_START ≤ (seg.take k).count OP_LOOP_END + 2147483647) :
    step v p m
      = Outcome.failed Fault.badBrackets { m with op := m.op + seg.length + 1 } := by
  have hs := scan_noMatch seg post m.op 1 h0 hk
  rw [← hd] at hs
  simp only [Nat.cast_one] at hs
  simp [step, body, h7, hv, hs]

/-- An `OP_LOOP_START` without match, run on a zero cell, stops the run at
the first `OP_EXIT` behind it. -/
theorem step_unmatched {v : Bool} {p : List Nat} {m : Machine}
    (h7 : p[m.op]? = some OP_LOOP_START) (hv : m.store.value = 0)
    (hu : Unmatched p m.op) :
    ∃ e, m.op < e ∧ p[e]? = some OP_EXIT ∧
      (∀ j, m.op < j → j < e → p[j]? ≠ some OP_EXIT) ∧
      step v p m = Outcome.failed Fault.badBrackets { m with op := e } := by
  obtain ⟨seg, post, hd, h0, hk⟩ := hu
  have hget (j : Nat) : p[m.op + 1 + j]? = (seg ++ OP_EXIT :: post)[j]? := by
    rw [← hd, List.getElem?_drop]
  refine ⟨m.op + seg.length + 1, by omega, ?_, ?_, ?_⟩
  · rw [show m.op + seg.length + 1 = m.op + 1 + seg.length by omega, hget,
      List.getElem?_append_right (Nat.le_refl _)]
    simp
  · intro j h1 h2 hj
    have := hget (j - (m.op + 1))
    rw [show m.op + 1 + (j - (m.op + 1)) = j by omega, hj,
      List.getElem?_append_left (by omega)] at this
    exact h0 (List.getElem?_mem this.symm)
  · exact step_unmatched_at h7 hv hd h0 hk

theorem evalLoop_succ_failed {verbose : Bool} {program : List Nat} {m mf : Machine} {f : Fault}
    (h : step verbose program m = Outcome.failed f mf) (fuel : Nat) :
    evalLoop verbose program (fuel + 1) m = Outcome.failed f mf := by
  simp [evalLoop, h]

/-- Claim C7.  The program `[+` run from the fresh state fails with
`badBrackets` in its first round, with `op` on the closing `OP_EXIT` (index 2,
the last cell of the buffer), having run no other round.  In general, when
`OP_LOOP_START` is run on a zero cell and the depth counted from 1 behind it
is not back at 0 before the first `OP_EXIT`, the run fails with `badBrackets`
in that round, `op` stands on that first `OP_EXIT`, and no further round is
run; the buffer cut off behind that `OP_EXIT` gives the same failure, so no
cell behind it is read. -/
theorem unmatched_loop_start_aborts :
    (∀ (beyond : Nat → Nat) (verbose : Bool) (input : List Nat) (fuel : Nat),
      ∃ prog, load beyond (bytes "[+") = some prog ∧ prog.length = 3 ∧
        prog[2]? = some OP_EXIT ∧
        eval verbose prog input (fuel + 1)
          = Outcome.failed Fault.badBrackets ⟨⟨[], 0, []⟩, [], 2, input, []⟩ ∧
        executed verbose prog (fuel + 1) (initial input) = [0]) ∧
    (∀ (verbose : Bool) (program : List Nat) (m : Machine),
      program[m.op]? = some OP_LOOP_START → m.store.value = 0 → Unmatched program m.op →
      ∃ e, m.op < e ∧ program[e]? = some OP_EXIT ∧
        (∀ j, m.op < j → j < e → program[j]? ≠ some OP_EXIT) ∧
        ∀ fuel,
          evalLoop verbose program (fuel + 1) m
            = Outcome.failed Fault.badBrackets { m with op := e } ∧
          evalLoop verbose (program.take (e + 1)) (fuel + 1) m
            = Outcome.failed Fault.badBrackets { m with op := e } ∧
          executed verbose program (fuel + 1) m = [m.op]) := by
  constructor
  · intro beyond verbose input fuel
    refine ⟨[OP_LOOP_START, OP_INCR_DATA, OP_EXIT], ?_, rfl, rfl, ?_, ?_⟩
    · rw [load_eq_compileSpec]; decide
    · simp [eval, evalLoop, step, body, scan, initial, new_storage]
    · simp [executed, step, body, scan, initial, new_storage]
  · intro verbose program m h7 hv hu
    obtain ⟨seg, post, hd, h0, hk⟩ := hu
    have hget (j : Nat) : program[m.op + 1 + j]? = (seg ++ OP_EXIT :: post)[j]? := by
      rw [← hd, List.getElem?_drop]
    have e4 := step_unmatched_at (v := verbose) h7 hv hd h0 hk
    have h7' : (program.take (m.op + seg.length + 1 + 1))[m.op]? = some OP_LOOP_START := by
      rw [List.getElem?_take_of_lt (by omega)]; exact h7
    have hd' : (program.take (m.op + seg.length + 1 + 1)).drop (m.op + 1)
        = seg ++ OP_EXIT :: [] := by
      rw [List.drop_take, hd,
        show m.op + seg.length + 1 + 1 - (m.op + 1) = seg.length + 1 by omega,
        List.take_append]
      simp
    have e5 := step_unmatched_at (v := verbose) h7' hv hd' h0 hk
    refine ⟨m.op + seg.length + 1, by omega, ?_, ?_, fun fuel =>
      ⟨evalLoop_succ_failed e4 fuel, evalLoop_succ_failed e5 fuel, ?_⟩⟩
    · rw [show m.op + seg.length + 1 = m.op + 1 + seg.length by omega, hget,
        List.getElem?_append_right (Nat.le_refl _)]
      simp
    · intro j h1 h2 hj
      have := hget (j - (m.op + 1))
      rw [show m.op + 1 + (j - (m.op + 1)) = j by omega, hj,
        List.getElem?_append_left (by omega)] at this
      exact h0 (List.getElem?_mem this.symm)
    · simp [executed, e4, h7]

/-- Claim C9, on the code.  When `OP_LOOP_END` is run with an empty bracket
stack the round reads through the `NULL` stack pointer, whether the cell is
nonzero (`peek`) or zero (`pop`): the run stops with the fault `nullDeref`,
not with `badBrackets`.  The program `+]` does so in its second round. -/
theorem loop_end_on_empty_stack_reads_null (beyond : Nat → Nat) (verbose : Bool)
    (input : List Nat) (fuel : Nat) :
    (∀ (program : List Nat) (m : Machine), program[m.op]? = some OP_LOOP_END →
      m.bracket = [] → step verbose program m = Outcome.failed Fault.nullDeref m) ∧
    load beyond (bytes "+]") = some [OP_INCR_DATA, OP_LOOP_END, OP_EXIT] ∧
    ∃ mf, eval verbose [OP_INCR_DATA, OP_LOOP_END, OP_EXIT] input (fuel + 2)
        = Outcome.failed Fault.nullDeref mf ∧
      mf.store = ⟨[], 1, []⟩ ∧ mf.bracket = [] ∧ mf.op = 1 := by
  refine ⟨?_, ?_, ?_⟩
  · intro program m h8 hb
    by_cases hv : m.store.value = 0 <;> simp [step, body, h8, hb, hv, peek, pop]
  · rw [load_eq_compileSpec]; decide
  · simp [eval, evalLoop, step, body, peek, wrapInt, initial, new_storage]


theorem step_running_not_exit {verbose : Bool} {program : List Nat} {m m1 : Machine}
    (h : step verbose program m = Outcome.running m1) :
    ∃ c, program[m.op]? = some c ∧ c ≠ OP_EXIT := by
  unfold step at h
  cases hp : program[m.op]? with
  | none => simp [hp] at h
  | some c =>
    refine ⟨c, rfl, ?_⟩
    intro hc
    simp [hp, hc] at h

/-- While the first `k` rounds all go on, and the machine they lead to is not
at `OP_EXIT`, no run with at most `k` rounds is halted. -/
theorem evalLoop_not_halted_of_runs (verbose : Bool) (program : List Nat) (k : Nat) :
    ∀ (m0 m : Machine) (c : Nat), runs verbose program k m0 = some m →
      program[m.op]? = some c → c ≠ OP_EXIT →
      ∀ fuel, fuel ≤ k → ∀ mf, evalLoop verbose program fuel m0 ≠ Outcome.halted mf := by
  induction k with
  | zero =>
    intro m0 m c hr hc hne fuel hf mf
    simp [runs] at hr
    subst hr
    have : fuel = 0 := by omega
    subst this
    rw [evalLoop_zero_running hc hne]
    simp
  | succ k ih =>
    intro m0 m c hr hc hne fuel hf mf
    cases hs : step verbose program m0 with
    | running m1 =>
      rw [runs_succ hs] at hr
      cases fuel with
      | zero =>
        obtain ⟨c0, h1, h2⟩ := step_running_not_exit hs
        rw [evalLoop_zero_running h1 h2]
        simp
      | succ f =>
        rw [evalLoop_succ hs]
        exact ih m1 m c hr hc hne f (by omega) mf
    | halted m1 => simp [runs, hs] at hr
    | failed f m1 => simp [runs, hs] at hr

/-- Counterexample to claim C8.  The source `+[` has unbalanced brackets, and
its run halts: the `[` is entered on a cell holding 1 and `OP_EXIT` follows. -/
theorem unbalanced_source_can_halt :
    balanced (bytes "+[") = false ∧
    load (fun _ => 0) (bytes "+[") = some [OP_INCR_DATA, OP_LOOP_START, OP_EXIT] ∧
    eval false [OP_INCR_DATA, OP_LOOP_START, OP_EXIT] [] 2
      = Outcome.halted ⟨⟨[], 1, []⟩, [1], 2, [], []⟩ := by
  refine ⟨by decide, by decide, by decide⟩

/-- Claim C8, amended.  An `OP_LOOP_START` without match is detected when it
is run on a zero cell: if the run of a compiled source reaches, after `k`
rounds, such a bracket with the current cell 0, then with any more fuel the
run fails with `badBrackets`, with `op` on the closing `OP_EXIT`, and with no
amount of fuel is it halted. -/
theorem unmatched_loop_start_on_zero_is_detected (beyond : Nat → Nat) (src prog : List Nat)
    (verbose : Bool) (input : List Nat) (k : Nat) (m : Machine)
    (hload : load beyond src = some prog)
    (hruns : runs verbose prog k (initial input) = some m)
    (h7 : prog[m.op]? = some OP_LOOP_START) (hv : m.store.value = 0)
    (hu : Unmatched prog m.op) :
    (∀ fuel, k < fuel →
      eval verbose prog input fuel
        = Outcome.failed Fault.badBrackets { m with op := prog.length - 1 }) ∧
    (∀ fuel mf, eval verbose prog input fuel ≠ Outcome.halted mf) := by
  obtain ⟨e, _, e2, _, e4⟩ := step_unmatched (v := verbose) h7 hv hu
  have he : e = prog.length - 1 := by
    rw [load_eq_compileSpec] at hload
    cases hload
    have := (compileSpec_exit_iff src e).1 e2
    omega
  rw [he] at e4
  have hfail : ∀ fuel, k < fuel → eval verbose prog input fuel
      = Outcome.failed Fault.badBrackets { m with op := prog.length - 1 } := by
    intro fuel hf
    rw [eval, show fuel = k + ((fuel - k - 1) + 1) by omega,
      evalLoop_of_runs verbose prog k _ _ _ hruns]
    exact evalLoop_succ_failed e4 _
  refine ⟨hfail, ?_⟩
  intro fuel mf
  by_cases hf : k < fuel
  · rw [hfail fuel hf]; simp
  · exact evalLoop_not_halted_of_runs verbose prog k _ m _ hruns h7 (by decide) fuel
      (by omega) mf

/-- Claim C8, amended, at the source `>[`: the `[` is run on the fresh zero
cell to the right after one round. -/
theorem unmatched_loop_start_on_zero_is_detected_witness :
    (∀ fuel, 1 < fuel →
      eval false [OP_INCR_PTR, OP_LOOP_START, OP_EXIT] [] fuel
        = Outcome.failed Fault.badBrackets ⟨⟨[0], 0, []⟩, [], 2, [], []⟩) ∧
    (∀ fuel mf, eval false [OP_INCR_PTR, OP_LOOP_START, OP_EXIT] [] fuel ≠ Outcome.halted mf) :=
  unmatched_loop_start_on_zero_is_detected (fun _ => 0) (bytes ">[")
    [OP_INCR_PTR, OP_LOOP_START, OP_EXIT] false [] 1 ⟨⟨[0], 0, []⟩, [], 1, [], []⟩
    (by decide) (by decide) (by decide) (by decide)
    ⟨[], [], by decide, by decide, by
      intro k hk
      have : k = 0 := by simpa using hk
      subst this
      decide⟩

/-! ## Balanced brackets -/

theorem openAt_succ_of {program : List Nat} {p c : Nat} {st : List Nat}
    (h : openAt program p = some st) (hc : program[p]? = some c) :
    openAt program (p + 1) =
      if c = OP_LOOP_START then some (p :: st)
      else if c = OP_LOOP_END then pop st
      else some st := by
  simp only [openAt, h, hc]

theorem openAt_pred_isSome {program : List Nat} {p : Nat} {st : List Nat}
    (h : openAt program (p + 1) = some st) :
    ∃ st0 c, openAt program p = some st0 ∧ program[p]? = some c := by
  cases h0 : openAt program p with
  | none => simp [openAt, h0] at h
  | some st0 =>
    cases hc : program[p]? with
    | none => simp [openAt, h0, hc] at h
    | some c => exact ⟨st0, c, rfl, rfl⟩

/-- When `openAt` is defined at `n` it is defined at every index up to `n`. -/
theorem openAt_isSome_of_le {program : List Nat} {n : Nat} {st : List Nat}
    (h : openAt program n = some st) :
    ∀ p, p ≤ n → ∃ st1, openAt program p = some st1 := by
  induction n generalizing st with
  | zero => intro p hp; exact ⟨st, by rw [show p = 0 by omega]; exact h⟩
  | succ n ih =>
    intro p hp
    by_cases hpn : p = n + 1
    · exact ⟨st, by rw [hpn]; exact h⟩
    · obtain ⟨st0, _, h0, _⟩ := openAt_pred_isSome h
      exact ih h0 p (by omega)

/-- The top of `openAt` is an `OP_LOOP_START` before `p`, and below it are the
loops open at that bracket. -/
theorem openAt_top {program : List Nat} (p : Nat) :
    ∀ (j : Nat) (rest : List Nat), openAt program p = some (j :: rest) →
      j < p ∧ program[j]? = some OP_LOOP_START ∧ openAt program j = some rest := by
  induction p using Nat.strong_induction_on with
  | _ p ih =>
    intro j rest h
    cases p with
    | zero => simp [openAt] at h
    | succ q =>
      obtain ⟨st0, c, h0, hc⟩ := openAt_pred_isSome h
      rw [openAt_succ_of h0 hc] at h
      by_cases h7 : c = OP_LOOP_START
      · rw [if_pos h7] at h
        simp only [Option.some.injEq, List.cons.injEq] at h
        obtain ⟨rfl, rfl⟩ := h
        exact ⟨by omega, by rw [hc, h7], h0⟩
      · rw [if_neg h7] at h
        by_cases h8 : c = OP_LOOP_END
        · rw [if_pos h8] at h
          cases st0 with
          | nil => simp [pop] at h
          | cons x st1 =>
            simp only [pop, Option.some.injEq] at h
            subst h
            obtain ⟨a1, _, a3⟩ := ih q (by omega) x (j :: rest) h0
            obtain ⟨b1, b2, b3⟩ := ih x (by omega) j rest a3
            exact ⟨by omega, b2, b3⟩
        · rw [if_neg h8] at h
          simp only [Option.some.injEq] at h
          subst h
          obtain ⟨a1, a2, a3⟩ := ih q (by omega) j rest h0
          exact ⟨by omega, a2, a3⟩


/-- At most `p` loops are open at index `p`. -/
theorem openAt_length_le {program : List Nat} (p : Nat) :
    ∀ st, openAt program p = some st → st.length ≤ p := by
  induction p with
  | zero => intro st h; simp [openAt] at h; subst h; simp
  | succ q ih =>
    intro st h
    obtain ⟨st0, c, h0, hc⟩ := openAt_pred_isSome h
    have hq := ih st0 h0
    rw [openAt_succ_of h0 hc] at h
    split_ifs at h
    · cases h; simp only [List.length_cons]; omega
    · cases st0 with
      | nil => simp [pop] at h
      | cons x st1 =>
        simp only [pop, Option.some.injEq] at h
        subst h
        simp only [List.length_cons] at hq
        omega
    · cases h; omega

theorem depthAt_succ_of {program : List Nat} {q c : Nat} (hc : program[q]? = some c) :
    depthAt program (q + 1) = depthAt program q +
      (if c = OP_LOOP_START then 1 else if c = OP_LOOP_END then -1 else 0) := by
  simp only [depthAt, hc, Option.some.injEq]

/-- The number of loops open at `p` is the depth in front of `p`. -/
theorem openAt_length_eq_depth {program : List Nat} (p : Nat) :
    ∀ st, openAt program p = some st → (st.length : Int) = depthAt program p := by
  induction p with
  | zero => intro st h; simp [openAt] at h; subst h; simp [depthAt]
  | succ q ih =>
    intro st h
    obtain ⟨st0, c, h0, hc⟩ := openAt_pred_isSome h
    have hq := ih st0 h0
    rw [openAt_succ_of h0 hc] at h
    rw [depthAt_succ_of hc]
    by_cases h7 : c = OP_LOOP_START
    · rw [if_pos h7] at h ⊢
      cases h
      simp only [List.length_cons]; push_cast; omega
    · rw [if_neg h7] at h ⊢
      by_cases h8 : c = OP_LOOP_END
      · rw [if_pos h8] at h ⊢
        cases st0 with
        | nil => simp [pop] at h
        | cons x st1 =>
          simp only [pop, Option.some.injEq] at h
          subst h
          simp only [List.length_cons] at hq
          push_cast at hq
          omega
      · rw [if_neg h8] at h ⊢
        cases h
        omega

theorem wrapInt_level_succ {level : Nat} (h : level < 2147483647) :
    wrapInt ((level : Int) + 1) = ((level + 1 : Nat) : Int) := by
  unfold wrapInt; push_cast; omega

theorem wrapInt_level_pred {level : Nat} (h1 : 1 ≤ level) (h : level ≤ 2147483647) :
    wrapInt ((level : Int) - 1) = ((level - 1 : Nat) : Int) := by
  unfold wrapInt; omega

/-- A bound on the depth in front of every index bounds the number of loops
open at every index. -/
theorem openAt_length_le_of_depth {program : List Nat}
    (hdepth : ∀ q, depthAt program q ≤ 2147483647) :
    ∀ p st, openAt program p = some st → st.length ≤ 2147483647 := by
  intro p st h
  have h1 := openAt_length_eq_depth p st h
  have h2 := hdepth p
  omega

/-- The depth in front of an index is at most the length of the program. -/
theorem depthAt_le_length (program : List Nat) (q : Nat) :
    depthAt program q ≤ (program.length : Int) := by
  have key : ∀ q, depthAt program q ≤ (q : Int) ∧ depthAt program q ≤ (program.length : Int) := by
    intro q
    induction q with
    | zero => simp [depthAt]
    | succ q ih =>
      cases hc : program[q]? with
      | none =>
        have : depthAt program (q + 1) = depthAt program q := by
          simp only [depthAt, hc]
          simp
        rw [this]
        exact ⟨by have := ih.1; push_cast; omega, ih.2⟩
      | some c =>
        have hq : q < program.length := (List.getElem?_eq_some.1 hc).1
        rw [depthAt_succ_of hc]
        have h1 := ih.1
        constructor
        · push_cast
          split_ifs <;> omega
        · split_ifs <;> omega
  exact (key q).2

/-- In a program closed by its only `OP_EXIT` and with balanced brackets,
nested at most `INT_MAX` deep, the bracket search started inside `level` open
loops stops at the `OP_LOOP_END` that closes the outermost of them, before
`OP_EXIT`. -/
theorem scan_found_of_balanced {program : List Nat}
    (hx : ∀ i, program[i]? = some OP_EXIT ↔ i + 1 = program.length)
    (hb : openAt program (program.length - 1) = some [])
    (hdeep : ∀ p st, openAt program p = some st → st.length ≤ 2147483647) :
    ∀ (rest : List Nat) (op level : Nat) (ext base : List Nat),
      program.drop (op + 1) = rest → openAt program (op + 1) = some (ext ++ base) →
      ext.length = level → 1 ≤ level → op + 2 ≤ program.length →
      ∃ j, scan rest op (level : Int) = Scan.found j ∧ op < j ∧ j + 1 < program.length ∧
        program[j]? = some OP_LOOP_END ∧ openAt program (j + 1) = some base := by
  intro rest
  induction rest with
  | nil =>
    intro op level ext base hd _ _ _ hlen
    have := congrArg List.length hd
    simp at this
    omega
  | cons c rest ih =>
    intro op level ext base hd ho hl h1 hlen
    have hc : program[op + 1]? = some c := by
      have := congrArg (fun l => l[0]?) hd
      simpa [List.getElem?_drop] using this
    have hd' : program.drop (op + 1 + 1) = rest := by
      have := congrArg List.tail hd
      simpa [List.tail_drop] using this
    have hne : c ≠ OP_EXIT := by
      intro h0
      have hn := (hx (op + 1)).1 (by rw [hc, h0])
      rw [show program.length - 1 = op + 1 by omega, ho] at hb
      cases ext with
      | nil => simp at hl; omega
      | cons e ext1 => simp at hb
    have hlen' : op + 1 + 2 ≤ program.length := by
      have hlt : op + 1 < program.length := by omega
      by_contra hcon
      have : op + 1 + 1 = program.length := by omega
      exact hne (by
        have := (hx (op + 1)).2 this
        rw [hc] at this
        exact Option.some.inj this)
    have hlv : level ≤ 2147483647 := by
      have := hdeep (op + 1) _ ho
      simp only [List.length_append] at this
      omega
    have hs := openAt_succ_of ho hc
    rw [scan]
    by_cases h7 : c = OP_LOOP_START
    · rw [if_pos h7]
      rw [if_pos h7] at hs
      have hlv1 : level < 2147483647 := by
        have := hdeep (op + 1 + 1) _ hs
        simp only [List.length_cons, List.length_append] at this
        omega
      rw [wrapInt_level_succ hlv1, if_pos (Int.natCast_pos.2 (Nat.succ_pos level))]
      obtain ⟨j, a1, a2, a3, a4, a5⟩ := ih (op + 1) (level + 1) ((op + 1) :: ext) base hd'
        (by simpa using hs) (by simp [hl]) (by omega) hlen'
      exact ⟨j, a1, by omega, a3, a4, a5⟩
    · rw [if_neg h7]
      rw [if_neg h7] at hs
      by_cases h8 : c = OP_LOOP_END
      · rw [if_pos h8]
        rw [if_pos h8] at hs
        rw [wrapInt_level_pred h1 hlv]
        cases ext with
        | nil => simp at hl; omega
        | cons e ext1 =>
          simp only [List.cons_append, pop] at hs
          simp only [List.length_cons] at hl
          by_cases hlev : level - 1 > 0
          · rw [if_pos (by omega)]
            obtain ⟨j, a1, a2, a3, a4, a5⟩ := ih (op + 1) (level - 1) ext1 base hd' hs
              (by omega) (by omega) hlen'
            exact ⟨j, a1, by omega, a3, a4, a5⟩
          · rw [if_neg (by omega)]
            have : ext1 = [] := List.length_eq_zero.1 (by omega)
            subst this
            exact ⟨op + 1, rfl, by omega, by omega, by rw [hc, h8], by simpa using hs⟩
      · rw [if_neg h8, if_neg hne]
        rw [if_neg h8] at hs
        obtain ⟨j, a1, a2, a3, a4, a5⟩ := ih (op + 1) level ext base hd' hs hl h1 hlen'
        exact ⟨j, a1, by omega, a3, a4, a5⟩

theorem step_other {v : Bool} {p : List Nat} {m : Machine} {c : Nat}
    (hc : p[m.op]? = some c) (h0 : c ≠ OP_EXIT) (h7 : c ≠ OP_LOOP_START)
    (h8 : c ≠ OP_LOOP_END) :
    ∃ m1, step v p m = Outcome.running m1 ∧ m1.op = m.op + 1 ∧ m1.bracket = m.bracket := by
  simp only [step, hc, if_neg h0, body, if_neg h7, if_neg h8]
  split_ifs <;> exact ⟨_, rfl, rfl, rfl⟩

theorem inv_loop_end_nonempty {program : List Nat}
    (hx : ∀ i, program[i]? = some OP_EXIT ↔ i + 1 = program.length)
    (hb : openAt program (program.length - 1) = some [])
    {m : Machine} (hi : Inv program m) (h8 : program[m.op]? = some OP_LOOP_END) :
    ∃ x rest, m.bracket = x :: rest ∧ x < m.op ∧ program[x]? = some OP_LOOP_START ∧
      openAt program x = some rest ∧ m.op + 2 ≤ program.length ∧
      openAt program (m.op + 1) = some rest := by
  obtain ⟨h1, h2⟩ := hi
  have hlt : m.op + 2 ≤ program.length := by
    by_contra hcon
    have := (hx m.op).2 (by omega)
    rw [h8] at this
    simp at this
  obtain ⟨st1, hs1⟩ := openAt_isSome_of_le hb (m.op + 1) (by omega)
  have hs := openAt_succ_of h2 h8
  simp only [OP_LOOP_END, OP_LOOP_START, if_neg (show ¬ (8 : Nat) = 7 by decide), if_true] at hs
  rw [hs1] at hs
  cases hbr : m.bracket with
  | nil => rw [hbr] at hs; simp [pop] at hs
  | cons x rest =>
    rw [hbr] at hs h2
    simp only [pop, Option.some.injEq] at hs
    subst hs
    obtain ⟨a1, a2, a3⟩ := openAt_top m.op x st1 h2
    exact ⟨x, st1, rfl, a1, a2, a3, hlt, hs1⟩

theorem inv_scan_found {program : List Nat}
    (hx : ∀ i, program[i]? = some OP_EXIT ↔ i + 1 = program.length)
    (hb : openAt program (program.length - 1) = some [])
    (hdeep : ∀ p st, openAt program p = some st → st.length ≤ 2147483647)
    {m : Machine} (hi : Inv program m) (h7 : program[m.op]? = some OP_LOOP_START) :
    ∃ j, scan (program.drop (m.op + 1)) m.op 1 = Scan.found j ∧ m.op < j ∧
      j + 1 < program.length ∧ program[j]? = some OP_LOOP_END ∧
      openAt program (j + 1) = some m.bracket := by
  obtain ⟨h1, h2⟩ := hi
  have hlt : m.op + 2 ≤ program.length := by
    by_contra hcon
    have := (hx m.op).2 (by omega)
    rw [h7] at this
    simp at this
  have hs := openAt_succ_of h2 h7
  rw [if_pos rfl] at hs
  have := scan_found_of_balanced hx hb hdeep _ m.op 1 [m.op] m.bracket rfl
    (by simpa using hs) rfl (by omega) hlt
  simpa using this

/-- A round from a state with the invariant halts or leads to a state with
the invariant; it never fails. -/
theorem step_inv {program : List Nat} (v : Bool)
    (hx : ∀ i, program[i]? = some OP_EXIT ↔ i + 1 = program.length)
    (hb : openAt program (program.length - 1) = some [])
    (hdeep : ∀ p st, openAt program p = some st → st.length ≤ 2147483647)
    (hsize : program.length ≤ 18446744073709551615)
    {m : Machine} (hi : Inv program m) :
    step v program m = Outcome.halted m ∨
      ∃ m1, step v program m = Outcome.running m1 ∧ Inv program m1 := by
  have hi' := hi
  obtain ⟨h1, h2⟩ := hi
  obtain ⟨c, hc⟩ : ∃ c, program[m.op]? = some c :=
    ⟨program[m.op], List.getElem?_eq_getElem (by omega)⟩
  by_cases h0 : c = OP_EXIT
  · left; simp [step, hc, h0]
  right
  have hlt : m.op + 2 ≤ program.length := by
    by_contra hcon
    have := (hx m.op).2 (by omega)
    rw [hc] at this
    exact h0 (Option.some.inj this)
  by_cases h7 : c = OP_LOOP_START
  · rw [h7] at hc
    by_cases hv : m.store.value = 0
    · obtain ⟨j, a1, a2, a3, a4, a5⟩ := inv_scan_found hx hb hdeep hi' hc
      exact ⟨_, step_loop_start_skip hc hv a1, by simp only []; omega, a5⟩
    · refine ⟨_, step_loop_start_enter hc hv, hlt, ?_⟩
      have hs := openAt_succ_of h2 hc
      rw [if_pos rfl] at hs
      exact hs
  by_cases h8 : c = OP_LOOP_END
  · rw [h8] at hc
    obtain ⟨x, rest, b1, b2, b3, b4, b5, b6⟩ := inv_loop_end_nonempty hx hb hi' hc
    by_cases hv : m.store.value = 0
    · exact ⟨_, step_loop_end_leave hc hv b1, hlt, b6⟩
    · refine ⟨_, step_loop_end_back hc hv b1 (by simp only [SIZE_MAX]; omega),
        by simp only []; omega, ?_⟩
      have hs := openAt_succ_of b4 b3
      rw [if_pos rfl] at hs
      simp only []
      rw [hs, b1]
  · obtain ⟨m1, e1, e2, e3⟩ := step_other (v := v) hc h0 h7 h8
    refine ⟨m1, e1, by rw [e2]; exact hlt, ?_⟩
    rw [e2, e3]
    have hs := openAt_succ_of h2 hc
    rw [if_neg h7, if_neg h8] at hs
    exact hs

theorem opcodeOf_brackets {c o : Nat} (h : opcodeOf c = some o) :
    (o = OP_LOOP_START ↔ c = 91) ∧ (o = OP_LOOP_END ↔ c = 93) := by
  unfold opcodeOf at h
  split_ifs at h <;> simp at h <;> (subst h; simp_all)

theorem opcodeOf_none_brackets {c : Nat} (h : opcodeOf c = none) : c ≠ 91 ∧ c ≠ 93 := by
  unfold opcodeOf at h
  split_ifs at h
  simp_all

/-- The depth count on the source text agrees with `openAt` on the compiled
stream: a source balanced from depth `st.length` on closes all open loops. -/
theorem openAt_of_depthCheck (src : List Nat) :
    ∀ (prog pre st : List Nat), prog = pre ++ (src.filterMap opcodeOf ++ [OP_EXIT]) →
      openAt prog pre.length = some st → depthCheck src st.length = true →
      openAt prog (pre.length + (src.filterMap opcodeOf).length) = some [] := by
  induction src with
  | nil =>
    intro prog pre st _ ho hd
    simp only [depthCheck, beq_iff_eq] at hd
    have : st = [] := List.length_eq_zero.1 hd
    subst this
    simpa using ho
  | cons c src ih =>
    intro prog pre st hp ho hd
    cases hc : opcodeOf c with
    | none =>
      obtain ⟨n1, n2⟩ := opcodeOf_none_brackets hc
      rw [List.filterMap_cons, hc] at hp ⊢
      simp only [depthCheck, if_neg n1, if_neg n2] at hd
      exact ih prog pre st hp ho hd
    | some o =>
      obtain ⟨b1, b2⟩ := opcodeOf_brackets hc
      rw [List.filterMap_cons, hc] at hp ⊢
      simp only [] at hp ⊢
      have hget : prog[pre.length]? = some o := by
        rw [hp, List.getElem?_append_right (Nat.le_refl _)]
        simp
      have hp' : prog = (pre ++ [o]) ++ (src.filterMap opcodeOf ++ [OP_EXIT]) := by
        rw [hp]; simp
      have hs := openAt_succ_of ho hget
      have hlen : pre.length + (o :: src.filterMap opcodeOf).length
          = (pre ++ [o]).length + (src.filterMap opcodeOf).length := by
        simp; omega
      rw [hlen]
      by_cases h7 : o = OP_LOOP_START
      · rw [if_pos h7] at hs
        simp only [depthCheck, if_pos (b1.1 h7)] at hd
        exact ih prog (pre ++ [o]) (pre.length :: st) hp' (by simpa using hs) (by simpa using hd)
      · rw [if_neg h7] at hs
        have n7 : c ≠ 91 := fun h => h7 (b1.2 h)
        by_cases h8 : o = OP_LOOP_END
        · rw [if_pos h8] at hs
          simp only [depthCheck, if_neg n7, if_pos (b2.1 h8), Bool.and_eq_true,
            decide_eq_true_eq] at hd
          cases st with
          | nil => simp at hd
          | cons x st1 =>
            simp only [pop] at hs
            exact ih prog (pre ++ [o]) st1 hp' (by simpa using hs) (by simpa using hd.2)
        · rw [if_neg h8] at hs
          have n8 : c ≠ 93 := fun h => h8 (b2.2 h)
          simp only [depthCheck, if_neg n7, if_neg n8] at hd
          exact ih prog (pre ++ [o]) st hp' (by simpa using hs) hd

/-- A source with balanced brackets compiles to a stream in which no loop is
open at the closing `OP_EXIT`. -/
theorem openAt_compileSpec {src : List Nat} (h : balanced src = true) :
    openAt (compileSpec src) ((compileSpec src).length - 1) = some [] := by
  have := openAt_of_depthCheck src (compileSpec src) [] [] (by simp [compileSpec]) rfl h
  simpa [compileSpec] using this

theorem step_input {v : Bool} {p : List Nat} {m : Machine}
    (h : p[m.op]? = some OP_INPUT) :
    step v p m = Outcome.running { m with
      store := { m.store with
        value := if (fgetc m.input).1 = EOF then INPUT_EOF else (fgetc m.input).1 }
      input := (fgetc m.input).2
      output := m.output ++ logIf v (Trace.V_OP_OUTPUT
        (if (fgetc m.input).1 = EOF then INPUT_EOF else (fgetc m.input).1))
      op := m.op + 1 } := by
  simp [step, body, h]

/-- Claim C11.  Let `op` be at an `OP_INPUT`.  At the end of the input the
round sets the current cell to 0, whatever it held, leaves the input at its
end and the rest of the tape and the bracket stack as they were, and moves
`op` on by one.  When a byte `b` is available the round sets the current cell
to `b` (so to 255 for the byte 255, not to -1 and not to 0), takes exactly
that byte off the input, and moves `op` on by one. -/
theorem input_reads_one_byte_or_zero (verbose : Bool) (program : List Nat) (m : Machine)
    (h : program[m.op]? = some OP_INPUT) :
    (m.input = [] →
      step verbose program m = Outcome.running { m with
        store := { m.store with value := 0 }
        input := []
        output := m.output ++ logIf verbose (Trace.V_OP_OUTPUT 0)
        op := m.op + 1 }) ∧
    (∀ (b : Nat) (rest : List Nat), m.input = b :: rest →
      step verbose program m = Outcome.running { m with
        store := { m.store with value := (b : Int) }
        input := rest
        output := m.output ++ logIf verbose (Trace.V_OP_OUTPUT (b : Int))
        op := m.op + 1 }) := by
  constructor
  · intro hi
    rw [step_input h, hi]
    simp [fgetc]
  · intro b rest hi
    rw [step_input h, hi]
    have hb : ¬ ((b : Int) = -1) := by omega
    simp [fgetc, hb]

/-- Claim C11 on the program `,` with the cell at 7: at the end of the input
the cell becomes 0, and with the byte 255 waiting it becomes 255. -/
theorem input_reads_one_byte_or_zero_witness :
    (step false [OP_INPUT, OP_EXIT] ⟨⟨[], 7, []⟩, [], 0, [], []⟩
      = Outcome.running ⟨⟨[], 0, []⟩, [], 1, [], []⟩) ∧
    (step false [OP_INPUT, OP_EXIT] ⟨⟨[], 7, []⟩, [], 0, [255, 3], []⟩
      = Outcome.running ⟨⟨[], 255, []⟩, [], 1, [3], []⟩) :=
  ⟨(input_reads_one_byte_or_zero false [OP_INPUT, OP_EXIT] ⟨⟨[], 7, []⟩, [], 0, [], []⟩
      (by decide)).1 rfl,
   (input_reads_one_byte_or_zero false [OP_INPUT, OP_EXIT] ⟨⟨[], 7, []⟩, [], 0, [255, 3], []⟩
      (by decide)).2 255 [3] rfl⟩

/-! ## The accesses of load -/

theorem OPERATION_inrange (beyond : Nat → Nat) {c : Nat} (h : c < WORD_SIZE) :
    OPERATION beyond c = OPERATION (fun _ => 0) c := by
  unfold OPERATION
  split_ifs <;> rfl

/-- On bytes below 128 the checked loop does what `loadLoop` does. -/
theorem loadLoopStrict_of_ascii (beyond : Nat → Nat) (src : List Nat) :
    ∀ (st st1 : LoadState), (∀ x, x ∈ src → x < WORD_SIZE) →
      loadLoop beyond src st = some st1 → loadLoopStrict src st = Except.ok st1 := by
  induction src with
  | nil => intro st st1 _ h; simp [loadLoop] at h; simp [loadLoopStrict, h]
  | cons c rest ih =>
    intro st st1 hs h
    have hc : c < WORD_SIZE := hs c (List.mem_cons_self _ _)
    have hr : ∀ x, x ∈ rest → x < WORD_SIZE := fun x hx => hs x (List.mem_cons_of_mem _ hx)
    simp only [loadLoop] at h
    simp only [loadLoopStrict, tableAt, if_pos hc, ← OPERATION_inrange beyond hc]
    split_ifs at h ⊢ with h1 h2
    · cases hp : poke (st.program) (st.prog_size * BUFFER_FACTOR) st.real_size
        (OPERATION beyond c) with
      | none => simp [hp] at h
      | some p => simp only [hp] at h ⊢; exact ih _ _ hr h
    · cases hp : poke st.program st.prog_size st.real_size (OPERATION beyond c) with
      | none => simp [hp] at h
      | some p => simp only [hp] at h ⊢; exact ih _ _ hr h
    · exact ih _ _ hr h
    · exact ih _ _ hr h

theorem loadLoopStrict_append (pre tl : List Nat) :
    ∀ (st st1 : LoadState), loadLoopStrict pre st = Except.ok st1 →
      loadLoopStrict (pre ++ tl) st = loadLoopStrict tl st1 := by
  induction pre with
  | nil => intro st st1 h; simp [loadLoopStrict] at h; simp [h]
  | cons c rest ih =>
    intro st st1 h
    simp only [loadLoopStrict, List.cons_append] at h ⊢
    cases ht : tableAt c with
    | none => simp [ht] at h
    | some code =>
      simp only [ht] at h ⊢
      split_ifs at h ⊢ with h1 h2
      · cases hp : poke (st.program) (st.prog_size * BUFFER_FACTOR) st.real_size code with
        | none => simp [hp] at h
        | some p => simp only [hp] at h ⊢; exact ih _ _ h
      · cases hp : poke st.program st.prog_size st.real_size code with
        | none => simp [hp] at h
        | some p => simp only [hp] at h ⊢; exact ih _ _ h
      · exact ih _ _ h
      · exact ih _ _ h

/-- Claim C17, on the code.  `load` reads `OPERATION[c]` first and tests
`c < WORD_SIZE` afterwards.  With the table access checked, a source whose
first byte of 128 or more is `c` stops at the table read with that index; the
one-byte source 128 does.  A source of bytes below 128 only is loaded without
any access outside the table or the buffer, to the stream of `compileSpec`. -/
theorem table_is_indexed_before_the_bounds_check :
    (∀ (pre rest : List Nat) (c : Nat), (∀ x, x ∈ pre → x < WORD_SIZE) → WORD_SIZE ≤ c →
      loadStrict (pre ++ c :: rest) = Except.error (LoadFault.tableIndex c)) ∧
    loadStrict [128] = Except.error (LoadFault.tableIndex 128) ∧
    (∀ src : List Nat, (∀ x, x ∈ src → x < WORD_SIZE) →
      loadStrict src = Except.ok (compileSpec src)) := by
  have hok : ∀ src : List Nat, (∀ x, x ∈ src → x < WORD_SIZE) →
      ∃ st1, loadLoopStrict src ⟨0, BUFFER_START_SIZE, []⟩ = Except.ok st1 ∧
        poke st1.program st1.prog_size st1.real_size OP_EXIT = some (compileSpec src) := by
    intro src hs
    obtain ⟨st1, e1, e2, e3, e4⟩ :=
      loadLoop_spec (fun _ => 0) src ⟨0, BUFFER_START_SIZE, []⟩ rfl (by simp)
    refine ⟨st1, loadLoopStrict_of_ascii _ src _ _ hs e1, ?_⟩
    have hl := load_eq_compileSpec (fun _ => 0) src
    unfold load at hl
    rw [e1] at hl
    exact hl
  refine ⟨?_, by rfl, ?_⟩
  · intro pre rest c hpre hc
    obtain ⟨st1, e1, _⟩ := hok pre hpre
    unfold loadStrict
    rw [loadLoopStrict_append pre (c :: rest) _ _ e1]
    have : tableAt c = none := by simp only [tableAt]; rw [if_neg (by omega)]
    simp [loadLoopStrict, this]
  · intro src hs
    obtain ⟨st1, e1, e2⟩ := hok src hs
    unfold loadStrict
    rw [e1]
    simp only [e2]

theorem isCommand_iff_stored (beyond : Nat → Nat) (c : Nat) :
    (OPERATION beyond c ≠ OP_EXIT ∧ c < WORD_SIZE) ↔ isCommand c = true := by
  constructor
  · intro h
    have := OPERATION_stored beyond c h
    cases hb : isCommand c with
    | true => rfl
    | false => rw [(opcodeOf_eq_none_iff c).2 hb] at this; cases this
  · intro h
    by_contra hn
    have := (opcodeOf_eq_none_iff c).1 (OPERATION_skipped beyond c hn)
    rw [h] at this
    cases this

/-- Every store of `load` goes to an index below the capacity, the capacity is
15 doubled some number of times, and the indices are consecutive. -/
theorem storeLog_spec (beyond : Nat → Nat) (src : List Nat) :
    ∀ (real_size prog_size : Nat), real_size + 1 ≤ prog_size →
      (∃ k, prog_size = BUFFER_START_SIZE * BUFFER_FACTOR ^ k) →
      (∀ e, e ∈ storeLog beyond src real_size prog_size →
        e.1 + 1 ≤ e.2 ∧ ∃ k, e.2 = BUFFER_START_SIZE * BUFFER_FACTOR ^ k) ∧
      (storeLog beyond src real_size prog_size).map Prod.fst
        = List.range' real_size ((src.filter isCommand).length + 1) := by
  induction src with
  | nil =>
    intro rs ps h1 h2
    simp only [storeLog, List.mem_singleton, List.filter_nil, List.length_nil, Nat.zero_add]
    exact ⟨fun e he => by subst he; exact ⟨h1, h2⟩, rfl⟩
  | cons c rest ih =>
    intro rs ps h1 h2
    obtain ⟨k, hk⟩ := h2
    have hps : rs + 1 ≤ (if rs ≥ ps - 1 then ps * BUFFER_FACTOR else ps) ∧
        ∃ k1, (if rs ≥ ps - 1 then ps * BUFFER_FACTOR else ps)
          = BUFFER_START_SIZE * BUFFER_FACTOR ^ k1 := by
      split_ifs with hg
      · exact ⟨by simp only [BUFFER_FACTOR]; omega, k + 1, by rw [hk, pow_succ, mul_assoc]⟩
      · exact ⟨h1, k, hk⟩
    have hps2 : rs + 1 + 1 ≤ (if rs ≥ ps - 1 then ps * BUFFER_FACTOR else ps) := by
      split_ifs with hg
      · simp only [BUFFER_FACTOR]; omega
      · omega
    simp only [storeLog]
    by_cases hc : OPERATION beyond c ≠ OP_EXIT ∧ c < WORD_SIZE
    · have hcmd := (isCommand_iff_stored beyond c).1 hc
      rw [if_pos hc]
      obtain ⟨a1, a2⟩ := ih (rs + 1) _ hps2 hps.2
      constructor
      · intro e he
        rcases List.mem_cons.1 he with rfl | he
        · exact ⟨hps.1, hps.2⟩
        · exact a1 e he
      · rw [List.map_cons, a2, List.filter_cons, if_pos hcmd, List.length_cons]
        rfl
    · have hcmd : isCommand c = false := by
        cases hb : isCommand c with
        | false => rfl
        | true => exact absurd ((isCommand_iff_stored beyond c).2 hb) hc
      rw [if_neg hc]
      obtain ⟨a1, a2⟩ := ih rs _ hps.1 hps.2
      refine ⟨a1, ?_⟩
      rw [a2, List.filter_cons]
      simp [hcmd]

/-- The log ends with the sizes the reading loop of `load` ends with. -/
theorem storeLog_last (beyond : Nat → Nat) (src : List Nat) :
    ∀ (st st1 : LoadState), loadLoop beyond src st = some st1 →
      (storeLog beyond src st.real_size st.prog_size).getLast?
        = some (st1.real_size, st1.prog_size) := by
  induction src with
  | nil => intro st st1 h; simp [loadLoop] at h; subst h; simp [storeLog]
  | cons c rest ih =>
    intro st st1 h
    simp only [loadLoop] at h
    simp only [storeLog]
    by_cases hc : OPERATION beyond c ≠ OP_EXIT ∧ c < WORD_SIZE
    · rw [if_pos hc] at h ⊢
      by_cases hg : st.real_size ≥ st.prog_size - 1
      · rw [if_pos hg] at h ⊢
        cases hp : poke st.program (st.prog_size * BUFFER_FACTOR) st.real_size
          (OPERATION beyond c) with
        | none => simp [hp] at h
        | some p =>
          simp only [hp] at h
          have := ih _ _ h
          simp only [] at this
          rw [List.getLast?_cons, this]; rfl
      · rw [if_neg hg] at h ⊢
        cases hp : poke st.program st.prog_size st.real_size (OPERATION beyond c) with
        | none => simp [hp] at h
        | some p =>
          simp only [hp] at h
          have := ih _ _ h
          simp only [] at this
          rw [List.getLast?_cons, this]; rfl
    · rw [if_neg hc] at h ⊢
      by_cases hg : st.real_size ≥ st.prog_size - 1
      · rw [if_pos hg] at h ⊢
        exact ih _ _ h
      · rw [if_neg hg] at h ⊢
        exact ih _ _ h

/-- Claim C18.  For every source, at each store that `load` makes into the
opcode buffer, the store of `OP_EXIT` included, the index `real_size` is at
most `prog_size - 1`, where `prog_size` is 15 doubled some number of times;
the indices stored to are 0, 1, 2, ... in order, one for each command
character and one for `OP_EXIT`; the last logged pair is the one the reading
loop ends with; and `load` returns a buffer with exactly that many cells. -/
theorem load_never_overruns_its_buffer (beyond : Nat → Nat) (src : List Nat) :
    (∀ e, e ∈ storeLog beyond src 0 BUFFER_START_SIZE →
      e.1 ≤ e.2 - 1 ∧ e.1 < e.2 ∧ ∃ k, e.2 = 15 * 2 ^ k) ∧
    (storeLog beyond src 0 BUFFER_START_SIZE).map Prod.fst
      = List.range ((src.filter isCommand).length + 1) ∧
    (∃ st, loadLoop beyond src ⟨0, BUFFER_START_SIZE, []⟩ = some st ∧
      (storeLog beyond src 0 BUFFER_START_SIZE).getLast?
        = some (st.real_size, st.prog_size)) ∧
    ∃ prog, load beyond src = some prog ∧
      prog.length = (src.filter isCommand).length + 1 := by
  obtain ⟨a1, a2⟩ := storeLog_spec beyond src 0 BUFFER_START_SIZE (by simp) ⟨0, by simp⟩
  obtain ⟨st, c1, _⟩ := loadLoop_spec beyond src ⟨0, BUFFER_START_SIZE, []⟩ rfl (by simp)
  refine ⟨?_, ?_, ⟨st, c1, storeLog_last beyond src _ _ c1⟩, compileSpec src,
    load_eq_compileSpec beyond src, compileSpec_length src⟩
  · intro e he
    obtain ⟨b1, k, b2⟩ := a1 e he
    exact ⟨by omega, by omega, k, by simpa using b2⟩
  · rw [a2, List.range_eq_range']

/-! ## Fetches stay inside the stream -/

/-- In a buffer closed by its only `OP_EXIT` the bracket search stays inside
the buffer: it stops at an `OP_LOOP_START` or `OP_LOOP_END` before `OP_EXIT`,
or at `OP_EXIT`. -/
theorem scan_inside {program : List Nat}
    (hx : ∀ i, program[i]? = some OP_EXIT ↔ i + 1 = program.length) :
    ∀ (rest : List Nat) (op : Nat) (level : Int),
      program.drop (op + 1) = rest → op + 2 ≤ program.length →
      (∃ j, scan rest op level = Scan.found j ∧ op < j ∧ j + 1 < program.length) ∨
      scan rest op level = Scan.noMatch (program.length - 1) := by
  intro rest
  induction rest with
  | nil =>
    intro op level hd hlen
    have := congrArg List.length hd
    simp at this
    omega
  | cons c rest ih =>
    intro op level hd hlen
    have hc : program[op + 1]? = some c := by
      have := congrArg (fun l => l[0]?) hd
      simpa [List.getElem?_drop] using this
    have hd' : program.drop (op + 1 + 1) = rest := by
      have := congrArg List.tail hd
      simpa [List.tail_drop] using this
    have hnext : c ≠ OP_EXIT → op + 1 + 2 ≤ program.length := by
      intro hne
      by_contra hcon
      have : op + 1 + 1 = program.length := by omega
      exact hne (by
        have := (hx (op + 1)).2 this
        rw [hc] at this
        exact Option.some.inj this)
    have hrec : ∀ lv : Int, c ≠ OP_EXIT →
        (∃ j, scan rest (op + 1) lv = Scan.found j ∧ op < j ∧ j + 1 < program.length) ∨
        scan rest (op + 1) lv = Scan.noMatch (program.length - 1) := by
      intro lv hne
      rcases ih (op + 1) lv hd' (hnext hne) with ⟨j, a1, a2, a3⟩ | h
      · exact Or.inl ⟨j, a1, by omega, a3⟩
      · exact Or.inr h
    have hhere : c ≠ OP_EXIT → ∃ j, Scan.found (op + 1) = Scan.found j ∧ op < j ∧
        j + 1 < program.length := by
      intro hne
      exact ⟨op + 1, rfl, by omega, by have := hnext hne; omega⟩
    rw [scan]
    by_cases h7 : c = OP_LOOP_START
    · have hne : c ≠ OP_EXIT := by rw [h7]; decide
      rw [if_pos h7]
      split_ifs
      · exact hrec _ hne
      · exact Or.inl (hhere hne)
    · rw [if_neg h7]
      by_cases h8 : c = OP_LOOP_END
      · have hne : c ≠ OP_EXIT := by rw [h8]; decide
        rw [if_pos h8]
        split_ifs
        · exact hrec _ hne
        · exact Or.inl (hhere hne)
      · rw [if_neg h8]
        by_cases h0 : c = OP_EXIT
        · rw [if_pos h0]
          right
          have := (hx (op + 1)).1 (by rw [hc, h0])
          rw [show program.length - 1 = op + 1 by omega]
        · rw [if_neg h0]
          exact hrec _ h0

/-- A round from a safe state of a compiled program does not read outside the
buffer, and when the run goes on the next state is safe. -/
theorem step_safe {program : List Nat} (v : Bool)
    (hx : ∀ i, program[i]? = some OP_EXIT ↔ i + 1 = program.length)
    {m : Machine} (hs : Safe program m) :
    (∀ mf, step v program m ≠ Outcome.failed Fault.outOfBounds mf) ∧
    (∀ m1, step v program m = Outcome.running m1 → Safe program m1) := by
  obtain ⟨h1, h2, h3⟩ := hs
  obtain ⟨c, hc⟩ : ∃ c, program[m.op]? = some c :=
    ⟨program[m.op], List.getElem?_eq_getElem (by omega)⟩
  by_cases h0 : c = OP_EXIT
  · simp [step, hc, h0]
  have hlt : m.op + 2 ≤ program.length := by
    by_contra hcon
    have := (hx m.op).2 (by omega)
    rw [hc] at this
    exact h0 (Option.some.inj this)
  by_cases h7 : c = OP_LOOP_START
  · rw [h7] at hc
    by_cases hv : m.store.value = 0
    · rcases scan_inside hx _ m.op 1 rfl hlt with ⟨j, a1, a2, a3⟩ | hn
      · rw [step_loop_start_skip hc hv a1]
        refine ⟨(fun mf h => nomatch h), fun m1 h => ?_⟩
        cases h
        exact ⟨by simp only []; omega, h2, fun x hx' => ⟨by
          have := (h3 x hx').1
          simp only []; omega, (h3 x hx').2⟩⟩
      · have : step v program m
            = Outcome.failed Fault.badBrackets { m with op := program.length - 1 } := by
          simp [step, body, hc, hv, hn]
        rw [this]
        exact ⟨(fun mf h => nomatch h), (fun m1 h => nomatch h)⟩
    · rw [step_loop_start_enter hc hv]
      refine ⟨(fun mf h => nomatch h), fun m1 h => ?_⟩
      cases h
      refine ⟨hlt, ?_, ?_⟩
      · simp only [push, List.pairwise_cons]
        exact ⟨fun x hx' => (h3 x hx').1, h2⟩
      · intro x hx'
        simp only [push, List.mem_cons] at hx'
        rcases hx' with rfl | hx'
        · exact ⟨by simp only []; omega, hc⟩
        · exact ⟨by have := (h3 x hx').1; simp only []; omega, (h3 x hx').2⟩
  by_cases h8 : c = OP_LOOP_END
  · rw [h8] at hc
    cases hb : m.bracket with
    | nil =>
      have : step v program m = Outcome.failed Fault.nullDeref m := by
        by_cases hv : m.store.value = 0 <;> simp [step, body, hc, hb, hv, peek, pop]
      rw [this]
      exact ⟨(fun mf h => nomatch h), (fun m1 h => nomatch h)⟩
    | cons x rest =>
      rw [hb] at h2 h3
      have hxlt := (h3 x (List.mem_cons_self _ _)).1
      by_cases hv : m.store.value = 0
      · rw [step_loop_end_leave hc hv hb]
        refine ⟨(fun mf h => nomatch h), fun m1 h => ?_⟩
        cases h
        refine ⟨hlt, (List.pairwise_cons.1 h2).2, fun y hy => ?_⟩
        have := h3 y (List.mem_cons_of_mem _ hy)
        exact ⟨by simp only []; omega, this.2⟩
      · by_cases hmax : x = SIZE_MAX
        · have : step v program m = Outcome.failed Fault.badBrackets m := by
            simp only [SIZE_MAX] at hmax
            simp [step, body, hc, hb, hv, peek, hmax]
          rw [this]
          exact ⟨(fun mf h => nomatch h), (fun m1 h => nomatch h)⟩
        · rw [step_loop_end_back hc hv hb hmax]
          refine ⟨(fun mf h => nomatch h), fun m1 h => ?_⟩
          cases h
          refine ⟨by simp only []; omega, by rw [hb]; exact h2, fun y hy => ?_⟩
          simp only [] at hy ⊢
          rw [hb] at hy
          refine ⟨?_, (h3 y hy).2⟩
          rcases List.mem_cons.1 hy with rfl | hy'
          · omega
          · have := (List.pairwise_cons.1 h2).1 y hy'
            omega
  · obtain ⟨m1, e1, e2, e3⟩ := step_other (v := v) hc h0 h7 h8
    rw [e1]
    refine ⟨(fun mf h => nomatch h), fun m2 h => ?_⟩
    cases h
    refine ⟨by rw [e2]; exact hlt, by rw [e3]; exact h2, fun y hy => ?_⟩
    rw [e3] at hy
    exact ⟨by rw [e2]; have := (h3 y hy).1; omega, (h3 y hy).2⟩

theorem runs_safe {program : List Nat} (v : Bool)
    (hx : ∀ i, program[i]? = some OP_EXIT ↔ i + 1 = program.length) (k : Nat) :
    ∀ m m1, Safe program m → runs v program k m = some m1 → Safe program m1 := by
  induction k with
  | zero => intro m m1 hs h; simp [runs] at h; subst h; exact hs
  | succ k ih =>
    intro m m1 hs h
    cases hst : step v program m with
    | running m2 =>
      rw [runs_succ hst] at h
      exact ih m2 m1 ((step_safe v hx hs).2 m2 hst) h
    | halted m2 => simp [runs, hst] at h
    | failed f m2 => simp [runs, hst] at h

theorem evalLoop_safe {program : List Nat} (v : Bool)
    (hx : ∀ i, program[i]? = some OP_EXIT ↔ i + 1 = program.length) (fuel : Nat) :
    ∀ m mf, Safe program m → evalLoop v program fuel m ≠ Outcome.failed Fault.outOfBounds mf := by
  induction fuel with
  | zero =>
    intro m mf hs h
    have h1 := hs.1
    obtain ⟨c, hc⟩ : ∃ c, program[m.op]? = some c :=
      ⟨program[m.op], List.getElem?_eq_getElem (by omega)⟩
    simp only [evalLoop, hc] at h
    split_ifs at h
  | succ fuel ih =>
    intro m mf hs h
    cases hst : step v program m with
    | running m2 =>
      rw [evalLoop_succ hst] at h
      exact ih m2 mf ((step_safe v hx hs).2 m2 hst) h
    | halted m2 => simp [evalLoop, hst] at h
    | failed f m2 =>
      simp only [evalLoop, hst] at h
      cases h
      exact (step_safe v hx hs).1 _ hst

/-- Claim C19.  For every source, balanced or not, every input and verbosity:
in every state the run of the compiled stream reaches, `op` is at most the
index of the closing `OP_EXIT`, so the fetch `program[op]` is inside the
stream; every index on the bracket stack is below `op` and is the index of an
`OP_LOOP_START`; a bracket search started there never reads past the stream;
and no run ever stops by a read outside the stream. -/
theorem every_fetch_is_inside_the_stream (beyond : Nat → Nat) (src : List Nat)
    (verbose : Bool) (input : List Nat) :
    ∃ prog, load beyond src = some prog ∧ prog[prog.length - 1]? = some OP_EXIT ∧
      (∀ k m, runs verbose prog k (initial input) = some m →
        m.op ≤ prog.length - 1 ∧ (∃ c, prog[m.op]? = some c) ∧
        (∀ j, j ∈ m.bracket → j < m.op ∧ prog[j]? = some OP_LOOP_START) ∧
        (prog[m.op]? = some OP_LOOP_START → ∀ (level : Int) (j : Nat),
          scan (prog.drop (m.op + 1)) m.op level ≠ Scan.outside j)) ∧
      (∀ fuel mf, eval verbose prog input fuel ≠ Outcome.failed Fault.outOfBounds mf) := by
  have hx := compileSpec_exit_iff src
  have h0 : Safe (compileSpec src) (initial input) :=
    ⟨by simp [initial, compileSpec], by simp [initial], by simp [initial]⟩
  refine ⟨compileSpec src, load_eq_compileSpec beyond src, ?_, ?_, ?_⟩
  · exact (hx _).2 (by simp [compileSpec])
  · intro k m hr
    obtain ⟨h1, _, h3⟩ := runs_safe verbose hx k _ _ h0 hr
    refine ⟨by omega, ⟨(compileSpec src)[m.op], List.getElem?_eq_getElem (by omega)⟩, h3, ?_⟩
    intro h7 level j hs
    have hlt : m.op + 2 ≤ (compileSpec src).length := by
      by_contra hcon
      have := (hx m.op).2 (by omega)
      rw [h7] at this
      simp at this
    rcases scan_inside hx _ m.op level rfl hlt with ⟨j1, a1, _⟩ | hn
    · rw [a1] at hs; cases hs
    · rw [hn] at hs; cases hs
  · intro fuel mf
    exact evalLoop_safe verbose hx fuel _ mf h0

/-! ## Runs without input -/

/-- A round that is not an `OP_INPUT` round does the same to the tape, the
bracket stack and `op` whatever the input and the verbosity are. -/
theorem step_same (v1 v2 : Bool) (p : List Nat) (m1 m2 : Machine)
    (hin : p[m1.op]? ≠ some OP_INPUT) (h : core m1 = core m2) :
    SameRun (step v1 p m1) (step v2 p m2) := by
  obtain ⟨s1, b1, o1, i1, out1⟩ := m1
  obtain ⟨s2, b2, o2, i2, out2⟩ := m2
  simp only [core, Prod.mk.injEq] at h
  obtain ⟨rfl, rfl, rfl⟩ := h
  simp only [step]
  cases hc : p[o1]? with
  | none => simp [SameRun, core]
  | some c =>
    have h6 : c ≠ OP_INPUT := by
      intro h6
      apply hin
      simp only [hc, h6]
    by_cases h1 : c = OP_INCR_PTR
    · subst h1; simp [body, SameRun, core]
    by_cases h2 : c = OP_DECR_PTR
    · subst h2; simp [body, SameRun, core]
    by_cases h3 : c = OP_INCR_DATA
    · subst h3; simp [body, SameRun, core]
    by_cases h4 : c = OP_DECR_DATA
    · subst h4; simp [body, SameRun, core]
    by_cases h5 : c = OP_OUTPUT
    · subst h5; simp [body, SameRun, core]
    by_cases h7 : c = OP_LOOP_START
    · subst h7
      by_cases hv : s1.value = 0
      · cases hs : scan (List.drop (o1 + 1) p) o1 1 <;>
          simp [body, SameRun, core, hv, hs]
      · simp [body, SameRun, core, hv, push]
    by_cases h8 : c = OP_LOOP_END
    · subst h8
      by_cases hv : s1.value = 0
      · cases hb : b1 <;> simp [body, SameRun, core, hv, hb, pop]
      · cases hb : b1 with
        | nil => simp [body, SameRun, core, hv, hb, peek]
        | cons x rest =>
          by_cases hx : x = 18446744073709551615 <;>
            simp [body, SameRun, core, hv, hb, peek, hx]
    · by_cases h0 : c = OP_EXIT
      · subst h0; simp [SameRun, core]
      · simp only [if_neg h0, body, if_neg h1, if_neg h2, if_neg h3, if_neg h4, if_neg h5,
          if_neg h6, if_neg h7, if_neg h8, SameRun, core]

theorem evalLoop_same (v1 v2 : Bool) (p : List Nat) (hp : OP_INPUT ∉ p) (fuel : Nat) :
    ∀ m1 m2, core m1 = core m2 →
      SameRun (evalLoop v1 p fuel m1) (evalLoop v2 p fuel m2) := by
  have hin : ∀ m : Machine, p[m.op]? ≠ some OP_INPUT :=
    fun m h => hp (List.getElem?_mem h)
  induction fuel with
  | zero =>
    intro m1 m2 h
    have hop : m1.op = m2.op := by
      simp only [core, Prod.mk.injEq] at h; exact h.2.2
    simp only [evalLoop, hop]
    cases hc : p[m2.op]? with
    | none => exact ⟨rfl, h⟩
    | some c => simp only []; split_ifs <;> exact h
  | succ fuel ih =>
    intro m1 m2 h
    have hs := step_same v1 v2 p m1 m2 (hin m1) h
    simp only [evalLoop]
    cases h1 : step v1 p m1 <;> cases h2 : step v2 p m2 <;>
      simp only [h1, h2, SameRun] at hs ⊢
    · exact ih _ _ hs
    · exact hs
    · exact hs

theorem executed_same (v1 v2 : Bool) (p : List Nat) (hp : OP_INPUT ∉ p) (fuel : Nat) :
    ∀ m1 m2, core m1 = core m2 → executed v1 p fuel m1 = executed v2 p fuel m2 := by
  have hin : ∀ m : Machine, p[m.op]? ≠ some OP_INPUT :=
    fun m h => hp (List.getElem?_mem h)
  induction fuel with
  | zero => intro m1 m2 _; rfl
  | succ fuel ih =>
    intro m1 m2 h
    have hop : m1.op = m2.op := by
      simp only [core, Prod.mk.injEq] at h; exact h.2.2
    have hs := step_same v1 v2 p m1 m2 (hin m1) h
    simp only [executed]
    cases h1 : step v1 p m1 <;> cases h2 : step v2 p m2 <;>
      simp only [h1, h2, SameRun] at hs ⊢
    · rw [hop, ih _ _ hs]
    · rw [hop]

theorem opcodeOf_input {c : Nat} (h : opcodeOf c = some OP_INPUT) : c = 44 := by
  unfold opcodeOf at h
  split_ifs at h <;> simp_all

/-- Claim C13.  Let `src` contain no `,` and no `.`, and let `prog` be its
compiled stream.  Any two runs of `prog` from the fresh state, each with its
own input and its own verbosity, are after every number of rounds in the same
kind of outcome (running, halted, or failed with the same fault), with the
same tape and cursor, the same bracket stack and the same `op`, and have run
their rounds at the same indices; in particular when one has halted so has
the other, with the same tape and cursor. -/
theorem runs_without_io_are_deterministic (beyond : Nat → Nat) (src prog : List Nat)
    (hcomma : 44 ∉ src) (hdot : 46 ∉ src) (hload : load beyond src = some prog)
    (v1 v2 : Bool) (in1 in2 : List Nat) (fuel : Nat) :
    SameRun (eval v1 prog in1 fuel) (eval v2 prog in2 fuel) ∧
    executed v1 prog fuel (initial in1) = executed v2 prog fuel (initial in2) ∧
    (∀ m1, eval v1 prog in1 fuel = Outcome.halted m1 →
      ∃ m2, eval v2 prog in2 fuel = Outcome.halted m2 ∧ m2.store = m1.store ∧
        m2.bracket = m1.bracket ∧ m2.op = m1.op) := by
  have _ := hdot
  rw [load_eq_compileSpec] at hload
  cases hload
  have hp : OP_INPUT ∉ compileSpec src := by
    intro h
    simp only [compileSpec, List.mem_append, List.mem_singleton] at h
    rcases h with h | h
    · obtain ⟨c, hc, ho⟩ := List.mem_filterMap.1 h
      rw [opcodeOf_input ho] at hc
      exact hcomma hc
    · cases h
  have hs := evalLoop_same v1 v2 (compileSpec src) hp fuel (initial in1) (initial in2) rfl
  refine ⟨hs, executed_same v1 v2 _ hp fuel _ _ rfl, ?_⟩
  intro m1 h1
  rw [eval] at h1
  rw [h1] at hs
  cases h2 : evalLoop v2 (compileSpec src) fuel (initial in2) with
  | running m2 => rw [h2] at hs; exact absurd hs (by simp [SameRun])
  | failed f m2 => rw [h2] at hs; exact absurd hs (by simp [SameRun])
  | halted m2 =>
    rw [h2] at hs
    simp only [SameRun, core, Prod.mk.injEq] at hs
    exact ⟨m2, h2, hs.1.symm, hs.2.1.symm, hs.2.2.symm⟩

/-- Claim C13 at the source `++[>++[>++<-]<-]`, run once quietly without input
and once verbosely with the input 1, 2, 3, for 41 rounds. -/
theorem runs_without_io_are_deterministic_witness :
    SameRun (eval false [3, 3, 7, 1, 3, 3, 7, 1, 3, 3, 2, 4, 8, 2, 4, 8, 0] [] 41)
      (eval true [3, 3, 7, 1, 3, 3, 7, 1, 3, 3, 2, 4, 8, 2, 4, 8, 0] [1, 2, 3] 41) ∧
    executed false [3, 3, 7, 1, 3, 3, 7, 1, 3, 3, 2, 4, 8, 2, 4, 8, 0] 41 (initial [])
      = executed true [3, 3, 7, 1, 3, 3, 7, 1, 3, 3, 2, 4, 8, 2, 4, 8, 0] 41
          (initial [1, 2, 3]) ∧
    (∀ m1, eval false [3, 3, 7, 1, 3, 3, 7, 1, 3, 3, 2, 4, 8, 2, 4, 8, 0] [] 41
        = Outcome.halted m1 →
      ∃ m2, eval true [3, 3, 7, 1, 3, 3, 7, 1, 3, 3, 2, 4, 8, 2, 4, 8, 0] [1, 2, 3] 41
          = Outcome.halted m2 ∧ m2.store = m1.store ∧
        m2.bracket = m1.bracket ∧ m2.op = m1.op) :=
  runs_without_io_are_deterministic (fun _ => 0) (bytes "++[>++[>++<-]<-]")
    [3, 3, 7, 1, 3, 3, 7, 1, 3, 3, 2, 4, 8, 2, 4, 8, 0] (by decide) (by decide) (by decide)
    false true [] [1, 2, 3] 41

/-! ## Static bracket matching -/

theorem encloses_succ {program : List Nat} {j p : Nat} :
    Encloses program j (p + 1) ↔
      (j = p ∧ program[p]? = some OP_LOOP_START) ∨
      (Encloses program j p ∧ depthAt program j < depthAt program (p + 1)) := by
  constructor
  · rintro ⟨h1, h2, h3⟩
    by_cases hj : j = p
    · left; exact ⟨hj, by rw [← hj]; exact h2⟩
    · right
      exact ⟨⟨by omega, h2, fun q a b => h3 q a (by omega)⟩, h3 (p + 1) (by omega) (by omega)⟩
  · rintro (⟨rfl, h2⟩ | ⟨⟨h1, h2, h3⟩, h4⟩)
    · refine ⟨by omega, h2, fun q a b => ?_⟩
      have : q = j + 1 := by omega
      subst this
      rw [depthAt_succ_of h2, if_pos rfl]
      omega
    · refine ⟨by omega, h2, fun q a b => ?_⟩
      by_cases hq : q = p + 1
      · subst hq; exact h4
      · exact h3 q a (by omega)

/-- The loops open at `p` are the `OP_LOOP_START` opcodes not closed before
`p`, the inner ones first. -/
theorem openAt_mem_iff {program : List Nat} (p : Nat) :
    ∀ st, openAt program p = some st →
      st.Pairwise (fun a b => b < a) ∧ ∀ j, j ∈ st ↔ Encloses program j p := by
  induction p with
  | zero =>
    intro st h
    simp [openAt] at h
    subst h
    refine ⟨List.Pairwise.nil, fun j => ?_⟩
    simp only [List.not_mem_nil, false_iff]
    rintro ⟨h1, _⟩
    omega
  | succ q ih =>
    intro st h
    obtain ⟨st0, c, h0, hc⟩ := openAt_pred_isSome h
    obtain ⟨hp0, hm0⟩ := ih st0 h0
    have hlen0 := openAt_length_eq_depth q st0 h0
    have hd := depthAt_succ_of hc
    rw [openAt_succ_of h0 hc] at h
    -- an open loop keeps the depth in front of `q` above its own level
    have hopen : ∀ j, Encloses program j q → depthAt program j < depthAt program q :=
      fun j hj => hj.2.2 q hj.1 (Nat.le_refl _)
    by_cases h7 : c = OP_LOOP_START
    · rw [if_pos h7] at h hd
      cases h
      constructor
      · rw [List.pairwise_cons]
        exact ⟨fun x hx => ((hm0 x).1 hx).1, hp0⟩
      · intro j
        rw [List.mem_cons, encloses_succ, hm0 j]
        constructor
        · rintro (rfl | hj)
          · left; exact ⟨rfl, by rw [hc, h7]⟩
          · right; exact ⟨hj, by have := hopen j hj; omega⟩
        · rintro (⟨rfl, _⟩ | ⟨hj, _⟩)
          · left; rfl
          · right; exact hj
    · rw [if_neg h7] at h hd
      by_cases h8 : c = OP_LOOP_END
      · rw [if_pos h8] at h hd
        cases st0 with
        | nil => simp [pop] at h
        | cons x st1 =>
          simp only [pop, Option.some.injEq] at h
          subst h
          obtain ⟨hx1, _, hx3⟩ := openAt_top q x st1 h0
          have hlenx := openAt_length_eq_depth x st1 hx3
          simp only [List.length_cons] at hlen0
          push_cast at hlen0
          rw [List.pairwise_cons] at hp0
          refine ⟨hp0.2, fun j => ?_⟩
          rw [encloses_succ]
          constructor
          · intro hj
            right
            have hjx : j < x := hp0.1 j hj
            have hjq := (hm0 j).1 (List.mem_cons_of_mem _ hj)
            have := hjq.2.2 x hjx (by omega)
            exact ⟨hjq, by omega⟩
          · rintro (⟨rfl, h2⟩ | ⟨hj, hdep⟩)
            · rw [hc, h8] at h2; cases h2
            · rcases List.mem_cons.1 ((hm0 j).2 hj) with rfl | hj'
              · omega
              · exact hj'
      · rw [if_neg h8] at h hd
        cases h
        refine ⟨hp0, fun j => ?_⟩
        rw [encloses_succ, hm0 j]
        constructor
        · intro hj
          right; exact ⟨hj, by have := hopen j hj; omega⟩
        · rintro (⟨rfl, h2⟩ | ⟨hj, _⟩)
          · rw [hc] at h2; exact absurd (Option.some.inj h2) h7
          · exact hj

theorem matchingEnd_unique {program : List Nat} {j e1 e2 : Nat}
    (h1 : MatchingEnd program j e1) (h2 : MatchingEnd program j e2) : e1 = e2 := by
  obtain ⟨a1, _, _, a4, a5⟩ := h1
  obtain ⟨b1, _, _, b4, b5⟩ := h2
  by_contra hne
  rcases Nat.lt_or_gt_of_ne hne with h | h
  · have := b5 (e1 + 1) (by omega) (by omega); omega
  · have := a5 (e2 + 1) (by omega) (by omega); omega

/-- Where the bracket search of a balanced program stops, the depth is for
the first time back below the loops it started in. -/
theorem scan_found_first {program : List Nat}
    (hx : ∀ i, program[i]? = some OP_EXIT ↔ i + 1 = program.length)
    (hb : openAt program (program.length - 1) = some [])
    (hdeep : ∀ p st, openAt program p = some st → st.length ≤ 2147483647) :
    ∀ (rest : List Nat) (op level : Nat) (ext base : List Nat) (j : Nat),
      program.drop (op + 1) = rest → openAt program (op + 1) = some (ext ++ base) →
      ext.length = level → 1 ≤ level → op + 2 ≤ program.length →
      scan rest op (level : Int) = Scan.found j →
      ∀ q, op < q → q ≤ j → (base.length : Int) < depthAt program q := by
  intro rest
  induction rest with
  | nil =>
    intro op level ext base j hd _ _ _ hlen
    have := congrArg List.length hd
    simp at this
    omega
  | cons c rest ih =>
    intro op level ext base j hd ho hl h1 hlen hs q hq1 hq2
    have hc : program[op + 1]? = some c := by
      have := congrArg (fun l => l[0]?) hd
      simpa [List.getElem?_drop] using this
    have hd' : program.drop (op + 1 + 1) = rest := by
      have := congrArg List.tail hd
      simpa [List.tail_drop] using this
    have hne : c ≠ OP_EXIT := by
      intro h0
      have hn := (hx (op + 1)).1 (by rw [hc, h0])
      rw [show program.length - 1 = op + 1 by omega, ho] at hb
      cases ext with
      | nil => simp at hl; omega
      | cons e ext1 => simp at hb
    have hlen' : op + 1 + 2 ≤ program.length := by
      by_contra hcon
      have : op + 1 + 1 = program.length := by omega
      exact hne (by
        have := (hx (op + 1)).2 this
        rw [hc] at this
        exact Option.some.inj this)
    have hlv : level ≤ 2147483647 := by
      have := hdeep (op + 1) _ ho
      simp only [List.length_append] at this
      omega
    have hhere : (base.length : Int) < depthAt program (op + 1) := by
      have := openAt_length_eq_depth (op + 1) _ ho
      simp only [List.length_append] at this
      push_cast at this
      clear hlv
      omega
    have hw8 := wrapInt_level_pred h1 hlv
    have hp7 : ((level + 1 : Nat) : Int) > 0 := Int.natCast_pos.2 (Nat.succ_pos level)
    have hp8 : ((level - 1 : Nat) : Int) > 0 ↔ level - 1 > 0 := Int.natCast_pos
    by_cases hq : q = op + 1
    · rw [hq]; exact hhere
    have hq1' : op + 1 < q := Nat.lt_of_le_of_ne hq1 (Ne.symm hq)
    have hso := openAt_succ_of ho hc
    rw [scan] at hs
    by_cases h7 : c = OP_LOOP_START
    · rw [if_pos h7] at hs hso
      have hlv1 : level < 2147483647 := by
        have := hdeep (op + 1 + 1) _ hso
        simp only [List.length_cons, List.length_append] at this
        clear hw8 hp7 hp8 hhere
        omega
      rw [wrapInt_level_succ hlv1, if_pos hp7] at hs
      exact ih (op + 1) (level + 1) ((op + 1) :: ext) base j hd' (by simpa using hso)
        (by simp [hl]) (Nat.succ_le_succ (Nat.zero_le _)) hlen' hs q hq1' hq2
    · rw [if_neg h7] at hs hso
      by_cases h8 : c = OP_LOOP_END
      · rw [if_pos h8] at hs hso
        rw [hw8] at hs
        cases ext with
        | nil => simp at hl; exact absurd hl.symm (Nat.ne_of_gt h1)
        | cons e ext1 =>
          simp only [List.cons_append, pop] at hso
          simp only [List.length_cons] at hl
          by_cases hlev : level - 1 > 0
          · rw [if_pos (hp8.2 hlev)] at hs
            exact ih (op + 1) (level - 1) ext1 base j hd' hso
              (by rw [← hl]; rfl) hlev hlen' hs q hq1' hq2
          · rw [if_neg (fun h => hlev (hp8.1 h))] at hs
            cases hs
            exact absurd hq2 (Nat.not_le_of_gt hq1')
      · rw [if_neg h8, if_neg hne] at hs
        rw [if_neg h8] at hso
        exact ih (op + 1) level ext base j hd' hso hl h1 hlen' hs q hq1' hq2

/-- In a balanced program the bracket search from an `OP_LOOP_START` stops at
the `OP_LOOP_END` that statically matches it. -/
theorem scan_found_matching {program : List Nat}
    (hx : ∀ i, program[i]? = some OP_EXIT ↔ i + 1 = program.length)
    (hb : openAt program (program.length - 1) = some [])
    (hdeep : ∀ p st, openAt program p = some st → st.length ≤ 2147483647)
    {P : Nat} (h7 : program[P]? = some OP_LOOP_START) :
    ∃ e, scan (program.drop (P + 1)) P 1 = Scan.found e ∧ MatchingEnd program P e := by
  have hP : P < program.length := (List.getElem?_eq_some.1 h7).1
  have hlt : P + 2 ≤ program.length := by
    by_contra hcon
    have := (hx P).2 (by omega)
    rw [h7] at this
    simp at this
  obtain ⟨st, hst⟩ := openAt_isSome_of_le hb P (by omega)
  have hso := openAt_succ_of hst h7
  rw [if_pos rfl] at hso
  obtain ⟨e, a1, a2, a3, a4, a5⟩ := scan_found_of_balanced hx hb hdeep _ P 1 [P] st rfl
    (by simpa using hso) rfl (by omega) hlt
  have a6 := scan_found_first hx hb hdeep _ P 1 [P] st e rfl (by simpa using hso) rfl
    (by omega) hlt a1
  have hd0 := openAt_length_eq_depth P st hst
  have hd1 := openAt_length_eq_depth (e + 1) st a5
  refine ⟨e, by simpa using a1, a2, h7, a4, by omega, fun q h1 h2 => ?_⟩
  have := a6 q h1 h2
  omega

/-! ## The bracket stack of a balanced program -/

theorem runs_inv {program : List Nat} (v : Bool)
    (hx : ∀ i, program[i]? = some OP_EXIT ↔ i + 1 = program.length)
    (hb : openAt program (program.length - 1) = some [])
    (hdeep : ∀ p st, openAt program p = some st → st.length ≤ 2147483647)
    (hsize : program.length ≤ 18446744073709551615) (k : Nat) :
    ∀ m m1, Inv program m → runs v program k m = some m1 → Inv program m1 := by
  induction k with
  | zero => intro m m1 hi h; simp [runs] at h; subst h; exact hi
  | succ k ih =>
    intro m m1 hi h
    rcases step_inv v hx hb hdeep hsize hi with hs | ⟨m2, hs, hi2⟩
    · simp [runs, hs] at h
    · rw [runs_succ hs] at h
      exact ih m2 m1 hi2 h

/-- Claim C15, amended.  Let `prog` be compiled from a source with balanced
brackets, no opcode of it inside more than `INT_MAX` loops (the depth counter
of the bracket search is an `int`), and let `op` be at an `OP_LOOP_START`
with the current cell 0, in any state.  Then that bracket has exactly one
statically matching `OP_LOOP_END`, at an index `e`, and the round sets `op`
to `e + 1` and leaves the tape with its cursor, the bracket stack and the
input as they were; no byte is written by the round, and with verbosity off
the output is untouched (with verbosity on the message of the jump is
printed). -/
theorem zero_cell_loop_start_jumps_behind_its_match (beyond : Nat → Nat)
    (src prog : List Nat) (hbal : balanced src = true) (hload : load beyond src = some prog)
    (hdepth : ∀ q, depthAt prog q ≤ 2147483647) (verbose : Bool) (m : Machine)
    (h7 : prog[m.op]? = some OP_LOOP_START) (hv : m.store.value = 0) :
    ∃ e m1, MatchingEnd prog m.op e ∧ (∀ e1, MatchingEnd prog m.op e1 → e1 = e) ∧
      step verbose prog m = Outcome.running m1 ∧ m1.op = e + 1 ∧
      m1.store = m.store ∧ m1.bracket = m.bracket ∧ m1.input = m.input ∧
      emitted m1.output = emitted m.output ∧ (verbose = false → m1.output = m.output) := by
  rw [load_eq_compileSpec] at hload
  cases hload
  have hx := compileSpec_exit_iff src
  have hb := openAt_compileSpec hbal
  obtain ⟨e, a1, a2⟩ := scan_found_matching hx hb (openAt_length_le_of_depth hdepth) h7
  refine ⟨e, _, a2, fun e1 h1 => matchingEnd_unique h1 a2, step_loop_start_skip h7 hv a1,
    rfl, rfl, rfl, rfl, by simp, ?_⟩
  intro hf
  subst hf
  simp

/-- Claim C15 at the source `[-]` in the fresh state: the round jumps behind
the `]` at index 2. -/
theorem zero_cell_loop_start_jumps_behind_its_match_witness :
    ∃ e m1, MatchingEnd [7, 4, 8, 0] 0 e ∧ (∀ e1, MatchingEnd [7, 4, 8, 0] 0 e1 → e1 = e) ∧
      step false [7, 4, 8, 0] (initial []) = Outcome.running m1 ∧ m1.op = e + 1 ∧
      m1.store = (initial []).store ∧ m1.bracket = (initial []).bracket ∧
      m1.input = (initial []).input ∧
      emitted m1.output = emitted (initial []).output ∧
      (false = false → m1.output = (initial []).output) :=
  zero_cell_loop_start_jumps_behind_its_match (fun _ => 0) (bytes "[-]") [7, 4, 8, 0]
    (by decide) (by decide) (fun q => le_trans (depthAt_le_length _ q) (by decide))
    false (initial []) (by decide) (by decide)

/-- Claim C16, amended.  Let `prog` be compiled from a source with balanced
brackets, no opcode of it inside more than `INT_MAX` loops (the depth counter
of the bracket search is an `int`), the buffer being one that a `size_t` can
index (at most `SIZE_MAX` cells), and let `m` be a state its run reaches.
The bracket stack of `m` holds, the innermost (largest) first, exactly the
indices `j` of the `OP_LOOP_START` opcodes whose pair encloses `op`: `j` is
before `op` and its matching `OP_LOOP_END` is not.  When `op` is at an
`OP_LOOP_END`, the top of the stack is the `OP_LOOP_START` statically
matching it; on a nonzero cell the round leaves the stack as it is and sets
`op` behind that `OP_LOOP_START`, on a zero cell it pops that entry and moves
`op` on by one. -/
theorem bracket_stack_holds_the_enclosing_loops (beyond : Nat → Nat)
    (src prog : List Nat) (hbal : balanced src = true) (hload : load beyond src = some prog)
    (hdepth : ∀ q, depthAt prog q ≤ 2147483647)
    (hsize : prog.length ≤ 18446744073709551615)
    (verbose : Bool) (input : List Nat) (k : Nat)
    (m : Machine) (hr : runs verbose prog k (initial input) = some m) :
    m.bracket.Pairwise (fun a b => b < a) ∧
    (∀ j, j ∈ m.bracket ↔ ∃ e, MatchingEnd prog j e ∧ j < m.op ∧ m.op ≤ e) ∧
    (prog[m.op]? = some OP_LOOP_END →
      ∃ j rest, m.bracket = j :: rest ∧ MatchingEnd prog j m.op ∧
        (m.store.value ≠ 0 →
          step verbose prog m = Outcome.running { m with
            output := m.output ++ logIf verbose (Trace.V_OP_LOOP_JMP j)
            op := j + 1 }) ∧
        (m.store.value = 0 →
          step verbose prog m = Outcome.running { m with
            bracket := rest
            output := m.output ++ logIf verbose Trace.V_OP_LOOP_END
            op := m.op + 1 })) := by
  rw [load_eq_compileSpec] at hload
  cases hload
  have hx := compileSpec_exit_iff src
  have hb := openAt_compileSpec hbal
  have h0 : Inv (compileSpec src) (initial input) :=
    ⟨by simp [initial, compileSpec], rfl⟩
  have hdeep := openAt_length_le_of_depth hdepth
  have hi := runs_inv verbose hx hb hdeep hsize k _ _ h0 hr
  obtain ⟨hpw, hmem⟩ := openAt_mem_iff m.op m.bracket hi.2
  refine ⟨hpw, fun j => ?_, fun h8 => ?_⟩
  · rw [hmem j]
    constructor
    · rintro ⟨e1, e2, e3⟩
      obtain ⟨e, _, hme⟩ := scan_found_matching hx hb hdeep e2
      refine ⟨e, hme, e1, ?_⟩
      by_contra hcon
      have h1 := e3 (e + 1) (Nat.succ_le_succ (Nat.le_of_lt hme.1)) (by omega)
      have h2 := hme.2.2.2.1
      omega
    · rintro ⟨e, hme, h1, h2⟩
      exact ⟨h1, hme.2.1, fun q a b => hme.2.2.2.2 q a (Nat.le_trans b h2)⟩
  · obtain ⟨x, rest, b1, b2, b3, b4, b5, b6⟩ := inv_loop_end_nonempty hx hb hi h8
    have hxe : Encloses (compileSpec src) x m.op :=
      (hmem x).1 (by rw [b1]; exact List.mem_cons_self _ _)
    have d1 := openAt_length_eq_depth x rest b4
    have d2 := openAt_length_eq_depth (m.op + 1) rest b6
    refine ⟨x, rest, b1, ⟨b2, b3, h8, by rw [← d1, ← d2], hxe.2.2⟩, fun hv => ?_, fun hv => ?_⟩
    · exact step_loop_end_back h8 hv b1 (by
        have := hi.1
        simp only [SIZE_MAX]
        omega)
    · exact step_loop_end_leave h8 hv b1

/-- Claim C16 at the source `++[>++[>++<-]<-]` after eight rounds, inside both
loops: the stack holds the indices 6 and 2 of the two `[`. -/
theorem bracket_stack_holds_the_enclosing_loops_witness :
    ([6, 2] : List Nat).Pairwise (fun a b => b < a) ∧
    (∀ j, j ∈ ([6, 2] : List Nat) ↔
      ∃ e, MatchingEnd [3, 3, 7, 1, 3, 3, 7, 1, 3, 3, 2, 4, 8, 2, 4, 8, 0] j e ∧ j < 8 ∧ 8 ≤ e) :=
  ⟨(bracket_stack_holds_the_enclosing_loops (fun _ => 0) (bytes "++[>++[>++<-]<-]")
      [3, 3, 7, 1, 3, 3, 7, 1, 3, 3, 2, 4, 8, 2, 4, 8, 0] (by decide) (by decide)
      (fun q => le_trans (depthAt_le_length _ q) (by decide)) (by decide)
      false [] 8 ⟨⟨[2, 2], 0, []⟩, [6, 2], 8, [], []⟩ (by decide)).1,
   (bracket_stack_holds_the_enclosing_loops (fun _ => 0) (bytes "++[>++[>++<-]<-]")
      [3, 3, 7, 1, 3, 3, 7, 1, 3, 3, 2, 4, 8, 2, 4, 8, 0] (by decide) (by decide)
      (fun q => le_trans (depthAt_le_length _ q) (by decide)) (by decide)
      false [] 8 ⟨⟨[2, 2], 0, []⟩, [6, 2], 8, [], []⟩ (by decide)).2.1⟩

/-! ## The tape as a map from offsets -/

theorem cellAt_zero (t : storage) : cellAt t 0 = t.value := rfl

theorem cellAt_pos (t : storage) (n : Nat) : cellAt t ((n : Int) + 1) = t.next.getD n 0 := rfl

theorem cellAt_neg (t : storage) (n : Nat) : cellAt t (-((n : Int) + 1)) = t.prev.getD n 0 := by
  have : -((n : Int) + 1) = Int.negSucc n := by
    rw [Int.negSucc_eq]
  rw [this]; rfl

/-- Every offset is 0, a positive `n + 1` or a negative `-(n + 1)`. -/
theorem offset_cases (k : Int) :
    k = 0 ∨ (∃ n : Nat, k = (n : Int) + 1) ∨ (∃ n : Nat, k = -((n : Int) + 1)) := by
  rcases Int.lt_trichotomy k 0 with h | h | h
  · right; right; exact ⟨(-k - 1).toNat, by omega⟩
  · left; exact h
  · right; left; exact ⟨(k - 1).toNat, by omega⟩

theorem next_value (t : storage) : (next t).value = t.next.getD 0 0 := by
  unfold next; cases t.next <;> rfl

theorem next_next (t : storage) (n : Nat) : (next t).next.getD n 0 = t.next.getD (n + 1) 0 := by
  unfold next; cases t.next <;> simp

theorem next_prev (t : storage) : (next t).prev = t.value :: t.prev := by
  unfold next; cases t.next <;> rfl

theorem previous_value (t : storage) : (previous t).value = t.prev.getD 0 0 := by
  unfold previous; cases t.prev <;> rfl

theorem previous_prev (t : storage) (n : Nat) :
    (previous t).prev.getD n 0 = t.prev.getD (n + 1) 0 := by
  unfold previous; cases t.prev <;> simp

theorem previous_next (t : storage) : (previous t).next = t.value :: t.next := by
  unfold previous; cases t.prev <;> rfl

/-- Moving right shifts the view by one and changes no value. -/
theorem cellAt_next (t : storage) (k : Int) : cellAt (next t) k = cellAt t (k + 1) := by
  rcases offset_cases k with rfl | ⟨n, rfl⟩ | ⟨n, rfl⟩
  · rw [cellAt_zero, next_value]; exact (cellAt_pos t 0).symm
  · rw [cellAt_pos, next_next]
    exact (cellAt_pos t (n + 1)).symm
  · rw [cellAt_neg, next_prev]
    cases n with
    | zero => simp [cellAt_zero]
    | succ n =>
      have : -(((n + 1 : Nat) : Int) + 1) + 1 = -((n : Int) + 1) := by omega
      rw [this, cellAt_neg]; simp

/-- Moving left shifts the view by one and changes no value. -/
theorem cellAt_previous (t : storage) (k : Int) : cellAt (previous t) k = cellAt t (k - 1) := by
  rcases offset_cases k with rfl | ⟨n, rfl⟩ | ⟨n, rfl⟩
  · rw [cellAt_zero, previous_value]
    have : (0 : Int) - 1 = -(((0 : Nat) : Int) + 1) := by omega
    rw [this, cellAt_neg]
  · rw [cellAt_pos, previous_next]
    cases n with
    | zero => simp [cellAt_zero]
    | succ n =>
      have : ((n + 1 : Nat) : Int) + 1 - 1 = (n : Int) + 1 := by omega
      rw [this, cellAt_pos]; simp
  · rw [cellAt_neg, previous_prev]
    have : -((n : Int) + 1) - 1 = -(((n + 1 : Nat) : Int) + 1) := by omega
    rw [this, cellAt_neg]

theorem cellAt_of_not_materialized (t : storage) (k : Int) (h : ¬ materialized t k) :
    cellAt t k = 0 := by
  unfold materialized at h
  rcases offset_cases k with rfl | ⟨n, rfl⟩ | ⟨n, rfl⟩
  · exact absurd ⟨by omega, by omega⟩ h
  · rw [cellAt_pos]
    have : t.next.length ≤ n := by
      by_contra hc
      exact h ⟨by omega, by omega⟩
    simp [List.getD, List.getElem?_eq_none this]
  · rw [cellAt_neg]
    have : t.prev.length ≤ n := by
      by_contra hc
      exact h ⟨by omega, by omega⟩
    simp [List.getD, List.getElem?_eq_none this]

theorem next_lengths (t : storage) :
    (next t).prev.length = t.prev.length + 1 ∧
    ((next t).next.length : Int) = max ((t.next.length : Int) - 1) 0 := by
  unfold next
  cases h : t.next with
  | nil => simp
  | cons a r => simp

theorem previous_lengths (t : storage) :
    (previous t).next.length = t.next.length + 1 ∧
    ((previous t).prev.length : Int) = max ((t.prev.length : Int) - 1) 0 := by
  unfold previous
  cases h : t.prev with
  | nil => simp
  | cons a r => simp

theorem materialized_next (t : storage) (k : Int) :
    materialized (next t) k ↔ materialized t (k + 1) ∨ k = 0 := by
  obtain ⟨h1, h2⟩ := next_lengths t
  unfold materialized
  rw [h1, h2]
  push_cast
  omega

theorem materialized_previous (t : storage) (k : Int) :
    materialized (previous t) k ↔ materialized t (k - 1) ∨ k = 0 := by
  obtain ⟨h1, h2⟩ := previous_lengths t
  unfold materialized
  rw [h1, h2]
  push_cast
  omega

theorem step_incr_ptr {v : Bool} {p : List Nat} {m : Machine}
    (h : p[m.op]? = some OP_INCR_PTR) :
    step v p m = Outcome.running { m with
      store := next m.store
      output := m.output ++ logIf v Trace.V_OP_INCR_PTR
      op := m.op + 1 } := by
  simp [step, body, h]

theorem step_decr_ptr {v : Bool} {p : List Nat} {m : Machine}
    (h : p[m.op]? = some OP_DECR_PTR) :
    step v p m = Outcome.running { m with
      store := previous m.store
      output := m.output ++ logIf v Trace.V_OP_DECR_PTR
      op := m.op + 1 } := by
  simp [step, body, h]

/-- Claim C14.  View the tape from the cursor as the total map `cellAt` from
offsets to values, 0 where the chain has no cell.  For every tape, `next`
moves the cursor one place to the right and `previous` one place to the left
without changing any value: the view after the move is the old view shifted
by one.  The current cell after the move is what the map held at the
neighbouring offset, which is 0 when the chain had no cell there.  The cells
of the chain are at the offsets of one interval that contains the cursor; a
move adds at most the cell moved to, and every offset outside the interval
reads 0.  The rounds of `OP_INCR_PTR` and `OP_DECR_PTR` do `next` and
`previous` on the tape and nothing else to it. -/
theorem moves_shift_the_view_and_change_no_cell (t : storage) :
    (∀ k, cellAt (next t) k = cellAt t (k + 1)) ∧
    (∀ k, cellAt (previous t) k = cellAt t (k - 1)) ∧
    (next t).value = cellAt t 1 ∧ (previous t).value = cellAt t (-1) ∧
    (¬ materialized t 1 → (next t).value = 0) ∧
    (¬ materialized t (-1) → (previous t).value = 0) ∧
    (∀ k, materialized (next t) k ↔ materialized t (k + 1) ∨ k = 0) ∧
    (∀ k, materialized (previous t) k ↔ materialized t (k - 1) ∨ k = 0) ∧
    (materialized t 0 ∧ ∀ i j k, materialized t i → materialized t j → i ≤ k → k ≤ j →
      materialized t k) ∧
    (∀ k, ¬ materialized t k → cellAt t k = 0) ∧
    (∀ (verbose : Bool) (program : List Nat) (m : Machine),
      (program[m.op]? = some OP_INCR_PTR →
        ∃ m1, step verbose program m = Outcome.running m1 ∧ m1.store = next m.store ∧
          m1.op = m.op + 1) ∧
      (program[m.op]? = some OP_DECR_PTR →
        ∃ m1, step verbose program m = Outcome.running m1 ∧ m1.store = previous m.store ∧
          m1.op = m.op + 1)) := by
  refine ⟨cellAt_next t, cellAt_previous t, ?_, ?_, ?_, ?_, materialized_next t,
    materialized_previous t, ⟨?_, ?_⟩, cellAt_of_not_materialized t, ?_⟩
  · rw [← cellAt_zero (next t), cellAt_next]; rfl
  · rw [← cellAt_zero (previous t), cellAt_previous]; rfl
  · intro h
    rw [← cellAt_zero (next t), cellAt_next]
    exact cellAt_of_not_materialized t _ h
  · intro h
    rw [← cellAt_zero (previous t), cellAt_previous]
    exact cellAt_of_not_materialized t _ h
  · unfold materialized; omega
  · intro i j k hi hj h1 h2
    unfold materialized at *
    omega
  · intro verbose program m
    exact ⟨fun h => ⟨_, step_incr_ptr h, rfl, rfl⟩, fun h => ⟨_, step_decr_ptr h, rfl, rfl⟩⟩

theorem previous_after_next (t : storage) :
    previous (next t) = if t.next = [] then { t with next := [0] } else t := by
  obtain ⟨l, v, r⟩ := t
  cases r <;> simp [next, previous]

theorem next_after_previous (t : storage) :
    next (previous t) = if t.prev = [] then { t with prev := [0] } else t := by
  obtain ⟨l, v, r⟩ := t
  cases l <;> simp [next, previous]

theorem wrapInt_incr_decr {v : Int} (h1 : -2147483648 ≤ v) (h2 : v < 2147483648) :
    wrapInt (wrapInt (v + 1) - 1) = v ∧ wrapInt (wrapInt (v - 1) + 1) = v := by
  unfold wrapInt; omega

/-- Claim C20.  For every tape, `next` followed by `previous`, and `previous`
followed by `next`, gives a tape with the same view from the cursor: every
offset reads what it read before, and the tape itself is the old one except
that a neighbouring cell holding 0 is now part of the chain when there was
none.  For every tape whose current cell holds an `int`, the rounds of
`OP_INCR_DATA` then `OP_DECR_DATA`, and of `OP_DECR_DATA` then
`OP_INCR_DATA`, leave the tape and the cursor as they were; and the rounds of
`OP_INCR_PTR` then `OP_DECR_PTR` (and the other way round) leave the tape
`previous (next t)` (`next (previous t)`). -/
theorem moves_and_counts_undo_each_other (t : storage)
    (hint : -2147483648 ≤ t.value ∧ t.value < 2147483648) :
    (∀ k, cellAt (previous (next t)) k = cellAt t k) ∧
    (∀ k, cellAt (next (previous t)) k = cellAt t k) ∧
    previous (next t) = (if t.next = [] then { t with next := [0] } else t) ∧
    next (previous t) = (if t.prev = [] then { t with prev := [0] } else t) ∧
    (∀ (verbose : Bool) (program bracket : List Nat) (op : Nat) (input : List Nat)
        (output : List Event),
      (program[op]? = some OP_INCR_DATA → program[op + 1]? = some OP_DECR_DATA →
        ∃ out1, runs verbose program 2 ⟨t, bracket, op, input, output⟩
          = some ⟨t, bracket, op + 2, input, out1⟩) ∧
      (program[op]? = some OP_DECR_DATA → program[op + 1]? = some OP_INCR_DATA →
        ∃ out1, runs verbose program 2 ⟨t, bracket, op, input, output⟩
          = some ⟨t, bracket, op + 2, input, out1⟩) ∧
      (program[op]? = some OP_INCR_PTR → program[op + 1]? = some OP_DECR_PTR →
        ∃ out1, runs verbose program 2 ⟨t, bracket, op, input, output⟩
          = some ⟨previous (next t), bracket, op + 2, input, out1⟩) ∧
      (program[op]? = some OP_DECR_PTR → program[op + 1]? = some OP_INCR_PTR →
        ∃ out1, runs verbose program 2 ⟨t, bracket, op, input, output⟩
          = some ⟨next (previous t), bracket, op + 2, input, out1⟩)) := by
  obtain ⟨w1, w2⟩ := wrapInt_incr_decr hint.1 hint.2
  refine ⟨?_, ?_, previous_after_next t, next_after_previous t, ?_⟩
  · intro k
    rw [cellAt_previous, cellAt_next]
    congr 1; omega
  · intro k
    rw [cellAt_next, cellAt_previous]
    congr 1; omega
  · intro verbose program bracket op input output
    refine ⟨fun ha hb => ?_, fun ha hb => ?_, fun ha hb => ?_, fun ha hb => ?_⟩
    · have s1 := step_incr_data (v := verbose) (p := program)
        (m := ⟨t, bracket, op, input, output⟩) ha
      have s2 := step_decr_data (v := verbose) (p := program)
        (m := ⟨{ t with value := wrapInt (t.value + 1) }, bracket, op + 1, input,
          output ++ logIf verbose (Trace.V_OP_INCR_DATA (wrapInt (t.value + 1)))⟩) hb
      refine ⟨output ++ logIf verbose (Trace.V_OP_INCR_DATA (wrapInt (t.value + 1)))
        ++ logIf verbose (Trace.V_OP_DECR_DATA t.value), ?_⟩
      rw [runs_succ s1, runs_succ s2]
      simp [runs, w1]
    · have s1 := step_decr_data (v := verbose) (p := program)
        (m := ⟨t, bracket, op, input, output⟩) ha
      have s2 := step_incr_data (v := verbose) (p := program)
        (m := ⟨{ t with value := wrapInt (t.value - 1) }, bracket, op + 1, input,
          output ++ logIf verbose (Trace.V_OP_DECR_DATA (wrapInt (t.value - 1)))⟩) hb
      refine ⟨output ++ logIf verbose (Trace.V_OP_DECR_DATA (wrapInt (t.value - 1)))
        ++ logIf verbose (Trace.V_OP_INCR_DATA t.value), ?_⟩
      rw [runs_succ s1, runs_succ s2]
      simp [runs, w2]
    · have s1 := step_incr_ptr (v := verbose) (p := program)
        (m := ⟨t, bracket, op, input, output⟩) ha
      have s2 := step_decr_ptr (v := verbose) (p := program)
        (m := ⟨next t, bracket, op + 1, input,
          output ++ logIf verbose Trace.V_OP_INCR_PTR⟩) hb
      refine ⟨output ++ logIf verbose Trace.V_OP_INCR_PTR
        ++ logIf verbose Trace.V_OP_DECR_PTR, ?_⟩
      rw [runs_succ s1, runs_succ s2]
      simp [runs]
    · have s1 := step_decr_ptr (v := verbose) (p := program)
        (m := ⟨t, bracket, op, input, output⟩) ha
      have s2 := step_incr_ptr (v := verbose) (p := program)
        (m := ⟨previous t, bracket, op + 1, input,
          output ++ logIf verbose Trace.V_OP_DECR_PTR⟩) hb
      refine ⟨output ++ logIf verbose Trace.V_OP_DECR_PTR
        ++ logIf verbose Trace.V_OP_INCR_PTR, ?_⟩
      rw [runs_succ s1, runs_succ s2]
      simp [runs]

/-- Claim C20 on the fresh tape `0`: right then left leaves `0` with a new
zero cell to its right. -/
theorem moves_and_counts_undo_each_other_witness :
    (∀ k, cellAt (previous (next (new_storage 0))) k = cellAt (new_storage 0) k) ∧
    previous (next (new_storage 0)) = ⟨[], 0, [0]⟩ :=
  ⟨(moves_and_counts_undo_each_other (new_storage 0) (by decide)).1,
   (moves_and_counts_undo_each_other (new_storage 0) (by decide)).2.2.1⟩

/-! ## Where the output goes -/

@[simp] theorem noteIf_false (t : LoadTrace) : noteIf false t = [] := rfl

@[simp] theorem emitted_putc_cons (b : Nat) (l : List Event) :
    emitted (Event.putc b :: l) = b :: emitted l := rfl

/-- One round writes to standard output the byte of the current cell when the
opcode is `OP_OUTPUT` and no byte otherwise. -/
theorem step_emitted (v : Bool) (p : List Nat) (m : Machine) :
    emitted (step v p m).machine.output = emitted m.output ++
      (if p[m.op]? = some OP_OUTPUT then [toByte m.store.value] else []) := by
  obtain ⟨s1, b1, o1, i1, out1⟩ := m
  simp only [step]
  cases hc : p[o1]? with
  | none => simp [Outcome.machine]
  | some c =>
    by_cases h1 : c = OP_INCR_PTR
    · subst h1; simp [body, Outcome.machine]
    by_cases h2 : c = OP_DECR_PTR
    · subst h2; simp [body, Outcome.machine]
    by_cases h3 : c = OP_INCR_DATA
    · subst h3; simp [body, Outcome.machine]
    by_cases h4 : c = OP_DECR_DATA
    · subst h4; simp [body, Outcome.machine]
    by_cases h5 : c = OP_OUTPUT
    · subst h5; simp [body, Outcome.machine]
    by_cases h6 : c = OP_INPUT
    · subst h6; simp [body, Outcome.machine]
    by_cases h7 : c = OP_LOOP_START
    · subst h7
      by_cases hv : s1.value = 0
      · cases hs : scan (List.drop (o1 + 1) p) o1 1 <;>
          simp [body, Outcome.machine, hv, hs]
      · simp [body, Outcome.machine, hv, push]
    by_cases h8 : c = OP_LOOP_END
    · subst h8
      by_cases hv : s1.value = 0
      · cases hb : b1 <;> simp [body, Outcome.machine, hv, hb, pop]
      · cases hb : b1 with
        | nil => simp [body, Outcome.machine, hv, hb, peek]
        | cons x rest =>
          by_cases hx : x = 18446744073709551615 <;>
            simp [body, Outcome.machine, hv, hb, peek, hx]
    · by_cases h0 : c = OP_EXIT
      · subst h0; simp [Outcome.machine]
      · have h5b : ¬ (some c = some OP_OUTPUT) := fun h => h5 (Option.some.inj h)
        simp only [if_neg h0, body, if_neg h1, if_neg h2, if_neg h3, if_neg h4, if_neg h5,
          if_neg h6, if_neg h7, if_neg h8, Outcome.machine, if_neg h5b, List.append_nil]

/-- With verbosity off one round writes to standard output the byte of the
current cell when the opcode is `OP_OUTPUT` and nothing otherwise. -/
theorem step_quiet (p : List Nat) (m : Machine) :
    (step false p m).machine.output = m.output ++
      (if p[m.op]? = some OP_OUTPUT then [Event.putc (toByte m.store.value)] else []) := by
  obtain ⟨s1, b1, o1, i1, out1⟩ := m
  simp only [step]
  cases hc : p[o1]? with
  | none => simp [Outcome.machine]
  | some c =>
    by_cases h1 : c = OP_INCR_PTR
    · subst h1; simp [body, Outcome.machine]
    by_cases h2 : c = OP_DECR_PTR
    · subst h2; simp [body, Outcome.machine]
    by_cases h3 : c = OP_INCR_DATA
    · subst h3; simp [body, Outcome.machine]
    by_cases h4 : c = OP_DECR_DATA
    · subst h4; simp [body, Outcome.machine]
    by_cases h5 : c = OP_OUTPUT
    · subst h5; simp [body, Outcome.machine]
    by_cases h6 : c = OP_INPUT
    · subst h6; simp [body, Outcome.machine]
    by_cases h7 : c = OP_LOOP_START
    · subst h7
      by_cases hv : s1.value = 0
      · cases hs : scan (List.drop (o1 + 1) p) o1 1 <;>
          simp [body, Outcome.machine, hv, hs]
      · simp [body, Outcome.machine, hv, push]
    by_cases h8 : c = OP_LOOP_END
    · subst h8
      by_cases hv : s1.value = 0
      · cases hb : b1 <;> simp [body, Outcome.machine, hv, hb, pop]
      · cases hb : b1 with
        | nil => simp [body, Outcome.machine, hv, hb, peek]
        | cons x rest =>
          by_cases hx : x = 18446744073709551615 <;>
            simp [body, Outcome.machine, hv, hb, peek, hx]
    · by_cases h0 : c = OP_EXIT
      · subst h0; simp [Outcome.machine]
      · have h5b : ¬ (some c = some OP_OUTPUT) := fun h => h5 (Option.some.inj h)
        simp only [if_neg h0, body, if_neg h1, if_neg h2, if_neg h3, if_neg h4, if_neg h5,
          if_neg h6, if_neg h7, if_neg h8, Outcome.machine, if_neg h5b, List.append_nil]

theorem outputs_cons (p : List Nat) (i : Nat) (t : List Nat) :
    outputs p (i :: t) = (if p[i]? = some OP_OUTPUT then 1 else 0) + outputs p t := by
  unfold outputs
  by_cases h : p[i]? = some OP_OUTPUT
  · simp [List.filter_cons, h]; omega
  · simp [List.filter_cons, h]

/-- Over a run, standard output receives as many bytes as `OP_OUTPUT` rounds
were run. -/
theorem evalLoop_emitted (v : Bool) (p : List Nat) (fuel : Nat) :
    ∀ m, (emitted (evalLoop v p fuel m).machine.output).length =
      (emitted m.output).length + outputs p (executed v p fuel m) := by
  induction fuel with
  | zero =>
    intro m
    simp only [evalLoop, executed]
    cases hc : p[m.op]? with
    | none => simp [Outcome.machine, outputs]
    | some c => by_cases h0 : c = OP_EXIT <;> simp [Outcome.machine, outputs, h0]
  | succ fuel ih =>
    intro m
    have hs := step_emitted v p m
    cases hst : step v p m with
    | running m1 =>
      rw [evalLoop_succ hst, executed_succ hst, ih m1, outputs_cons]
      rw [hst] at hs
      simp only [Outcome.machine] at hs
      rw [hs, List.length_append]
      by_cases h : p[m.op]? = some OP_OUTPUT
      · simp [h]; omega
      · simp [h]
    | halted m1 =>
      have e1 : evalLoop v p (fuel + 1) m = Outcome.halted m1 := by simp [evalLoop, hst]
      have e2 : executed v p (fuel + 1) m = [] := by simp [executed, hst]
      rw [e1, e2]
      rw [hst] at hs
      simp only [Outcome.machine] at hs ⊢
      have hne : p[m.op]? ≠ some OP_OUTPUT := by
        intro h
        rw [step_output h] at hst
        cases hst
      rw [hs, if_neg hne]
      simp [outputs]
    | failed f m1 =>
      have e1 : evalLoop v p (fuel + 1) m = Outcome.failed f m1 := by simp [evalLoop, hst]
      have hne : p[m.op]? ≠ some OP_OUTPUT := by
        intro h
        rw [step_output h] at hst
        cases hst
      have e2 : outputs p (executed v p (fuel + 1) m) = 0 := by
        simp only [executed, hst]
        cases hc : p[m.op]? with
        | none => simp [outputs]
        | some c =>
          have hc5 : c ≠ 5 := by
            intro h
            apply hne
            rw [hc, h]
          simp [outputs, hc, hc5]
      rw [e1, e2]
      rw [hst] at hs
      simp only [Outcome.machine] at hs ⊢
      rw [hs, if_neg hne]
      simp

/-- With verbosity off, standard output receives exactly one byte for each
`OP_OUTPUT` round that was run, and nothing else. -/
theorem evalLoop_quiet (p : List Nat) (fuel : Nat) :
    ∀ m, ∃ bs : List Nat,
      (evalLoop false p fuel m).machine.output = m.output ++ bs.map Event.putc ∧
      bs.length = outputs p (executed false p fuel m) := by
  induction fuel with
  | zero =>
    intro m
    refine ⟨[], ?_, ?_⟩
    · simp only [evalLoop]
      cases hc : p[m.op]? with
      | none => simp [Outcome.machine]
      | some c => by_cases h0 : c = OP_EXIT <;> simp [Outcome.machine, h0]
    · simp [executed, outputs]
  | succ fuel ih =>
    intro m
    have hs := step_quiet p m
    cases hst : step false p m with
    | running m1 =>
      obtain ⟨bs, hb1, hb2⟩ := ih m1
      rw [hst] at hs
      simp only [Outcome.machine] at hs
      rw [evalLoop_succ hst, executed_succ hst, outputs_cons, hb1, hs]
      by_cases h : p[m.op]? = some OP_OUTPUT
      · refine ⟨toByte m.store.value :: bs, ?_, ?_⟩
        · simp [h]
        · simp [h, hb2]; omega
      · refine ⟨bs, ?_, ?_⟩
        · simp [h]
        · simp [h, hb2]
    | halted m1 =>
      have e1 : evalLoop false p (fuel + 1) m = Outcome.halted m1 := by simp [evalLoop, hst]
      have e2 : executed false p (fuel + 1) m = [] := by simp [executed, hst]
      have hne : p[m.op]? ≠ some OP_OUTPUT := by
        intro h
        rw [step_output h] at hst
        cases hst
      rw [hst] at hs
      simp only [Outcome.machine] at hs
      refine ⟨[], ?_, ?_⟩
      · rw [e1]; simp only [Outcome.machine]; rw [hs, if_neg hne]; simp
      · rw [e2]; simp [outputs]
    | failed f m1 =>
      have e1 : evalLoop false p (fuel + 1) m = Outcome.failed f m1 := by simp [evalLoop, hst]
      have hne : p[m.op]? ≠ some OP_OUTPUT := by
        intro h
        rw [step_output h] at hst
        cases hst
      have e2 : outputs p (executed false p (fuel + 1) m) = 0 := by
        simp only [executed, hst]
        cases hc : p[m.op]? with
        | none => simp [outputs]
        | some c =>
          have hc5 : c ≠ 5 := by
            intro h
            apply hne
            rw [hc, h]
          simp [outputs, hc, hc5]
      rw [hst] at hs
      simp only [Outcome.machine] at hs
      refine ⟨[], ?_, ?_⟩
      · rw [e1]; simp only [Outcome.machine]; rw [hs, if_neg hne]; simp
      · rw [e2]; rfl

theorem fopen_w_reads {d d1 : Disk} {name : String} (h : fopen_w d name = some d1) :
    fopen_r d1 name = some [] ∧
      ∀ other, other ≠ name → fopen_r d1 other = fopen_r d other := by
  unfold fopen_w at h
  by_cases hl : name ∈ d.locked
  · rw [if_pos hl] at h; cases h
  · rw [if_neg hl] at h
    cases h
    refine ⟨by simp [fopen_r, List.lookup], ?_⟩
    intro other ho
    have hb : (other == name) = false := by simpa using ho
    simp only [fopen_r, List.lookup, hb]
    generalize d.files = fs
    induction fs with
    | nil => rfl
    | cons f rest ih =>
      obtain ⟨n, c⟩ := f
      simp only [ne_eq, decide_not] at ih
      by_cases hn : n = name
      · subst hn
        have hb2 : (other == n) = false := hb
        simp [List.filter_cons, List.lookup, hb2, ih]
      · by_cases hon : other = n
        · subst hon
          simp [List.filter_cons, List.lookup, hn]
        · have hb3 : (other == n) = false := by simpa using hon
          simp [List.filter_cons, List.lookup, hn, hb3, ih]

/-- What `load` leaves of the files: without an output file name nothing is
changed; with one, that file is empty and every other file is as before. -/
theorem load_files_disk {beyond : Nat → Nat} {a : Args} {d : Disk} {l : Loaded}
    (h : load_files beyond a d = Except.ok l) :
    (a.output_fn = "" → l.output_file = none ∧ l.disk = d) ∧
    (a.output_fn ≠ "" → l.output_file = some a.output_fn ∧
      fopen_r l.disk a.output_fn = some [] ∧
      ∀ name, name ≠ a.output_fn → fopen_r l.disk name = fopen_r d name) := by
  unfold load_files at h
  simp only at h
  split at h
  · cases h
  · by_cases ho : a.output_fn = ""
    · simp only [ho, ne_eq, not_true_eq_false, if_false] at h
      split at h
      · cases h
      · split at h
        · cases h
        · cases h
          simp [ho]
    · simp only [ne_eq, ho, not_false_eq_true, if_true] at h
      split at h
      · cases h
      · rename_i d1 hd1
        obtain ⟨r1, r2⟩ := fopen_w_reads hd1
        split at h
        · cases h
        · split at h
          · cases h
          · cases h
            simp [ho, r1]
            exact r2

/-- The opcode buffer that `load` returns is `load` of the bytes of the
program file, read after the output file has been opened. -/
theorem load_files_program {beyond : Nat → Nat} {a : Args} {d : Disk} {l : Loaded}
    (h : load_files beyond a d = Except.ok l) :
    ∃ src, fopen_r l.disk a.program_fn = some src ∧ load beyond src = some l.program := by
  unfold load_files at h
  simp only at h
  split at h
  · cases h
  · split at h
    · cases h
    · split at h
      · cases h
      · rename_i src hsrc
        split at h
        · cases h
        · rename_i program hprog
          cases h
          exact ⟨src, hsrc, hprog⟩

theorem main_ok {beyond : Nat → Nat} {argv : List String} {disk : Disk} {stdin : List Nat}
    {fuel : Nat} {r : Process} (h : main beyond argv disk stdin fuel = Except.ok r) :
    ∃ l input, load_files beyond (parse_args argv) disk = Except.ok l ∧
      r.run = eval (parse_args argv).verbose_mode l.program input fuel ∧
      r.disk = l.disk := by
  unfold main at h
  simp only at h
  cases hl : load_files beyond (parse_args argv) disk with
  | error e => rw [hl] at h; cases h
  | ok l =>
    rw [hl] at h
    simp only [Except.ok.injEq] at h
    subst h
    exact ⟨l, _, rfl, rfl, rfl⟩

/-- Claim C12, on the code.  The run `bf -o out.txt prog.bf` with the two
characters `+.` in `prog.bf` halts after its two rounds, one of them an
`OP_OUTPUT`: the byte 1 is on standard output, and the output file `out.txt`
has been created and holds no byte.  A run `bf -i in.txt prog.bf` with `,`
in `prog.bf` does read its byte from the file `in.txt` and not from standard
input.  For every run of `main` that gets past `load`: an output file named
with `-o` is empty afterwards, every other file is as it was before, and the
run is a run of `eval`.  For every run of `eval`, standard output receives
one byte for each `OP_OUTPUT` round that was run, the current cell as an
`unsigned char`, and with verbosity off no round writes anything else: it is
standard output, not the output file, that receives as many bytes as
`OP_OUTPUT` rounds were run.  (On a run that aborts, `puts` also writes the
error message to standard output; that line is not among the events of
`Machine.output`, the abort is the `Fault` of the outcome.) -/
theorem output_file_is_opened_and_never_written (beyond : Nat → Nat) :
    main beyond ["bf", "-o", "out.txt", "prog.bf"] ⟨[("prog.bf", bytes "+.")], []⟩ [] 2
      = Except.ok ⟨[], Outcome.halted ⟨⟨[], 1, []⟩, [], 2, [], [Event.putc 1]⟩,
          ⟨[("out.txt", []), ("prog.bf", bytes "+.")], []⟩⟩ ∧
    load beyond (bytes "+.") = some [OP_INCR_DATA, OP_OUTPUT, OP_EXIT] ∧
    outputs [OP_INCR_DATA, OP_OUTPUT, OP_EXIT]
      (executed false [OP_INCR_DATA, OP_OUTPUT, OP_EXIT] 2 (initial [])) = 1 ∧
    main beyond ["bf", "-i", "in.txt", "prog.bf"]
        ⟨[("in.txt", [65]), ("prog.bf", bytes ",")], []⟩ [66] 1
      = Except.ok ⟨[], Outcome.halted ⟨⟨[], 65, []⟩, [], 1, [], []⟩,
          ⟨[("in.txt", [65]), ("prog.bf", bytes ",")], []⟩⟩ ∧
    (∀ (argv : List String) (disk : Disk) (stdin : List Nat) (fuel : Nat) (r : Process),
      main beyond argv disk stdin fuel = Except.ok r →
        ((parse_args argv).output_fn ≠ "" →
          fopen_r r.disk (parse_args argv).output_fn = some []) ∧
        (∀ name, name ≠ (parse_args argv).output_fn →
          fopen_r r.disk name = fopen_r disk name) ∧
        ∃ src program input : List Nat,
          fopen_r r.disk (parse_args argv).program_fn = some src ∧
          load beyond src = some program ∧
          r.run = eval (parse_args argv).verbose_mode program input fuel) ∧
    (∀ (verbose : Bool) (program : List Nat) (m : Machine),
      emitted (step verbose program m).machine.output = emitted m.output ++
        (if program[m.op]? = some OP_OUTPUT then [toByte m.store.value] else [])) ∧
    (∀ (verbose : Bool) (program input : List Nat) (fuel : Nat),
      (emitted (eval verbose program input fuel).machine.output).length =
        outputs program (executed verbose program fuel (initial input))) ∧
    (∀ (program input : List Nat) (fuel : Nat), ∃ bs : List Nat,
      (eval false program input fuel).machine.output = bs.map Event.putc ∧
      bs.length = outputs program (executed false program fuel (initial input))) := by
  refine ⟨rfl, rfl, rfl, rfl, ?_, step_emitted, ?_, ?_⟩
  · intro argv disk stdin fuel r h
    obtain ⟨l, input, hl, hrun, hdisk⟩ := main_ok h
    have hd := load_files_disk hl
    refine ⟨?_, ?_, ?_⟩
    · intro ho
      rw [hdisk]
      exact (hd.2 ho).2.1
    · intro name hn
      rw [hdisk]
      by_cases ho : (parse_args argv).output_fn = ""
      · rw [(hd.1 ho).2]
      · exact (hd.2 ho).2.2 name hn
    · obtain ⟨src, hs1, hs2⟩ := load_files_program hl
      exact ⟨src, l.program, input, by rw [hdisk]; exact hs1, hs2, hrun⟩
  · intro verbose program input fuel
    have h := evalLoop_emitted verbose program fuel (initial input)
    simpa [eval, initial, emitted] using h
  · intro program input fuel
    obtain ⟨bs, h1, h2⟩ := evalLoop_quiet program fuel (initial input)
    exact ⟨bs, by simpa [eval, initial] using h1, h2⟩

/-! ## Nesting deeper than an `int` counts -/

theorem depthCheck_replicate_open (n : Nat) : ∀ (rest : List Nat) (d : Nat),
    depthCheck (List.replicate n 91 ++ rest) d = depthCheck rest (d + n) := by
  induction n with
  | zero => intro rest d; rfl
  | succ n ih =>
    intro rest d
    rw [List.replicate_succ, List.cons_append, depthCheck, if_pos rfl, ih]
    congr 1
    omega

theorem depthCheck_replicate_close (n : Nat) : ∀ (d : Nat),
    depthCheck (List.replicate n 93) (d + n) = (d == 0) := by
  induction n with
  | zero => intro d; rfl
  | succ n ih =>
    intro d
    rw [List.replicate_succ, depthCheck, if_neg (by decide), if_pos rfl]
    have h1 : d + (n + 1) - 1 = d + n := by omega
    have h2 : decide (0 < d + (n + 1)) = true := by simp
    rw [h1, ih, h2, Bool.true_and]

/-- The source of `n` nested pairs of brackets is balanced. -/
theorem balanced_nested (n : Nat) :
    balanced (List.replicate n 91 ++ List.replicate n 93) = true := by
  unfold balanced
  rw [depthCheck_replicate_open]
  have := depthCheck_replicate_close n 0
  rw [this]
  rfl

theorem filterMap_replicate_open (n : Nat) :
    (List.replicate n 91).filterMap opcodeOf = List.replicate n OP_LOOP_START := by
  induction n with
  | zero => rfl
  | succ n ih => simp [List.replicate_succ, List.filterMap_cons, opcodeOf, ih]

theorem filterMap_replicate_close (n : Nat) :
    (List.replicate n 93).filterMap opcodeOf = List.replicate n OP_LOOP_END := by
  induction n with
  | zero => rfl
  | succ n ih => simp [List.replicate_succ, List.filterMap_cons, opcodeOf, ih]

/-- The source of `n` nested pairs of brackets compiles to `n` times
`OP_LOOP_START`, `n` times `OP_LOOP_END` and `OP_EXIT`. -/
theorem load_nested (beyond : Nat → Nat) (n : Nat) :
    load beyond (List.replicate n 91 ++ List.replicate n 93)
      = some (List.replicate n OP_LOOP_START ++ (List.replicate n OP_LOOP_END ++ [OP_EXIT])) := by
  rw [load_eq_compileSpec, compileSpec, List.filterMap_append, filterMap_replicate_open,
    filterMap_replicate_close, List.append_assoc]

theorem nested_getElem?_start (n : Nat) (tl : List Nat) {q : Nat} (h : q < n) :
    (List.replicate n OP_LOOP_START ++ tl)[q]? = some OP_LOOP_START := by
  rw [List.getElem?_append_left (by simpa using h)]
  simp [List.getElem?_replicate, h]

theorem nested_getElem?_end (n : Nat) {q : Nat} (h : q < n) :
    (List.replicate n OP_LOOP_START ++ (List.replicate n OP_LOOP_END ++ [OP_EXIT]))[n + q]?
      = some OP_LOOP_END := by
  rw [List.getElem?_append_right (by simp)]
  simp only [List.length_replicate, Nat.add_sub_cancel_left]
  rw [List.getElem?_append_left (by simpa using h)]
  simp [List.getElem?_replicate, h]

/-- The bracket search runs through `k` times `OP_LOOP_START` counting up, as
long as the count stays an `int`. -/
theorem scan_replicate_start (k : Nat) : ∀ (rest : List Nat) (op : Nat) (level : Int),
    1 ≤ level → level + k ≤ 2147483647 →
    scan (List.replicate k OP_LOOP_START ++ rest) op level = scan rest (op + k) (level + k) := by
  induction k with
  | zero => intro rest op level _ _; simp
  | succ k ih =>
    intro rest op level h1 h2
    have hw : wrapInt (level + 1) = level + 1 :=
      wrapInt_of_range (by omega) (by push_cast at h2; omega)
    rw [List.replicate_succ, List.cons_append, scan, if_pos rfl, hw, if_pos (by omega),
      ih rest (op + 1) (level + 1) (by omega) (by push_cast at h2 ⊢; omega)]
    congr 1
    · omega
    · push_cast; omega

/-- At the count `INT_MAX` one more `OP_LOOP_START` makes the count negative,
and the search stops there. -/
theorem scan_overflow (rest : List Nat) (op : Nat) :
    scan (OP_LOOP_START :: rest) op 2147483647 = Scan.found (op + 1) := by
  rw [scan, if_pos rfl]
  have : wrapInt (2147483647 + 1) = -2147483648 := by decide
  rw [this, if_neg (by decide)]

/-- The first round on `2^31` nested pairs of brackets: the search from the
first `OP_LOOP_START` stops at the last one, and `op` is at the first
`OP_LOOP_END`. -/
theorem nested_first_round (n : Nat) (hn : n = 2147483648) :
    step false (List.replicate n OP_LOOP_START ++ (List.replicate n OP_LOOP_END ++ [OP_EXIT]))
      (initial []) = Outcome.running ⟨⟨[], 0, []⟩, [], n, [], []⟩ := by
  obtain ⟨k, rfl⟩ : ∃ k, n = k + 2 := ⟨n - 2, by omega⟩
  have h7 : (List.replicate (k + 2) OP_LOOP_START ++
      (List.replicate (k + 2) OP_LOOP_END ++ [OP_EXIT]))[(initial []).op]? = some OP_LOOP_START :=
    nested_getElem?_start (k + 2) _ (Nat.succ_pos _)
  have hs : scan ((List.replicate (k + 2) OP_LOOP_START ++
      (List.replicate (k + 2) OP_LOOP_END ++ [OP_EXIT])).drop ((initial []).op + 1))
      (initial []).op 1 = Scan.found (k + 1) := by
    have hd : (List.replicate (k + 2) OP_LOOP_START ++
        (List.replicate (k + 2) OP_LOOP_END ++ [OP_EXIT])).drop ((initial []).op + 1)
        = List.replicate k OP_LOOP_START ++
          (OP_LOOP_START :: (List.replicate (k + 2) OP_LOOP_END ++ [OP_EXIT])) := by
      have e1 : List.replicate (k + 2) OP_LOOP_START
          = OP_LOOP_START :: (List.replicate k OP_LOOP_START ++ [OP_LOOP_START]) := by
        rw [List.replicate_succ, List.replicate_succ']
      rw [e1]
      simp [initial]
    rw [hd, scan_replicate_start k _ _ 1 (Int.le_refl 1) (by omega)]
    have e2 : (1 : Int) + (k : Int) = 2147483647 := by omega
    rw [e2, scan_overflow]
    simp [initial]
  rw [step_loop_start_skip h7 rfl hs]
  simp [initial, new_storage]

/-- The second round on `2^31` nested pairs of brackets: `op` is at an
`OP_LOOP_END` on a zero cell and the bracket stack is `NULL`. -/
theorem nested_second_round (n : Nat) (hn : 0 < n) :
    (List.replicate n OP_LOOP_START ++ (List.replicate n OP_LOOP_END ++ [OP_EXIT]))[n]?
      = some OP_LOOP_END ∧
    step false (List.replicate n OP_LOOP_START ++ (List.replicate n OP_LOOP_END ++ [OP_EXIT]))
      ⟨⟨[], 0, []⟩, [], n, [], []⟩
      = Outcome.failed Fault.nullDeref ⟨⟨[], 0, []⟩, [], n, [], []⟩ := by
  have h8 := nested_getElem?_end n hn
  rw [Nat.add_zero] at h8
  refine ⟨h8, ?_⟩
  simp only [step, h8]
  simp [body, pop]

/-- The depth in front of the indices of `n` nested pairs of brackets: it
goes up to `n` and down again. -/
theorem nested_depthAt (n : Nat) :
    (∀ q, q ≤ n → depthAt (List.replicate n OP_LOOP_START ++
      (List.replicate n OP_LOOP_END ++ [OP_EXIT])) q = (q : Int)) ∧
    (∀ q, q ≤ n → depthAt (List.replicate n OP_LOOP_START ++
      (List.replicate n OP_LOOP_END ++ [OP_EXIT])) (n + q) = (n : Int) - (q : Int)) := by
  have up : ∀ q, q ≤ n → depthAt (List.replicate n OP_LOOP_START ++
      (List.replicate n OP_LOOP_END ++ [OP_EXIT])) q = (q : Int) := by
    intro q
    induction q with
    | zero => intro _; rfl
    | succ q ih =>
      intro hq
      rw [depthAt_succ_of (nested_getElem?_start n _ (Nat.lt_of_succ_le hq)), if_pos rfl,
        ih (Nat.le_of_succ_le hq)]
      push_cast; rfl
  refine ⟨up, ?_⟩
  intro q
  induction q with
  | zero => intro _; rw [Nat.add_zero, up n (Nat.le_refl n)]; simp
  | succ q ih =>
    intro hq
    rw [← Nat.add_assoc, depthAt_succ_of (nested_getElem?_end n (Nat.lt_of_succ_le hq)),
      if_neg (by decide), if_pos rfl, ih (Nat.le_of_succ_le hq)]
    push_cast; omega

/-- In `n` nested pairs of brackets the `OP_LOOP_START` at `j` statically
matches the `OP_LOOP_END` at `2 n - 1 - j`. -/
theorem nested_matchingEnd (n j e : Nat) (hj : j < n) (he : e + j + 1 = 2 * n) :
    MatchingEnd (List.replicate n OP_LOOP_START ++
      (List.replicate n OP_LOOP_END ++ [OP_EXIT])) j e := by
  obtain ⟨up, down⟩ := nested_depthAt n
  obtain ⟨r, hr⟩ : ∃ r, e = n + r := ⟨e - n, by omega⟩
  have hrn : r < n := by omega
  refine ⟨by omega, nested_getElem?_start n _ hj, ?_, ?_, ?_⟩
  · rw [hr]; exact nested_getElem?_end n hrn
  · rw [hr, Nat.add_assoc, down (r + 1) (by omega), up j (by omega)]
    push_cast; omega
  · intro q h1 h2
    rw [up j (by omega)]
    by_cases hq : q ≤ n
    · rw [up q hq]; omega
    · obtain ⟨t, ht⟩ : ∃ t, q = n + t := ⟨q - n, by omega⟩
      rw [ht, down t (by omega)]
      omega

/-- Counterexample to claim C15.  In the stream compiled from the balanced
source of `2^31` times `[` followed by `2^31` times `]`, the `OP_LOOP_START`
at index 0 statically matches the `OP_LOOP_END` at index `2^32 - 1`; the
round from the fresh state, at that `OP_LOOP_START` with the cell 0, sets
`op` to `2^31` and not to `2^32`. -/
theorem deep_nesting_jumps_short_of_the_match :
    balanced (List.replicate 2147483648 91 ++ List.replicate 2147483648 93) = true ∧
    load (fun _ => 0) (List.replicate 2147483648 91 ++ List.replicate 2147483648 93)
      = some (List.replicate 2147483648 OP_LOOP_START ++
          (List.replicate 2147483648 OP_LOOP_END ++ [OP_EXIT])) ∧
    (List.replicate 2147483648 OP_LOOP_START ++
        (List.replicate 2147483648 OP_LOOP_END ++ [OP_EXIT]))[(initial []).op]?
      = some OP_LOOP_START ∧
    (initial []).store.value = 0 ∧
    MatchingEnd (List.replicate 2147483648 OP_LOOP_START ++
        (List.replicate 2147483648 OP_LOOP_END ++ [OP_EXIT])) 0 4294967295 ∧
    step false (List.replicate 2147483648 OP_LOOP_START ++
        (List.replicate 2147483648 OP_LOOP_END ++ [OP_EXIT])) (initial [])
      = Outcome.running ⟨⟨[], 0, []⟩, [], 2147483648, [], []⟩ ∧
    (2147483648 : Nat) ≠ 4294967295 + 1 :=
  ⟨balanced_nested _, load_nested _ _, nested_getElem?_start _ _ (by decide), rfl,
    nested_matchingEnd 2147483648 0 4294967295 (by decide) (by decide),
    nested_first_round 2147483648 rfl, by decide⟩

/-- Counterexample to claim C16.  In the run of the stream compiled from the
balanced source of `2^31` times `[` followed by `2^31` times `]`, the state
after one round has `op` at index `2^31`, at the first `OP_LOOP_END`, and an
empty bracket stack, although the pair of every one of the `2^31`
`OP_LOOP_START` opcodes encloses `op`; the round of that `OP_LOOP_END`, on
the zero cell, pops no entry and does not move `op` on: it fails on the
empty stack. -/
theorem deep_nesting_leaves_the_stack_empty_inside_loops :
    balanced (List.replicate 2147483648 91 ++ List.replicate 2147483648 93) = true ∧
    load (fun _ => 0) (List.replicate 2147483648 91 ++ List.replicate 2147483648 93)
      = some (List.replicate 2147483648 OP_LOOP_START ++
          (List.replicate 2147483648 OP_LOOP_END ++ [OP_EXIT])) ∧
    runs false (List.replicate 2147483648 OP_LOOP_START ++
        (List.replicate 2147483648 OP_LOOP_END ++ [OP_EXIT])) 1 (initial [])
      = some ⟨⟨[], 0, []⟩, [], 2147483648, [], []⟩ ∧
    (∀ j, j < 2147483648 →
      MatchingEnd (List.replicate 2147483648 OP_LOOP_START ++
        (List.replicate 2147483648 OP_LOOP_END ++ [OP_EXIT])) j (4294967295 - j) ∧
      j < 2147483648 ∧ 2147483648 ≤ 4294967295 - j ∧ j ∉ ([] : List Nat)) ∧
    (List.replicate 2147483648 OP_LOOP_START ++
        (List.replicate 2147483648 OP_LOOP_END ++ [OP_EXIT]))[2147483648]?
      = some OP_LOOP_END ∧
    step false (List.replicate 2147483648 OP_LOOP_START ++
        (List.replicate 2147483648 OP_LOOP_END ++ [OP_EXIT]))
      ⟨⟨[], 0, []⟩, [], 2147483648, [], []⟩
      = Outcome.failed Fault.nullDeref ⟨⟨[], 0, []⟩, [], 2147483648, [], []⟩ := by
  have r1 := nested_first_round 2147483648 rfl
  obtain ⟨h8, r2⟩ := nested_second_round 2147483648 (by decide)
  refine ⟨balanced_nested _, load_nested _ _, ?_, ?_, h8, r2⟩
  · rw [runs_succ r1]; rfl
  · intro j hj
    exact ⟨nested_matchingEnd 2147483648 j (4294967295 - j) hj (by omega), hj, by omega,
      List.not_mem_nil j⟩

end BF
